import Mathlib

/-!
# Fortunate-Flight: a verification development

A shallow embedding of `src/Fortunate_Flight.cpp` (a C program despite its
file name) and theorems about it.

Conventions of the embedding.

* A C `int` is an `Int`; every arithmetic result goes through `wrap32`
  (two's complement, 32 bits).
* A pointer to a `struct flight_schedule` is `Option Int`: `none` is `NULL`,
  `some i` is `&array[i]` (the index may lie outside of the array, as
  `&array[n-2]` does for `n = 1`).  Dereferencing `NULL` or an address outside
  of the array is a fault: the operation returns `none` (undefined behaviour in
  C).
* A `city_t` buffer is the list of the characters before its terminating NUL.
* What the program prints is returned as a list of `msg` values.
* `scanf("%d", p)` is an `Option Int` argument: `none` when no integer could
  be read.
* `qsort` (libc) is a parameter of the functions that call it; the theorems
  assume only the contract of the C standard (`qsort_contract`).
-/

namespace FortunateFlight

/-! ## Constants and types (lines 7-45) -/

def MAX_CITY_NAME_LEN : Nat := 20
def MAX_FLIGHTS_PER_CITY : Nat := 5
def TIME_MIN : Int := 0
def TIME_MAX : Int := (60 * 24) - 1
def TIME_NULL : Int := -1

/-- Two's complement reduction of an integer to the range of a 32-bit `int`. -/
def wrap32 (x : Int) : Int := (x + 2147483648) % 4294967296 - 2147483648

/-- Values a C `int` can hold. -/
def is_int (x : Int) : Prop := -2147483648 ≤ x ∧ x ≤ 2147483647

instance (x : Int) : Decidable (is_int x) := by unfold is_int; infer_instance

/-- Mirror of `struct flight`. -/
structure flight where
  time : Int
  available : Int
  capacity : Int
deriving DecidableEq

/-- Mirror of `city_t`: the characters before the terminating NUL. -/
abbrev city_t := List Char

/-- Pointer to a schedule: `none` is NULL, `some i` is `&array[i]`. -/
abbrev ptr := Option Int

/-- Mirror of `struct flight_schedule`. -/
structure flight_schedule where
  destination : city_t
  flights : List flight
  next : ptr
  prev : ptr
deriving DecidableEq

/-- What the `msg_*` functions and the `printf` calls print. -/
inductive msg where
  | city_bad (city : city_t)
  | city_exists (city : city_t)
  | schedule_no_free
  | city_flights (city : city_t)
  | flight_info (time avail capacity : Int)
  | city_max_flights_reached
  | flight_bad_time
  | flight_no_seats
  | flight_all_seats_empty
  | time_bad
  | capacity_bad
  | newline
deriving DecidableEq

/-! ## Input validation (lines 332-354) -/

/-- Mirror of `time_get`: `some t` when the function returns true with
`*time_ptr = t`. The message is printed only when `scanf` reads no integer. -/
def time_get (inp : Option Int) : Option Int × List msg :=
  match inp with
  | some t =>
    if TIME_NULL = t ∨ (t ≥ TIME_MIN ∧ t ≤ TIME_MAX) then (some t, []) else (none, [])
  | none => (none, [msg.time_bad])

/-- Mirror of `flight_capacity_get`. -/
def flight_capacity_get (inp : Option Int) : Option Int × List msg :=
  match inp with
  | some c => if c > 0 then (some c, []) else (none, [])
  | none => (none, [msg.capacity_bad])

/-! ## Sorting (lines 356-368) -/

/-- Mirror of `flight_compare_time`. -/
def flight_compare_time (a b : flight) : Int := wrap32 (a.time - b.time)

/-- The type of `qsort` specialised to arrays of `struct flight`. -/
abbrev qsort_t := (flight → flight → Int) → List flight → List flight

/-- Mirror of `flight_schedule_sort_flights_by_time`, acting on the array
`fs->flights`. -/
def flight_schedule_sort_flights_by_time (qsort : qsort_t) (flights : List flight) :
    List flight :=
  qsort flight_compare_time flights

/-- The comparison function defines a total ordering on the elements of `l`
(the requirement of the C standard on the argument of `qsort`). -/
def cmp_consistent (cmp : flight → flight → Int) (l : List flight) : Prop :=
  (∀ a ∈ l, ∀ b ∈ l, (cmp a b < 0 ↔ 0 < cmp b a)) ∧
  (∀ a ∈ l, ∀ b ∈ l, ∀ c ∈ l, cmp a b ≤ 0 → cmp b c ≤ 0 → cmp a c ≤ 0)

/-- Contract of the libc function `qsort` (C standard, 7.22.5.2): with a
consistent comparison function the array is rearranged (a permutation) into
ascending order. -/
def qsort_contract (qsort : qsort_t) : Prop :=
  ∀ cmp l, cmp_consistent cmp l →
    List.Perm (qsort cmp l) l ∧ List.Pairwise (fun a b => cmp a b ≤ 0) (qsort cmp l)

/-- Ordered insertion, the step of `insertion_qsort`. -/
def ordered_insert (cmp : flight → flight → Int) (x : flight) : List flight → List flight
  | [] => [x]
  | y :: ys => if cmp x y ≤ 0 then x :: y :: ys else y :: ordered_insert cmp x ys

/-- One implementation of `qsort` (insertion sort), used to evaluate the
program on concrete inputs. -/
def insertion_qsort : qsort_t :=
  fun cmp l => l.foldr (ordered_insert cmp) []

/-! ## Flight table operations (lines 501-619), on the array `schedule->flights` -/

/-- The `for` loop of `flight_schedule_add_flight` (lines 512-522) up to the
call of the sort: `none` when no slot is empty (`success` stays false). -/
def add_flight_loop (time capacity : Int) : List flight → Option (List flight)
  | [] => none
  | f :: rest =>
    if f.time = TIME_NULL then
      some ({ time := time, available := capacity, capacity := capacity } :: rest)
    else (add_flight_loop time capacity rest).map (fun r => f :: r)

/-- The `else` branch of `flight_schedule_add_flight` (lines 508-527). -/
def add_flight_body (qsort : qsort_t) (flights : List flight) (tin cin : Option Int) :
    List flight × List msg :=
  match time_get tin with
  | (none, m) => (flights, m)
  | (some time, m) =>
    match flight_capacity_get cin with
    | (none, m2) => (flights, m ++ m2)
    | (some capacity, m2) =>
      match add_flight_loop time capacity flights with
      | some fl => (flight_schedule_sort_flights_by_time qsort fl, m ++ m2)
      | none => (flights, m ++ m2 ++ [msg.city_max_flights_reached])

/-- The `for` loop of `flight_schedule_remove_flight` (lines 543-553) up to the
call of the sort: `none` when no slot has the time. -/
def remove_flight_loop (time : Int) : List flight → Option (List flight)
  | [] => none
  | f :: rest =>
    if f.time = time then
      some ({ time := TIME_NULL, available := 0, capacity := 0 } :: rest)
    else (remove_flight_loop time rest).map (fun r => f :: r)

/-- The `else` branch of `flight_schedule_remove_flight` (lines 540-557). -/
def remove_flight_body (qsort : qsort_t) (flights : List flight) (tin : Option Int) :
    List flight × List msg :=
  match time_get tin with
  | (none, m) => (flights, m)
  | (some time, m) =>
    match remove_flight_loop time flights with
    | some fl => (flight_schedule_sort_flights_by_time qsort fl, m)
    | none => (flights, m ++ [msg.flight_bad_time])

/-- The `for` loop of `flight_schedule_schedule_seat` (lines 572-582): `none`
when no slot passes the test of line 573 (`success` stays false). -/
def schedule_seat_loop (time : Int) : List flight → Option (List flight × List msg)
  | [] => none
  | f :: rest =>
    if wrap32 (time - f.time) ≤ 0 then
      let a := wrap32 (f.available - 1)
      if a = -1 then some ({ f with available := 0 } :: rest, [msg.flight_no_seats])
      else some ({ f with available := a } :: rest, [])
    else (schedule_seat_loop time rest).map (fun r => (f :: r.1, r.2))

/-- The `else` branch of `flight_schedule_schedule_seat` (lines 569-586). -/
def schedule_seat_body (flights : List flight) (tin : Option Int) :
    List flight × List msg :=
  match time_get tin with
  | (none, m) => (flights, m ++ [msg.flight_no_seats])
  | (some time, m) =>
    match schedule_seat_loop time flights with
    | some (fl, m2) => (fl, m ++ m2)
    | none => (flights, m ++ [msg.flight_no_seats])

/-- The `for` loop of `flight_schedule_unschedule_seat` (lines 601-611). -/
def unschedule_seat_loop (time : Int) : List flight → Option (List flight × List msg)
  | [] => none
  | f :: rest =>
    if time = f.time then
      let a := wrap32 (f.available + 1)
      if a = wrap32 (f.capacity + 1) then
        some ({ f with available := f.capacity } :: rest, [msg.flight_all_seats_empty])
      else some ({ f with available := a } :: rest, [])
    else (unschedule_seat_loop time rest).map (fun r => (f :: r.1, r.2))

/-- The `else` branch of `flight_schedule_unschedule_seat` (lines 598-615). -/
def unschedule_seat_body (flights : List flight) (tin : Option Int) :
    List flight × List msg :=
  match time_get tin with
  | (none, m) => (flights, m ++ [msg.flight_bad_time])
  | (some time, m) =>
    match unschedule_seat_loop time flights with
    | some (fl, m2) => (fl, m ++ m2)
    | none => (flights, m ++ [msg.flight_bad_time])

/-! ## The pool: memory, list heads and the pool operations (lines 283-320, 377-462, 624-634) -/

/-- The array `flight_schedules` of `main` together with the two global list
heads. -/
structure pool where
  array : List flight_schedule
  flight_schedules_free : ptr
  flight_schedules_active : ptr
deriving DecidableEq

/-- Read through a pointer: `*p`. A fault (`none`) for NULL and for an address
outside of the array. -/
def load (array : List flight_schedule) (p : ptr) : Option flight_schedule :=
  match p with
  | none => none
  | some i => if 0 ≤ i then array[i.toNat]? else none

/-- Write through a pointer: `*p = v`. A fault (`none`) for NULL and for an
address outside of the array. -/
def store (array : List flight_schedule) (p : ptr) (v : flight_schedule) :
    Option (List flight_schedule) :=
  match p with
  | none => none
  | some i => if 0 ≤ i ∧ i.toNat < array.length then some (array.set i.toNat v) else none

/-- The assignment `p->next = v`. -/
def set_next (array : List flight_schedule) (p v : ptr) : Option (List flight_schedule) := do
  let r ← load array p
  store array p { r with next := v }

/-- The assignment `p->prev = v`. -/
def set_prev (array : List flight_schedule) (p v : ptr) : Option (List flight_schedule) := do
  let r ← load array p
  store array p { r with prev := v }

/-- The content of a flight slot after `flight_schedule_reset`. -/
def empty_flight : flight := { time := TIME_NULL, available := 0, capacity := 0 }

/-- The flight table of a record after `flight_schedule_reset`. -/
def empty_table : List flight := List.replicate MAX_FLIGHTS_PER_CITY empty_flight

/-- Mirror of `flight_schedule_reset`. -/
def flight_schedule_reset (array : List flight_schedule) (fs : ptr) :
    Option (List flight_schedule) := do
  let _ ← load array fs
  store array fs
    { destination := [],
      flights := List.replicate MAX_FLIGHTS_PER_CITY empty_flight,
      next := none,
      prev := none }

/-- One iteration of the loop of `flight_schedule_initialize` (lines 311-313). -/
def initialize_step (array : List flight_schedule) (i : Nat) :
    Option (List flight_schedule) := do
  let a ← flight_schedule_reset array (some (i : Int))
  let a ← set_next a (some (i : Int)) (some ((i : Int) + 1))
  set_prev a (some ((i : Int) + 1)) (some (i : Int))

/-- Mirror of `flight_schedule_initialize`. -/
def flight_schedule_initialize (array : List flight_schedule) (n : Int) : Option pool :=
  if n = 0 then
    some { array := array, flight_schedules_free := none, flight_schedules_active := none }
  else do
    let a ← set_prev array (some 0) none
    let a ← (List.range (n - 1).toNat).foldlM initialize_step a
    let a ← flight_schedule_reset a (some (n - 1))
    let a ← set_next a (some (n - 1)) none
    let a ← set_prev a (some (n - 1)) (some (n - 2))
    pure { array := a, flight_schedules_free := some 0, flight_schedules_active := none }

/-- Mirror of `flight_schedule_allocate`. The test of line 379 compares the
address of the function `flight_schedule_free` with NULL, which is never
true, so nothing is printed and the body always runs. -/
def flight_schedule_allocate (s : pool) : Option (pool × ptr) := do
  let temp := s.flight_schedules_active
  let active := s.flight_schedules_free
  let r ← load s.array s.flight_schedules_free
  let free := r.next
  let a ← set_next s.array active temp
  let a ← (if temp ≠ none then set_prev a temp active else pure a)
  let a ← (if free ≠ none then set_prev a free none else pure a)
  pure ({ array := a, flight_schedules_free := free, flight_schedules_active := active },
        active)

/-- Mirror of `flight_schedule_free`. -/
def flight_schedule_free (s : pool) (schedule : ptr) : Option pool := do
  let r ← load s.array schedule
  let active := if s.flight_schedules_active = schedule then r.next
                else s.flight_schedules_active
  let a ← (if r.next ≠ none then set_prev s.array r.next r.prev else pure s.array)
  let r ← load a schedule
  let a ← (if r.prev ≠ none then set_next a r.prev r.next else pure a)
  let a ← flight_schedule_reset a schedule
  let a ← set_next a schedule s.flight_schedules_free
  let a ← (if s.flight_schedules_free ≠ none then
            (do let r ← load a schedule
                set_prev a r.next schedule)
          else pure a)
  pure { array := a, flight_schedules_free := schedule, flight_schedules_active := active }

/-- Model of libc `strncmp`: a list stands for its characters followed by NUL. -/
def strncmp (s1 s2 : List Char) : Nat → Int
  | 0 => 0
  | n + 1 =>
    let c1 := s1.headD (Char.ofNat 0)
    let c2 := s2.headD (Char.ofNat 0)
    if c1 ≠ c2 then (c1.toNat : Int) - (c2.toNat : Int)
    else if c1 = Char.ofNat 0 then 0
    else strncmp s1.tail s2.tail n

/-- Model of libc `strcpy`: the characters of the source up to its NUL. -/
def strcpy (src : List Char) : city_t := src.takeWhile (fun c => c ≠ Char.ofNat 0)

/-- The `while` loop of `flight_schedule_find`; `fuel` bounds the number of
iterations (`none` when it runs out or on a fault). -/
def find_loop (array : List flight_schedule) (city : city_t) : Nat → ptr → Option ptr
  | 0, _ => none
  | _ + 1, none => some none
  | fuel + 1, some i => do
    let r ← load array (some i)
    if strncmp city r.destination MAX_CITY_NAME_LEN = 0 then pure (some i)
    else find_loop array city fuel r.next

/-- Mirror of `flight_schedule_find`. A list without a cycle has at most
`array.length` nodes, so `array.length + 1` iterations are enough. The
function reads the state and returns it as it was. -/
def flight_schedule_find (s : pool) (city : city_t) : Option (pool × ptr) := do
  let active ← find_loop s.array city (s.array.length + 1) s.flight_schedules_active
  pure (s, active)

/-- Mirror of `flight_schedule_add`. -/
def flight_schedule_add (s : pool) (city : city_t) : Option (pool × List msg) := do
  let (s, schedule) ← flight_schedule_find s city
  if schedule ≠ none then pure (s, [msg.city_exists city])
  else if s.flight_schedules_free = none then pure (s, [msg.schedule_no_free])
  else do
    let (s, schedule) ← flight_schedule_allocate s
    let r ← load s.array schedule
    let a ← store s.array schedule { r with destination := strcpy city }
    pure ({ s with array := a }, [])

/-- Mirror of `flight_schedule_remove`. -/
def flight_schedule_remove (s : pool) (city : city_t) : Option (pool × List msg) := do
  let (s, schedule) ← flight_schedule_find s city
  if schedule = none then pure (s, [msg.city_bad city])
  else do
    let s ← flight_schedule_free s schedule
    pure (s, [])

/-- Mirror of `flight_schedule_add_flight`. -/
def flight_schedule_add_flight (qsort : qsort_t) (s : pool) (city : city_t)
    (tin cin : Option Int) : Option (pool × List msg) := do
  let (s, schedule) ← flight_schedule_find s city
  if schedule = none then pure (s, [msg.city_bad city])
  else do
    let r ← load s.array schedule
    let (fl, m) := add_flight_body qsort r.flights tin cin
    let a ← store s.array schedule { r with flights := fl }
    pure ({ s with array := a }, m)

/-- Mirror of `flight_schedule_remove_flight`. -/
def flight_schedule_remove_flight (qsort : qsort_t) (s : pool) (city : city_t)
    (tin : Option Int) : Option (pool × List msg) := do
  let (s, schedule) ← flight_schedule_find s city
  if schedule = none then pure (s, [msg.city_bad city])
  else do
    let r ← load s.array schedule
    let (fl, m) := remove_flight_body qsort r.flights tin
    let a ← store s.array schedule { r with flights := fl }
    pure ({ s with array := a }, m)

/-- Mirror of `flight_schedule_schedule_seat`. -/
def flight_schedule_schedule_seat (s : pool) (city : city_t) (tin : Option Int) :
    Option (pool × List msg) := do
  let (s, schedule) ← flight_schedule_find s city
  if schedule = none then pure (s, [msg.city_bad city])
  else do
    let r ← load s.array schedule
    let (fl, m) := schedule_seat_body r.flights tin
    let a ← store s.array schedule { r with flights := fl }
    pure ({ s with array := a }, m)

/-- Mirror of `flight_schedule_unschedule_seat`. -/
def flight_schedule_unschedule_seat (s : pool) (city : city_t) (tin : Option Int) :
    Option (pool × List msg) := do
  let (s, schedule) ← flight_schedule_find s city
  if schedule = none then pure (s, [msg.city_bad city])
  else do
    let r ← load s.array schedule
    let (fl, m) := unschedule_seat_body r.flights tin
    let a ← store s.array schedule { r with flights := fl }
    pure ({ s with array := a }, m)

/-! ## Reading the two lists off a state -/

/-- The addresses met when following `next` from `p` until NULL, as array
indices; `none` on a fault or when `fuel` runs out (a cycle). -/
def list_from (array : List flight_schedule) : Nat → ptr → Option (List Int)
  | 0, _ => none
  | _ + 1, none => some []
  | fuel + 1, some i => do
    let r ← load array (some i)
    let l ← list_from array fuel r.next
    pure (i :: l)

/-- The records reachable from the head of the free list, in order. -/
def free_list (s : pool) : Option (List Int) :=
  list_from s.array (s.array.length + 1) s.flight_schedules_free

/-- The records reachable from the head of the active list, in order. -/
def active_list (s : pool) : Option (List Int) :=
  list_from s.array (s.array.length + 1) s.flight_schedules_active

/-- The record is in the state `flight_schedule_reset` leaves behind, links
apart: empty destination and all flight slots EMPTY. -/
def is_reset (r : flight_schedule) : Prop :=
  r.destination = [] ∧ r.flights = List.replicate MAX_FLIGHTS_PER_CITY empty_flight

instance (r : flight_schedule) : Decidable (is_reset r) := by unfold is_reset; infer_instance

/-- States of a pool of `n` records reached from `flight_schedule_initialize`
by calls that run to completion: `flight_schedule_allocate`,
`flight_schedule_free` on a record of the active list, and the writes of the
commands to the destination and the flights of a record of the active list
(`strcpy` in `flight_schedule_add`, the flight table commands). -/
inductive reachable (n : Nat) : pool → Prop
  | init (array : List flight_schedule) (s : pool) :
      array.length = n → flight_schedule_initialize array (n : Int) = some s → reachable n s
  | allocate (s s' : pool) (p : ptr) :
      reachable n s → flight_schedule_allocate s = some (s', p) → reachable n s'
  | free (s s' : pool) (al : List Int) (r : Int) :
      reachable n s → active_list s = some al → r ∈ al →
      flight_schedule_free s (some r) = some s' → reachable n s'
  | populate (s : pool) (al : List Int) (r : Int) (v : flight_schedule)
      (destination : city_t) (flights : List flight) (a : List flight_schedule) :
      reachable n s → active_list s = some al → r ∈ al → load s.array (some r) = some v →
      store s.array (some r) { v with destination := destination, flights := flights } = some a →
      reachable n { s with array := a }

/-- A pool operation: allocate, or release of the record `array[r]`. -/
inductive pool_op where
  | allocate
  | free (r : Int)
deriving DecidableEq

/-- The state after one pool operation (`none` on a fault). -/
def pool_step (s : pool) : pool_op → Option pool
  | pool_op.allocate => (flight_schedule_allocate s).map (fun x => x.1)
  | pool_op.free r => flight_schedule_free s (some r)

/-- The state after a sequence of pool operations (`none` once one faults). -/
def pool_run (s : pool) (ops : List pool_op) : Option pool :=
  ops.foldlM pool_step s

/-- Some content of a record before `flight_schedule_initialize` has run (the
array of `main` is not initialised). -/
def raw_record : flight_schedule :=
  { destination := ['?'], flights := [], next := some 7, prev := some (-3) }

/-- The destination held by the record at address `&array[i]` (empty when the
address cannot be read). -/
def destination_of (a : List flight_schedule) (i : Int) : city_t :=
  match load a (some i) with
  | some r => r.destination
  | none => []

/-- A label of the interface: at most `MAX_CITY_NAME_LEN` characters, none of
them NUL. -/
def label_ok (c : city_t) : Prop := c.length ≤ MAX_CITY_NAME_LEN ∧ Char.ofNat 0 ∉ c

instance (c : city_t) : Decidable (label_ok c) := by unfold label_ok; infer_instance

/-- The pool of two records right after `flight_schedule_initialize`. -/
def pool_of_two : pool :=
  { array := [{ destination := [], flights := empty_table, next := some 1, prev := none },
              { destination := [], flights := empty_table, next := none, prev := some 0 }],
    flight_schedules_free := some 0,
    flight_schedules_active := none }

/-- A pool of three records with the cities Toronto (record 2) and Tor
(record 0) active, in this order, and record 1 free. -/
def pool_of_cities : pool :=
  { array := [{ destination := ['T', 'o', 'r'], flights := empty_table,
                next := none, prev := some 2 },
              { destination := [], flights := empty_table, next := none, prev := none },
              { destination := ['T', 'o', 'r', 'o', 'n', 't', 'o'], flights := empty_table,
                next := some 0, prev := none }],
    flight_schedules_free := some 1,
    flight_schedules_active := some 2 }

/-! ## Vocabulary of the invariant of the pool -/

/-- The `next` field of `array[j]`, when `j` is inside the array. -/
def nxt (a : List flight_schedule) (j : Nat) : Option ptr := (a[j]?).map (fun r => r.next)

/-- The `prev` field of `array[j]`, when `j` is inside the array. -/
def prv (a : List flight_schedule) (j : Nat) : Option ptr := (a[j]?).map (fun r => r.prev)

/-- The destination and the flights of `array[j]`, when `j` is inside the array. -/
def cnt (a : List flight_schedule) (j : Nat) : Option (city_t × List flight) :=
  (a[j]?).map (fun r => (r.destination, r.flights))

/-- The content `flight_schedule_reset` writes. -/
def reset_cnt : city_t × List flight := ([], List.replicate MAX_FLIGHTS_PER_CITY empty_flight)

/-- Following `next` from `p` visits the records `l` in order and arrives at `q`. -/
def is_seg (a : List flight_schedule) : ptr → List Nat → ptr → Prop
  | p, [], q => p = q
  | p, i :: l, q => p = some (i : Int) ∧ ∃ m, nxt a i = some m ∧ is_seg a m l q

/-- Following `next` from `p` visits the records `l` in order and ends at NULL. -/
def is_list (a : List flight_schedule) (p : ptr) (l : List Nat) : Prop := is_seg a p l none

/-- The address of the last record of `l`, or `p0` for the empty list. -/
def last_ptr (p0 : ptr) : List Nat → ptr
  | [] => p0
  | i :: l => last_ptr (some (i : Int)) l

/-- The `prev` links of the records `l`: the first one holds `p0`, every other
one the address of its predecessor. -/
def dl (a : List flight_schedule) : ptr → List Nat → Prop
  | _, [] => True
  | p0, i :: l => prv a i = some p0 ∧ dl a (some (i : Int)) l

/-- A pointer that can be dereferenced, or NULL. -/
def ptr_ok (a : List flight_schedule) (p : ptr) : Prop :=
  p = none ∨ ∃ i : Nat, i < a.length ∧ p = some (i : Int)

/-- The pointer is NULL or the address of a record of `l`. -/
def ptr_in (p : ptr) (l : List Nat) : Prop := p = none ∨ ∃ x ∈ l, p = some (x : Int)

/-- The invariant of the pool of `n` records: the free list `fl` and the
active list `al` are two lists without a common record that hold the `n`
records between them, the free records are reset, and either the `prev`
links are those of a doubly linked active list and of a free head, or the
pool has one record whose `prev` is `&array[-1]`. -/
def pool_inv (n : Nat) (s : pool) (fl al : List Nat) : Prop :=
  s.array.length = n ∧
  is_list s.array s.flight_schedules_free fl ∧
  is_list s.array s.flight_schedules_active al ∧
  (fl ++ al).Nodup ∧
  fl.length + al.length = n ∧
  (∀ i ∈ fl, cnt s.array i = some reset_cnt) ∧
  (((∀ f, fl.head? = some f → prv s.array f = some none) ∧ dl s.array none al) ∨
   (n = 1 ∧ prv s.array 0 = some (some (-1))))

/-! ## Vocabulary of the statements about flight tables -/

/-- Every field of every slot is a value of the C type `int`. -/
def flights_typed (fl : List flight) : Prop :=
  ∀ f ∈ fl, is_int f.time ∧ is_int f.available ∧ is_int f.capacity

/-- Every slot holds a time of the data model: EMPTY or a minute of the day. -/
def times_ok (fl : List flight) : Prop :=
  ∀ f ∈ fl, TIME_NULL ≤ f.time ∧ f.time ≤ TIME_MAX

/-- The capacity bound: `0 ≤ available ≤ capacity` in every slot. -/
def capacity_bound (fl : List flight) : Prop :=
  ∀ f ∈ fl, 0 ≤ f.available ∧ f.available ≤ f.capacity

/-- The populated slots (`time != TIME_NULL`), in array order. -/
def populated (fl : List flight) : List flight :=
  fl.filter (fun f => decide (f.time ≠ TIME_NULL))

/-- The times of the populated slots are non-decreasing in array order. -/
def populated_sorted (fl : List flight) : Prop :=
  List.Pairwise (fun a b => a.time ≤ b.time) (populated fl)

/-- A booking command: book-seat (`s`) or release-seat (`u`) with what `scanf`
read for the time. -/
inductive seat_op where
  | book (tin : Option Int)
  | release (tin : Option Int)
deriving DecidableEq

/-- The flight table after one booking command. -/
def seat_step (fl : List flight) : seat_op → List flight
  | seat_op.book tin => (schedule_seat_body fl tin).1
  | seat_op.release tin => (unschedule_seat_body fl tin).1

/-- The flight table after a sequence of booking commands. -/
def seat_run (fl : List flight) (ops : List seat_op) : List flight :=
  ops.foldl seat_step fl

/-- A table command: add-flight (`a`) or remove-flight (`r`) with what `scanf`
read for the time and the capacity. -/
inductive table_op where
  | add (tin cin : Option Int)
  | remove (tin : Option Int)
deriving DecidableEq

/-- The flight table after one table command. -/
def table_step (qsort : qsort_t) (fl : List flight) : table_op → List flight
  | table_op.add tin cin => (add_flight_body qsort fl tin cin).1
  | table_op.remove tin => (remove_flight_body qsort fl tin).1

/-- The flight table after a sequence of table commands. -/
def table_run (qsort : qsort_t) (fl : List flight) (ops : List table_op) : List flight :=
  ops.foldl (table_step qsort) fl

/-- A flight-table command of a city: add-flight (`a`), remove-flight (`r`),
book-seat (`s`) or release-seat (`u`), with what `scanf` read. -/
inductive flight_cmd where
  | add (tin cin : Option Int)
  | remove (tin : Option Int)
  | book (tin : Option Int)
  | release (tin : Option Int)
deriving DecidableEq

/-- The flight table after one flight-table command. -/
def cmd_step (qsort : qsort_t) (fl : List flight) : flight_cmd → List flight
  | flight_cmd.add tin cin => (add_flight_body qsort fl tin cin).1
  | flight_cmd.remove tin => (remove_flight_body qsort fl tin).1
  | flight_cmd.book tin => (schedule_seat_body fl tin).1
  | flight_cmd.release tin => (unschedule_seat_body fl tin).1

/-- The flight table after a sequence of flight-table commands. -/
def cmd_run (qsort : qsort_t) (fl : List flight) (ops : List flight_cmd) : List flight :=
  ops.foldl (cmd_step qsort) fl

/-- Every slot whose time is EMPTY has `available = 0` and `capacity = 0`. -/
def empty_slots_zero (fl : List flight) : Prop :=
  ∀ f ∈ fl, f.time = TIME_NULL → f.available = 0 ∧ f.capacity = 0

/-- The `else` branch of `flight_schedule_list` (lines 486-496): the heading
and one triple for every slot that passes the test `x>0` of line 493. -/
def list_body (city : city_t) (flights : List flight) : List msg :=
  msg.city_flights city ::
    (flights.filter (fun f => decide (f.time > 0))).map
      (fun f => msg.flight_info f.time f.available f.capacity)

/-- Mirror of `flight_schedule_list`. -/
def flight_schedule_list (s : pool) (city : city_t) : Option (pool × List msg) := do
  let (s, city_flight) ← flight_schedule_find s city
  if city_flight = none then pure (s, [msg.city_bad city, msg.newline])
  else do
    let r ← load s.array city_flight
    pure (s, list_body city r.flights ++ [msg.newline])

/-- States of a pool of `n` records reached from `flight_schedule_initialize`
by add-city (`A`) and remove-city (`R`) commands that run to completion, with
labels of the interface (no NUL, at most `MAX_CITY_NAME_LEN` characters). -/
inductive city_reachable (n : Nat) : pool → Prop
  | init (array : List flight_schedule) (s : pool) :
      array.length = n → flight_schedule_initialize array (n : Int) = some s →
      city_reachable n s
  | add (s s' : pool) (city : city_t) (m : List msg) :
      city_reachable n s → label_ok city → flight_schedule_add s city = some (s', m) →
      city_reachable n s'
  | remove (s s' : pool) (city : city_t) (m : List msg) :
      city_reachable n s → label_ok city → flight_schedule_remove s city = some (s', m) →
      city_reachable n s'

/-- The invariant of the city commands: the invariant of the pool, with active
records that hold labels of the interface, no two of them the same. -/
def city_inv (n : Nat) (s : pool) (fl al : List Nat) : Prop :=
  pool_inv n s fl al ∧
  (∀ i ∈ al, label_ok (destination_of s.array (i : Int))) ∧
  (al.map (fun i : Nat => destination_of s.array (i : Int))).Nodup

/-- A city command: add-city (`A`) or remove-city (`R`) with its label. -/
inductive city_cmd where
  | add (city : city_t)
  | remove (city : city_t)
deriving DecidableEq

/-- The label of a city command. -/
def city_cmd.label : city_cmd → city_t
  | city_cmd.add city => city
  | city_cmd.remove city => city

/-- The state after one city command (`none` on a fault). -/
def city_step (s : pool) : city_cmd → Option pool
  | city_cmd.add city => (flight_schedule_add s city).map (fun x => x.1)
  | city_cmd.remove city => (flight_schedule_remove s city).map (fun x => x.1)

/-- The state after a sequence of city commands (`none` once one faults). -/
def city_run (s : pool) (cmds : List city_cmd) : Option pool :=
  cmds.foldlM city_step s

/-- The cases `a`, `r`, `s` and `u` of the command loop of `main` (lines
111-134): the command function of the letter, called on the city that was read,
with what `scanf` reads next. -/
def flight_command (qsort : qsort_t) (s : pool) (city : city_t) :
    flight_cmd → Option (pool × List msg)
  | flight_cmd.add tin cin => flight_schedule_add_flight qsort s city tin cin
  | flight_cmd.remove tin => flight_schedule_remove_flight qsort s city tin
  | flight_cmd.book tin => flight_schedule_schedule_seat s city tin
  | flight_cmd.release tin => flight_schedule_unschedule_seat s city tin

/-- The state after a sequence of flight commands, each with its city (`none`
once one faults). -/
def flight_command_run (qsort : qsort_t) (s : pool) (cmds : List (city_t × flight_cmd)) :
    Option pool :=
  cmds.foldlM (fun s x => (flight_command qsort s x.1 x.2).map (fun y => y.1)) s

/-! # Theorems -/

/-! ## Arithmetic of `int` -/

theorem wrap32_of_is_int (x : Int) (h : is_int x) : wrap32 x = x := by
  unfold is_int at h
  unfold wrap32
  omega

theorem wrap32_is_int (x : Int) : is_int (wrap32 x) := by
  unfold is_int wrap32
  omega

theorem compare_time_small (a b : flight)
    (ha : TIME_NULL ≤ a.time ∧ a.time ≤ TIME_MAX) (hb : TIME_NULL ≤ b.time ∧ b.time ≤ TIME_MAX) :
    flight_compare_time a b = a.time - b.time := by
  unfold TIME_NULL TIME_MAX at ha hb
  unfold flight_compare_time wrap32
  omega

theorem compare_time_consistent (l : List flight) (h : times_ok l) :
    cmp_consistent flight_compare_time l := by
  constructor
  · intro a ha b hb
    rw [compare_time_small a b (h a ha) (h b hb), compare_time_small b a (h b hb) (h a ha)]
    omega
  · intro a ha b hb c hc
    rw [compare_time_small a b (h a ha) (h b hb), compare_time_small b c (h b hb) (h c hc),
      compare_time_small a c (h a ha) (h c hc)]
    omega

/-! ## The insertion sort meets the contract of `qsort` -/

theorem ordered_insert_perm (cmp : flight → flight → Int) (x : flight) (l : List flight) :
    List.Perm (ordered_insert cmp x l) (x :: l) := by
  induction l with
  | nil => exact List.Perm.refl _
  | cons y ys ih =>
    unfold ordered_insert
    split
    · exact List.Perm.refl _
    · exact (List.Perm.cons y ih).trans (List.Perm.swap x y ys)

theorem insertion_qsort_perm (cmp : flight → flight → Int) (l : List flight) :
    List.Perm (insertion_qsort cmp l) l := by
  induction l with
  | nil => exact List.Perm.refl _
  | cons y ys ih =>
    show List.Perm (ordered_insert cmp y (insertion_qsort cmp ys)) (y :: ys)
    exact (ordered_insert_perm cmp y _).trans (List.Perm.cons y ih)

theorem ordered_insert_sorted (cmp : flight → flight → Int) (x : flight) (l : List flight)
    (hc : cmp_consistent cmp (x :: l))
    (hs : List.Pairwise (fun a b => cmp a b ≤ 0) l) :
    List.Pairwise (fun a b => cmp a b ≤ 0) (ordered_insert cmp x l) := by
  induction l with
  | nil => simp [ordered_insert]
  | cons y ys ih =>
    have hx : x ∈ x :: y :: ys := List.mem_cons_self _ _
    have hy : y ∈ x :: y :: ys := List.mem_cons_of_mem _ (List.mem_cons_self _ _)
    have hsub : ∀ z ∈ x :: ys, z ∈ x :: y :: ys := by
      intro z hz
      rcases List.mem_cons.mp hz with h | h
      · exact h ▸ hx
      · exact List.mem_cons_of_mem _ (List.mem_cons_of_mem _ h)
    have hc' : cmp_consistent cmp (x :: ys) :=
      ⟨fun a ha b hb => hc.1 a (hsub a ha) b (hsub b hb),
       fun a ha b hb c hcm => hc.2 a (hsub a ha) b (hsub b hb) c (hsub c hcm)⟩
    rw [List.pairwise_cons] at hs
    unfold ordered_insert
    split
    · rename_i hxy
      refine List.Pairwise.cons ?_ (List.Pairwise.cons hs.1 hs.2)
      intro z hz
      rcases List.mem_cons.mp hz with h | h
      · exact h ▸ hxy
      · exact hc.2 x hx y hy z (List.mem_cons_of_mem _ (List.mem_cons_of_mem _ h)) hxy (hs.1 z h)
    · rename_i hxy
      have hyx : cmp y x ≤ 0 := by
        have := (hc.1 y hy x hx).mpr (by omega)
        omega
      refine List.Pairwise.cons ?_ (ih hc' hs.2)
      intro z hz
      rcases List.mem_cons.mp ((ordered_insert_perm cmp x ys).subset hz) with h | h
      · exact h ▸ hyx
      · exact hs.1 z h

theorem insertion_qsort_contract : qsort_contract insertion_qsort := by
  intro cmp l
  induction l with
  | nil => intro _; exact ⟨List.Perm.refl _, List.Pairwise.nil⟩
  | cons y ys ih =>
    intro hc
    have hc' : cmp_consistent cmp ys :=
      ⟨fun a ha b hb => hc.1 a (List.mem_cons_of_mem _ ha) b (List.mem_cons_of_mem _ hb),
       fun a ha b hb c hcm => hc.2 a (List.mem_cons_of_mem _ ha) b (List.mem_cons_of_mem _ hb)
         c (List.mem_cons_of_mem _ hcm)⟩
    refine ⟨insertion_qsort_perm cmp (y :: ys), ?_⟩
    show List.Pairwise (fun a b => cmp a b ≤ 0) (ordered_insert cmp y (insertion_qsort cmp ys))
    apply ordered_insert_sorted cmp y _ _ (ih hc').2
    have hp := insertion_qsort_perm cmp ys
    have hsub : ∀ z ∈ y :: insertion_qsort cmp ys, z ∈ y :: ys := by
      intro z hz
      rcases List.mem_cons.mp hz with h | h
      · exact h ▸ List.mem_cons_self _ _
      · exact List.mem_cons_of_mem _ (hp.subset h)
    exact ⟨fun a ha b hb => hc.1 a (hsub a ha) b (hsub b hb),
       fun a ha b hb c hcm => hc.2 a (hsub a ha) b (hsub b hb) c (hsub c hcm)⟩

/-! ## Booking and releasing seats -/

/-- The invariant behind the capacity bound: the bound itself, with a capacity
that is a value of type `int`. -/
theorem schedule_seat_loop_bound (time : Int) (fl fl' : List flight) (m : List msg)
    (h : schedule_seat_loop time fl = some (fl', m))
    (hb : ∀ f ∈ fl, 0 ≤ f.available ∧ f.available ≤ f.capacity ∧ f.capacity ≤ 2147483647) :
    ∀ f ∈ fl', 0 ≤ f.available ∧ f.available ≤ f.capacity ∧ f.capacity ≤ 2147483647 := by
  induction fl generalizing fl' m with
  | nil => simp [schedule_seat_loop] at h
  | cons g rest ih =>
    have hg := hb g (List.mem_cons_self _ _)
    have hrest : ∀ f ∈ rest, 0 ≤ f.available ∧ f.available ≤ f.capacity ∧
        f.capacity ≤ 2147483647 := fun f hf => hb f (List.mem_cons_of_mem _ hf)
    unfold schedule_seat_loop at h
    split at h
    · have hw : wrap32 (g.available - 1) = g.available - 1 := by
        apply wrap32_of_is_int
        unfold is_int
        omega
      simp only [hw] at h
      split at h
      · simp only [Option.some.injEq, Prod.mk.injEq] at h
        intro f hf
        rw [← h.1] at hf
        rcases List.mem_cons.mp hf with h1 | h1
        · subst h1
          simp only
          omega
        · exact hrest f h1
      · simp only [Option.some.injEq, Prod.mk.injEq] at h
        intro f hf
        rw [← h.1] at hf
        rcases List.mem_cons.mp hf with h1 | h1
        · subst h1
          simp only
          omega
        · exact hrest f h1
    · cases hr : schedule_seat_loop time rest with
      | none => simp [hr] at h
      | some r =>
        simp only [hr, Option.map_some', Option.some.injEq, Prod.mk.injEq] at h
        intro f hf
        rw [← h.1] at hf
        rcases List.mem_cons.mp hf with h1 | h1
        · exact h1 ▸ hg
        · exact ih r.1 r.2 (by simp [hr]) hrest f h1

theorem unschedule_seat_loop_bound (time : Int) (fl fl' : List flight) (m : List msg)
    (h : unschedule_seat_loop time fl = some (fl', m))
    (hb : ∀ f ∈ fl, 0 ≤ f.available ∧ f.available ≤ f.capacity ∧ f.capacity ≤ 2147483647) :
    ∀ f ∈ fl', 0 ≤ f.available ∧ f.available ≤ f.capacity ∧ f.capacity ≤ 2147483647 := by
  induction fl generalizing fl' m with
  | nil => simp [unschedule_seat_loop] at h
  | cons g rest ih =>
    have hg := hb g (List.mem_cons_self _ _)
    have hrest : ∀ f ∈ rest, 0 ≤ f.available ∧ f.available ≤ f.capacity ∧
        f.capacity ≤ 2147483647 := fun f hf => hb f (List.mem_cons_of_mem _ hf)
    unfold unschedule_seat_loop at h
    split at h
    · simp only at h
      split at h
      · simp only [Option.some.injEq, Prod.mk.injEq] at h
        intro f hf
        rw [← h.1] at hf
        rcases List.mem_cons.mp hf with h1 | h1
        · subst h1
          simp only
          omega
        · exact hrest f h1
      · rename_i hne
        simp only [Option.some.injEq, Prod.mk.injEq] at h
        have hlt : g.available < g.capacity := by
          by_cases h2 : g.available < g.capacity
          · exact h2
          · exfalso
            apply hne
            have : g.available = g.capacity := by omega
            rw [this]
        have hw : wrap32 (g.available + 1) = g.available + 1 := by
          apply wrap32_of_is_int
          unfold is_int
          omega
        intro f hf
        rw [← h.1] at hf
        rcases List.mem_cons.mp hf with h1 | h1
        · subst h1
          simp only [hw]
          omega
        · exact hrest f h1
    · cases hr : unschedule_seat_loop time rest with
      | none => simp [hr] at h
      | some r =>
        simp only [hr, Option.map_some', Option.some.injEq, Prod.mk.injEq] at h
        intro f hf
        rw [← h.1] at hf
        rcases List.mem_cons.mp hf with h1 | h1
        · exact h1 ▸ hg
        · exact ih r.1 r.2 (by simp [hr]) hrest f h1

theorem seat_step_bound (fl : List flight) (op : seat_op)
    (hb : ∀ f ∈ fl, 0 ≤ f.available ∧ f.available ≤ f.capacity ∧ f.capacity ≤ 2147483647) :
    ∀ f ∈ seat_step fl op,
      0 ≤ f.available ∧ f.available ≤ f.capacity ∧ f.capacity ≤ 2147483647 := by
  cases op with
  | book tin =>
    show ∀ f ∈ (schedule_seat_body fl tin).1, _
    unfold schedule_seat_body
    rcases time_get tin with ⟨_ | time, m⟩
    · exact hb
    · dsimp only
      cases hl : schedule_seat_loop time fl with
      | none => exact hb
      | some r => exact schedule_seat_loop_bound time fl r.1 r.2 hl hb
  | release tin =>
    show ∀ f ∈ (unschedule_seat_body fl tin).1, _
    unfold unschedule_seat_body
    rcases time_get tin with ⟨_ | time, m⟩
    · exact hb
    · dsimp only
      cases hl : unschedule_seat_loop time fl with
      | none => exact hb
      | some r => exact unschedule_seat_loop_bound time fl r.1 r.2 hl hb

theorem seat_run_bound (ops : List seat_op) (fl : List flight)
    (hb : ∀ f ∈ fl, 0 ≤ f.available ∧ f.available ≤ f.capacity ∧ f.capacity ≤ 2147483647) :
    ∀ f ∈ seat_run fl ops,
      0 ≤ f.available ∧ f.available ≤ f.capacity ∧ f.capacity ≤ 2147483647 := by
  induction ops generalizing fl with
  | nil => exact hb
  | cons op rest ih => exact ih (seat_step fl op) (seat_step_bound fl op hb)

/-- C1 (the code departs from the claim): with the flight at 360 full and a
seat left on the flight at 480, book-seat at 300 stops at the flight at
360, prints the no-seats message and books nothing: the table is unchanged
and the flight at 480 keeps its seat. The second part runs the commands
`A Tor`, `a Tor 360 1`, `a Tor 480 1`, `s Tor 300`, `s Tor 300` from the
initial state of a pool of one record: the second booking prints the
no-seats message and the table still shows the seat on the flight at 480. -/
theorem schedule_seat_stops_at_full_flight :
    schedule_seat_body
        [empty_flight, empty_flight, empty_flight,
         { time := 360, available := 0, capacity := 1 },
         { time := 480, available := 1, capacity := 1 }] (some 300)
      = ([empty_flight, empty_flight, empty_flight,
          { time := 360, available := 0, capacity := 1 },
          { time := 480, available := 1, capacity := 1 }], [msg.flight_no_seats]) ∧
    ((( flight_schedule_initialize [raw_record] 1).bind fun s0 =>
      (flight_schedule_add s0 ['T', 'o', 'r']).bind fun x1 =>
      (flight_schedule_add_flight insertion_qsort x1.1 ['T', 'o', 'r'] (some 360) (some 1)).bind
        fun x2 =>
      (flight_schedule_add_flight insertion_qsort x2.1 ['T', 'o', 'r'] (some 480) (some 1)).bind
        fun x3 =>
      (flight_schedule_schedule_seat x3.1 ['T', 'o', 'r'] (some 300)).bind fun x4 =>
      (flight_schedule_schedule_seat x4.1 ['T', 'o', 'r'] (some 300)).bind fun x5 =>
      (load x5.1.array (some 0)).map fun v => (x4.2, x5.2, v.flights))
      = some ([], [msg.flight_no_seats],
          [empty_flight, empty_flight, empty_flight,
           { time := 360, available := 0, capacity := 1 },
           { time := 480, available := 1, capacity := 1 }])) := by
  decide

/-- C3: if every slot of a flight table satisfies `0 ≤ available ≤ capacity`,
then after each command of any sequence of book-seat and release-seat
commands, whatever `scanf` read for the time, every slot still does. -/
theorem capacity_bound_preserved (fl : List flight) (ops : List seat_op)
    (ht : flights_typed fl) (hb : capacity_bound fl) :
    ∀ k, capacity_bound (seat_run fl (ops.take k)) := by
  intro k f hf
  have h := seat_run_bound (ops.take k) fl
    (fun g hg => ⟨(hb g hg).1, (hb g hg).2, (ht g hg).2.2.2⟩) f hf
  exact ⟨h.1, h.2.1⟩

theorem capacity_bound_preserved_witness :
    capacity_bound (seat_run [{ time := 360, available := 2147483647, capacity := 2147483647 }]
      ([seat_op.release (some 360), seat_op.book (some 300), seat_op.release none].take 3)) :=
  capacity_bound_preserved [{ time := 360, available := 2147483647, capacity := 2147483647 }]
    [seat_op.release (some 360), seat_op.book (some 300), seat_op.release none]
    (by unfold flights_typed is_int; decide) (by unfold capacity_bound; decide) 3

/-! ## Adding and removing flights -/

theorem time_get_some (tin : Option Int) (t : Int) (m : List msg)
    (h : time_get tin = (some t, m)) :
    tin = some t ∧ m = [] ∧ TIME_NULL ≤ t ∧ t ≤ TIME_MAX := by
  unfold time_get at h
  cases tin with
  | none => simp at h
  | some x =>
    simp only at h
    split at h
    · rename_i hx
      simp only [Prod.mk.injEq, Option.some.injEq] at h
      obtain ⟨h1, h2⟩ := h
      subst h1
      refine ⟨rfl, h2.symm, ?_⟩
      unfold TIME_NULL TIME_MIN TIME_MAX at *
      omega
    · simp at h

theorem time_get_valid (t : Int) (ht : TIME_MIN ≤ t ∧ t ≤ TIME_MAX) :
    time_get (some t) = (some t, []) := by
  unfold time_get
  simp only
  rw [if_pos]
  exact Or.inr ⟨ht.1, ht.2⟩

theorem add_flight_loop_some (time capacity : Int) (fl fl' : List flight)
    (h : add_flight_loop time capacity fl = some fl') :
    ∃ e ∈ fl, e.time = TIME_NULL ∧
      List.Perm fl' ({ time := time, available := capacity, capacity := capacity } :: fl.erase e) := by
  induction fl generalizing fl' with
  | nil => simp [add_flight_loop] at h
  | cons g rest ih =>
    unfold add_flight_loop at h
    split at h
    · rename_i hg
      simp only [Option.some.injEq] at h
      refine ⟨g, List.mem_cons_self _ _, hg, ?_⟩
      rw [← h, List.erase_cons_head]
    · rename_i hg
      cases hr : add_flight_loop time capacity rest with
      | none => simp [hr] at h
      | some r =>
        simp only [hr, Option.map_some', Option.some.injEq] at h
        obtain ⟨e, he, het, hp⟩ := ih r hr
        refine ⟨e, List.mem_cons_of_mem _ he, het, ?_⟩
        have hne : ¬ ((g == e) = true) := by
          intro hge
          have : g = e := by simpa using hge
          exact hg (this ▸ het)
        rw [← h, List.erase_cons_tail hne]
        exact (List.Perm.cons g hp).trans (List.Perm.swap _ _ _)

theorem add_flight_loop_none (time capacity : Int) (fl : List flight) :
    add_flight_loop time capacity fl = none ↔ ∀ f ∈ fl, f.time ≠ TIME_NULL := by
  induction fl with
  | nil => simp [add_flight_loop]
  | cons g rest ih =>
    unfold add_flight_loop
    by_cases hg : g.time = TIME_NULL
    · simp [hg]
    · simp [hg, ih]

theorem remove_flight_loop_some (time : Int) (fl fl' : List flight)
    (h : remove_flight_loop time fl = some fl') :
    ∃ g ∈ fl, g.time = time ∧ List.Perm fl' (empty_flight :: fl.erase g) := by
  induction fl generalizing fl' with
  | nil => simp [remove_flight_loop] at h
  | cons g rest ih =>
    unfold remove_flight_loop at h
    split at h
    · rename_i hg
      simp only [Option.some.injEq] at h
      refine ⟨g, List.mem_cons_self _ _, hg, ?_⟩
      rw [← h, List.erase_cons_head]
      exact List.Perm.refl _
    · rename_i hg
      cases hr : remove_flight_loop time rest with
      | none => simp [hr] at h
      | some r =>
        simp only [hr, Option.map_some', Option.some.injEq] at h
        obtain ⟨e, he, het, hp⟩ := ih r hr
        refine ⟨e, List.mem_cons_of_mem _ he, het, ?_⟩
        have hne : ¬ ((g == e) = true) := by
          intro hge
          have : g = e := by simpa using hge
          exact hg (this ▸ het)
        rw [← h, List.erase_cons_tail hne]
        exact (List.Perm.cons g hp).trans (List.Perm.swap _ _ _)

theorem remove_flight_loop_none (time : Int) (fl : List flight) :
    remove_flight_loop time fl = none ↔ ∀ f ∈ fl, f.time ≠ time := by
  induction fl with
  | nil => simp [remove_flight_loop]
  | cons g rest ih =>
    unfold remove_flight_loop
    by_cases hg : g.time = time
    · simp [hg]
    · simp [hg, ih]

theorem unschedule_seat_loop_none (time : Int) (fl : List flight)
    (h : ∀ f ∈ fl, f.time ≠ time) : unschedule_seat_loop time fl = none := by
  induction fl with
  | nil => simp [unschedule_seat_loop]
  | cons g rest ih =>
    unfold unschedule_seat_loop
    have hg : ¬ time = g.time := fun e => h g (List.mem_cons_self _ _) e.symm
    simp [hg, ih (fun f hf => h f (List.mem_cons_of_mem _ hf))]

theorem times_ok_of_perm (l l' : List flight) (hp : List.Perm l' l) (h : times_ok l) :
    times_ok l' :=
  fun f hf => h f (hp.subset hf)

theorem times_ok_replace (fl : List flight) (e x : flight) (h : times_ok fl)
    (hx : TIME_NULL ≤ x.time ∧ x.time ≤ TIME_MAX) : times_ok (x :: fl.erase e) := by
  intro f hf
  rcases List.mem_cons.mp hf with h1 | h1
  · exact h1 ▸ hx
  · exact h f (List.mem_of_mem_erase h1)

/-- What the call of the sort gives on a table with times of the data model. -/
theorem sort_flights_spec (qsort : qsort_t) (hq : qsort_contract qsort) (fl : List flight)
    (h : times_ok fl) :
    List.Perm (flight_schedule_sort_flights_by_time qsort fl) fl ∧
    times_ok (flight_schedule_sort_flights_by_time qsort fl) ∧
    List.Pairwise (fun a b => a.time ≤ b.time) (flight_schedule_sort_flights_by_time qsort fl) := by
  obtain ⟨hp, hs⟩ := hq flight_compare_time fl (compare_time_consistent fl h)
  have hok : times_ok (qsort flight_compare_time fl) := times_ok_of_perm _ _ hp h
  refine ⟨hp, hok, ?_⟩
  refine List.Pairwise.imp_of_mem ?_ hs
  intro a b ha hb hab
  rw [compare_time_small a b (hok a ha) (hok b hb)] at hab
  omega

theorem populated_erase_empty (fl : List flight) (e : flight) (he : e ∈ fl)
    (het : e.time = TIME_NULL) : List.Perm (populated (fl.erase e)) (populated fl) := by
  have h := (List.perm_cons_erase he).filter (fun f => decide (f.time ≠ TIME_NULL))
  have h2 : List.filter (fun f => decide (f.time ≠ TIME_NULL)) (e :: fl.erase e)
      = List.filter (fun f => decide (f.time ≠ TIME_NULL)) (fl.erase e) := by
    rw [List.filter_cons_of_neg]
    simp [het]
  rw [h2] at h
  exact h.symm

theorem populated_erase_flight (fl : List flight) (g : flight) (hg : g ∈ fl)
    (hgt : g.time ≠ TIME_NULL) : List.Perm (populated fl) (g :: populated (fl.erase g)) := by
  have h := (List.perm_cons_erase hg).filter (fun f => decide (f.time ≠ TIME_NULL))
  have h2 : List.filter (fun f => decide (f.time ≠ TIME_NULL)) (g :: fl.erase g)
      = g :: List.filter (fun f => decide (f.time ≠ TIME_NULL)) (fl.erase g) := by
    rw [List.filter_cons_of_pos]
    simp [hgt]
  rw [h2] at h
  exact h

theorem table_step_sorted (qsort : qsort_t) (hq : qsort_contract qsort) (fl : List flight)
    (op : table_op)
    (h : times_ok fl ∧ List.Pairwise (fun a b => a.time ≤ b.time) fl) :
    times_ok (table_step qsort fl op) ∧
    List.Pairwise (fun a b => a.time ≤ b.time) (table_step qsort fl op) := by
  cases op with
  | add tin cin =>
    show times_ok (add_flight_body qsort fl tin cin).1 ∧
      List.Pairwise (fun a b => a.time ≤ b.time) (add_flight_body qsort fl tin cin).1
    unfold add_flight_body
    rcases htg : time_get tin with ⟨_ | time, m⟩
    · exact h
    · dsimp only
      rcases flight_capacity_get cin with ⟨_ | capacity, m2⟩
      · exact h
      · dsimp only
        cases hl : add_flight_loop time capacity fl with
        | none => exact h
        | some fl1 =>
          dsimp only
          obtain ⟨e, _, _, hp⟩ := add_flight_loop_some time capacity fl fl1 hl
          have hv := time_get_some tin time m htg
          have hok : times_ok fl1 :=
            times_ok_of_perm _ _ hp (times_ok_replace fl e _ h.1 ⟨hv.2.2.1, hv.2.2.2⟩)
          exact (sort_flights_spec qsort hq fl1 hok).2
  | remove tin =>
    show times_ok (remove_flight_body qsort fl tin).1 ∧
      List.Pairwise (fun a b => a.time ≤ b.time) (remove_flight_body qsort fl tin).1
    unfold remove_flight_body
    rcases time_get tin with ⟨_ | time, m⟩
    · exact h
    · dsimp only
      cases hl : remove_flight_loop time fl with
      | none => exact h
      | some fl1 =>
        dsimp only
        obtain ⟨e, _, _, hp⟩ := remove_flight_loop_some time fl fl1 hl
        have hok : times_ok fl1 :=
          times_ok_of_perm _ _ hp
            (times_ok_replace fl e empty_flight h.1 (by unfold empty_flight TIME_NULL TIME_MAX; decide))
        exact (sort_flights_spec qsort hq fl1 hok).2

theorem table_run_sorted (qsort : qsort_t) (hq : qsort_contract qsort) (ops : List table_op)
    (fl : List flight)
    (h : times_ok fl ∧ List.Pairwise (fun a b => a.time ≤ b.time) fl) :
    times_ok (table_run qsort fl ops) ∧
    List.Pairwise (fun a b => a.time ≤ b.time) (table_run qsort fl ops) := by
  induction ops generalizing fl with
  | nil => exact h
  | cons op rest ih => exact ih (table_step qsort fl op) (table_step_sorted qsort hq fl op h)

theorem empty_table_sorted :
    times_ok empty_table ∧ List.Pairwise (fun a b => a.time ≤ b.time) empty_table := by
  unfold times_ok empty_table MAX_FLIGHTS_PER_CITY empty_flight TIME_NULL TIME_MAX
  constructor
  · intro f hf
    simp only [List.mem_replicate] at hf
    rw [hf.2]
    decide
  · decide

/-- C8: starting from the all-EMPTY flight table, after each command of any
sequence of add-flight and remove-flight commands (whatever `scanf` read for
the time and the capacity, the times in [0,1439] included), the populated
slots read in array order have non-decreasing times. -/
theorem flights_sorted_after_add_remove (qsort : qsort_t) (hq : qsort_contract qsort)
    (ops : List table_op) :
    ∀ k, populated_sorted (table_run qsort empty_table (ops.take k)) := by
  intro k
  exact List.Pairwise.sublist (List.filter_sublist _)
    (table_run_sorted qsort hq (ops.take k) empty_table empty_table_sorted).2

theorem flights_sorted_after_add_remove_witness :
    qsort_contract insertion_qsort ∧
    populated_sorted (table_run insertion_qsort empty_table
      ([table_op.add (some 480) (some 3), table_op.add (some 360) (some 100),
        table_op.remove (some 480), table_op.add (some 0) (some 1)].take 4)) :=
  ⟨insertion_qsort_contract,
   flights_sorted_after_add_remove insertion_qsort insertion_qsort_contract
     [table_op.add (some 480) (some 3), table_op.add (some 360) (some 100),
      table_op.remove (some 480), table_op.add (some 0) (some 1)] 4⟩

/-- C9: on a flight table with times of the data model, for a time `t` in
[0,1439] and a capacity `c > 0`, add-flight prints the city-full message
exactly when no slot is EMPTY, and then leaves the table as it was;
otherwise it prints nothing, the table keeps its number of slots, one EMPTY
slot has become the flight `(t, c, c)` and all other slots are the same as a
multiset (so the number of EMPTY slots drops by one: five adds fill an empty
table), and the populated flights afterwards are, as a multiset, the populated
flights before plus the one flight `(t, c, c)`, whether or not a flight at
`t` was already there. -/
theorem add_flight_spec (qsort : qsort_t) (hq : qsort_contract qsort) (fl : List flight)
    (t c : Int) (hfl : times_ok fl) (ht : TIME_MIN ≤ t ∧ t ≤ TIME_MAX) (hc : 0 < c) :
    ((add_flight_body qsort fl (some t) (some c)).2 = [msg.city_max_flights_reached]
      ↔ ∀ f ∈ fl, f.time ≠ TIME_NULL) ∧
    ((∀ f ∈ fl, f.time ≠ TIME_NULL) → (add_flight_body qsort fl (some t) (some c)).1 = fl) ∧
    ((∃ f ∈ fl, f.time = TIME_NULL) →
      (add_flight_body qsort fl (some t) (some c)).2 = [] ∧
      (add_flight_body qsort fl (some t) (some c)).1.length = fl.length ∧
      (∃ e ∈ fl, e.time = TIME_NULL ∧
        List.Perm (add_flight_body qsort fl (some t) (some c)).1
          ({ time := t, available := c, capacity := c } :: fl.erase e)) ∧
      List.Perm (populated (add_flight_body qsort fl (some t) (some c)).1)
        ({ time := t, available := c, capacity := c } :: populated fl)) := by
  have hbody : add_flight_body qsort fl (some t) (some c) =
      match add_flight_loop t c fl with
      | some fl1 => (flight_schedule_sort_flights_by_time qsort fl1, [])
      | none => (fl, [msg.city_max_flights_reached]) := by
    unfold add_flight_body
    rw [time_get_valid t ht]
    unfold flight_capacity_get
    simp only [gt_iff_lt, hc, if_true, List.append_nil, List.nil_append]
  rw [hbody]
  cases hl : add_flight_loop t c fl with
  | none =>
    have hn := (add_flight_loop_none t c fl).mp hl
    refine ⟨⟨fun _ => hn, fun _ => rfl⟩, fun _ => rfl, ?_⟩
    rintro ⟨f, hf, hft⟩
    exact absurd hft (hn f hf)
  | some fl1 =>
    obtain ⟨e, he, het, hp⟩ := add_flight_loop_some t c fl fl1 hl
    have hnot : ¬ ∀ f ∈ fl, f.time ≠ TIME_NULL := fun hall => hall e he het
    refine ⟨⟨fun h => by simp at h, fun h => absurd h hnot⟩, fun h => absurd h hnot, ?_⟩
    intro _
    have hok : times_ok fl1 :=
      times_ok_of_perm _ _ hp (times_ok_replace fl e _ hfl
        ⟨by unfold TIME_NULL; unfold TIME_MIN at ht; simp only; omega, ht.2⟩)
    obtain ⟨hsp, _, _⟩ := sort_flights_spec qsort hq fl1 hok
    refine ⟨rfl, ?_, ⟨e, he, het, hsp.trans hp⟩, ?_⟩
    · have h1 := (hsp.trans hp).length_eq
      have h2 := (List.perm_cons_erase he).length_eq
      simp only [List.length_cons] at h1 h2
      simp only
      omega
    · have h1 : List.Perm (populated (flight_schedule_sort_flights_by_time qsort fl1))
          (populated ({ time := t, available := c, capacity := c } :: fl.erase e)) :=
        (hsp.trans hp).filter _
      have h2 : populated ({ time := t, available := c, capacity := c } :: fl.erase e)
          = { time := t, available := c, capacity := c } :: populated (fl.erase e) := by
        unfold populated
        rw [List.filter_cons_of_pos]
        simp only [ne_eq, decide_eq_true_eq]
        unfold TIME_NULL
        unfold TIME_MIN at ht
        omega
      rw [h2] at h1
      exact h1.trans (List.Perm.cons _ (populated_erase_empty fl e he het))

theorem add_flight_spec_witness :
    (add_flight_body insertion_qsort
        [empty_flight, empty_flight, empty_flight, empty_flight,
         { time := 360, available := 7, capacity := 100 }] (some 360) (some 5)).2 = [] ∧
    List.Perm (populated (add_flight_body insertion_qsort
        [empty_flight, empty_flight, empty_flight, empty_flight,
         { time := 360, available := 7, capacity := 100 }] (some 360) (some 5)).1)
      ({ time := 360, available := 5, capacity := 5 } ::
        populated [empty_flight, empty_flight, empty_flight, empty_flight,
         { time := 360, available := 7, capacity := 100 }]) :=
  have h := (add_flight_spec insertion_qsort insertion_qsort_contract
    [empty_flight, empty_flight, empty_flight, empty_flight,
      { time := 360, available := 7, capacity := 100 }] 360 5
    (by unfold times_ok empty_flight TIME_NULL TIME_MAX; decide)
    (by unfold TIME_MIN TIME_MAX; decide) (by decide)).2.2
    ⟨empty_flight, by simp, rfl⟩
  ⟨h.1, h.2.2.2⟩

/-- C10: on a flight table with times of the data model and for a time `t` in
[0,1439], remove-flight succeeds (prints nothing) exactly when some slot has
time `t`, and prints the bad-time message and leaves the table as it was
otherwise. On success one slot `g` with time `t` has become the EMPTY slot
`(TIME_NULL, 0, 0)` and all other slots are the same as a multiset, so the
populated flights before are `g` plus the populated flights after; and if the
table held exactly one flight at `t`, no slot has time `t` afterwards and a
release-seat at `t` prints the bad-time message. -/
theorem remove_flight_spec (qsort : qsort_t) (hq : qsort_contract qsort) (fl : List flight)
    (t : Int) (hfl : times_ok fl) (ht : TIME_MIN ≤ t ∧ t ≤ TIME_MAX) :
    ((remove_flight_body qsort fl (some t)).2 = [] ↔ ∃ f ∈ fl, f.time = t) ∧
    ((∀ f ∈ fl, f.time ≠ t) →
      remove_flight_body qsort fl (some t) = (fl, [msg.flight_bad_time])) ∧
    ((∃ f ∈ fl, f.time = t) →
      ∃ g ∈ fl, g.time = t ∧
        List.Perm (remove_flight_body qsort fl (some t)).1 (empty_flight :: fl.erase g) ∧
        List.Perm (populated fl) (g :: populated (remove_flight_body qsort fl (some t)).1)) ∧
    ((fl.filter (fun f => decide (f.time = t))).length = 1 →
      (∀ f ∈ (remove_flight_body qsort fl (some t)).1, f.time ≠ t) ∧
      unschedule_seat_body (remove_flight_body qsort fl (some t)).1 (some t)
        = ((remove_flight_body qsort fl (some t)).1, [msg.flight_bad_time])) := by
  have hbody : remove_flight_body qsort fl (some t) =
      match remove_flight_loop t fl with
      | some fl1 => (flight_schedule_sort_flights_by_time qsort fl1, [])
      | none => (fl, [msg.flight_bad_time]) := by
    unfold remove_flight_body
    rw [time_get_valid t ht]
    simp only [List.nil_append]
  have htne : t ≠ TIME_NULL := by
    unfold TIME_NULL
    unfold TIME_MIN at ht
    omega
  rw [hbody]
  cases hl : remove_flight_loop t fl with
  | none =>
    have hn := (remove_flight_loop_none t fl).mp hl
    have hnot : ¬ ∃ f ∈ fl, f.time = t := by
      rintro ⟨f, hf, hft⟩
      exact hn f hf hft
    refine ⟨⟨fun h => by simp at h, fun h => absurd h hnot⟩, fun _ => rfl,
      fun h => absurd h hnot, ?_⟩
    intro hlen
    exfalso
    have hnil : fl.filter (fun f => decide (f.time = t)) = [] := by
      rw [List.filter_eq_nil_iff]
      intro f hf
      simpa using hn f hf
    rw [hnil] at hlen
    simp at hlen
  | some fl1 =>
    obtain ⟨g, hg, hgt, hp⟩ := remove_flight_loop_some t fl fl1 hl
    have hok : times_ok fl1 :=
      times_ok_of_perm _ _ hp
        (times_ok_replace fl g empty_flight hfl (by unfold empty_flight TIME_NULL TIME_MAX; decide))
    obtain ⟨hsp, _, _⟩ := sort_flights_spec qsort hq fl1 hok
    have hperm : List.Perm (flight_schedule_sort_flights_by_time qsort fl1)
        (empty_flight :: fl.erase g) := hsp.trans hp
    refine ⟨⟨fun _ => ⟨g, hg, hgt⟩, fun _ => rfl⟩, ?_, ?_, ?_⟩
    · intro hall
      exact absurd hgt (hall g hg)
    · intro _
      refine ⟨g, hg, hgt, hperm, ?_⟩
      have h1 : List.Perm (populated (flight_schedule_sort_flights_by_time qsort fl1))
          (populated (empty_flight :: fl.erase g)) := hperm.filter _
      have h2 : populated (empty_flight :: fl.erase g) = populated (fl.erase g) := by
        unfold populated
        rw [List.filter_cons_of_neg]
        simp [empty_flight]
      rw [h2] at h1
      exact (populated_erase_flight fl g hg (hgt ▸ htne)).trans (List.Perm.cons g h1.symm)
    · intro hlen
      have h1 := ((List.perm_cons_erase hg).filter (fun f => decide (f.time = t))).length_eq
      rw [List.filter_cons_of_pos (by simpa using hgt), List.length_cons, hlen] at h1
      have hnil : (fl.erase g).filter (fun f => decide (f.time = t)) = [] := by
        apply List.eq_nil_of_length_eq_zero
        omega
      have hnone : ∀ f ∈ flight_schedule_sort_flights_by_time qsort fl1, f.time ≠ t := by
        intro f hf
        rcases List.mem_cons.mp (hperm.subset hf) with h2 | h2
        · rw [h2]
          exact fun h3 => htne h3.symm
        · have := List.filter_eq_nil_iff.mp hnil f h2
          simpa using this
      refine ⟨hnone, ?_⟩
      unfold unschedule_seat_body
      rw [time_get_valid t ht]
      simp only [unschedule_seat_loop_none t _ hnone, List.nil_append]

theorem remove_flight_spec_witness :
    (remove_flight_body insertion_qsort
        [empty_flight, empty_flight, empty_flight,
         { time := 360, available := 7, capacity := 100 },
         { time := 480, available := 2, capacity := 2 }] (some 360)).2 = [] ∧
    unschedule_seat_body (remove_flight_body insertion_qsort
        [empty_flight, empty_flight, empty_flight,
         { time := 360, available := 7, capacity := 100 },
         { time := 480, available := 2, capacity := 2 }] (some 360)).1 (some 360)
      = ((remove_flight_body insertion_qsort
        [empty_flight, empty_flight, empty_flight,
         { time := 360, available := 7, capacity := 100 },
         { time := 480, available := 2, capacity := 2 }] (some 360)).1, [msg.flight_bad_time]) :=
  have h := remove_flight_spec insertion_qsort insertion_qsort_contract
    [empty_flight, empty_flight, empty_flight,
      { time := 360, available := 7, capacity := 100 },
      { time := 480, available := 2, capacity := 2 }] 360
    (by unfold times_ok empty_flight TIME_NULL TIME_MAX; decide)
    (by unfold TIME_MIN TIME_MAX; decide)
  ⟨h.1.mpr ⟨{ time := 360, available := 7, capacity := 100 }, by simp, rfl⟩,
   (h.2.2.2 (by decide)).2⟩

/-! ## Memory: the effect of the assignments on the three views of the array -/

theorem load_nat (a : List flight_schedule) (i : Nat) : load a (some (i : Int)) = a[i]? := by
  simp [load]

theorem load_neg (a : List flight_schedule) : load a (some (-1)) = none := by
  simp [load]

theorem store_nat (a : List flight_schedule) (i : Nat) (v : flight_schedule)
    (hi : i < a.length) : store a (some (i : Int)) v = some (a.set i v) := by
  simp [store, hi]

theorem nxt_lt (a : List flight_schedule) (i : Nat) (m : ptr) (h : nxt a i = some m) :
    i < a.length := by
  unfold nxt at h
  by_contra hlt
  rw [List.getElem?_eq_none (by omega)] at h
  simp at h

theorem set_next_eff (a : List flight_schedule) (i : Nat) (v : ptr) (hi : i < a.length) :
    ∃ a', set_next a (some (i : Int)) v = some a' ∧ a'.length = a.length ∧
      (∀ j, nxt a' j = if j = i then some v else nxt a j) ∧
      (∀ j, prv a' j = prv a j) ∧ (∀ j, cnt a' j = cnt a j) := by
  refine ⟨a.set i { a.get ⟨i, hi⟩ with next := v }, ?_, by simp, ?_, ?_, ?_⟩
  · simp [set_next, load_nat, store_nat, hi]
  · intro j
    unfold nxt
    rw [List.getElem?_set]
    by_cases h : i = j
    · subst h
      simp [hi]
    · have h' : ¬ j = i := fun e => h e.symm
      simp [h, h']
  · intro j
    unfold prv
    rw [List.getElem?_set]
    by_cases h : i = j
    · subst h
      simp [hi]
    · simp [h]
  · intro j
    unfold cnt
    rw [List.getElem?_set]
    by_cases h : i = j
    · subst h
      simp [hi]
    · simp [h]

theorem set_prev_eff (a : List flight_schedule) (i : Nat) (v : ptr) (hi : i < a.length) :
    ∃ a', set_prev a (some (i : Int)) v = some a' ∧ a'.length = a.length ∧
      (∀ j, nxt a' j = nxt a j) ∧
      (∀ j, prv a' j = if j = i then some v else prv a j) ∧ (∀ j, cnt a' j = cnt a j) := by
  refine ⟨a.set i { a.get ⟨i, hi⟩ with prev := v }, ?_, by simp, ?_, ?_, ?_⟩
  · simp [set_prev, load_nat, store_nat, hi]
  · intro j
    unfold nxt
    rw [List.getElem?_set]
    by_cases h : i = j
    · subst h
      simp [hi]
    · simp [h]
  · intro j
    unfold prv
    rw [List.getElem?_set]
    by_cases h : i = j
    · subst h
      simp [hi]
    · have h' : ¬ j = i := fun e => h e.symm
      simp [h, h']
  · intro j
    unfold cnt
    rw [List.getElem?_set]
    by_cases h : i = j
    · subst h
      simp [hi]
    · simp [h]

theorem reset_eff (a : List flight_schedule) (i : Nat) (hi : i < a.length) :
    ∃ a', flight_schedule_reset a (some (i : Int)) = some a' ∧ a'.length = a.length ∧
      (∀ j, nxt a' j = if j = i then some none else nxt a j) ∧
      (∀ j, prv a' j = if j = i then some none else prv a j) ∧
      (∀ j, cnt a' j = if j = i then some reset_cnt else cnt a j) := by
  refine ⟨a.set i (flight_schedule.mk [] (List.replicate MAX_FLIGHTS_PER_CITY empty_flight)
      none none), ?_, by simp, ?_, ?_, ?_⟩
  · obtain ⟨r, hr⟩ : ∃ r, a[i]? = some r := ⟨a[i], by simp [hi]⟩
    simp [flight_schedule_reset, load_nat, store_nat, hi, hr]
  · intro j
    unfold nxt
    rw [List.getElem?_set]
    by_cases h : i = j
    · subst h
      simp [hi]
    · have h' : ¬ j = i := fun e => h e.symm
      simp [h, h']
  · intro j
    unfold prv
    rw [List.getElem?_set]
    by_cases h : i = j
    · subst h
      simp [hi]
    · have h' : ¬ j = i := fun e => h e.symm
      simp [h, h']
  · intro j
    unfold cnt
    rw [List.getElem?_set]
    by_cases h : i = j
    · subst h
      simp [hi, reset_cnt]
    · have h' : ¬ j = i := fun e => h e.symm
      simp [h, h']

/-- The guarded assignment `if (p != NULL) p->prev = v`. -/
theorem guard_set_prev_eff (a : List flight_schedule) (p v : ptr) (hp : ptr_ok a p) :
    ∃ a', (if p ≠ none then set_prev a p v else pure a) = some a' ∧ a'.length = a.length ∧
      (∀ j, nxt a' j = nxt a j) ∧
      (∀ j : Nat, prv a' j = if p = some (j : Int) then some v else prv a j) ∧
      (∀ j, cnt a' j = cnt a j) := by
  rcases hp with hp | ⟨i, hi, hp⟩
  · subst hp
    exact ⟨a, by simp, rfl, fun _ => rfl, fun j => by simp, fun _ => rfl⟩
  · subst hp
    obtain ⟨a', h1, h2, h3, h4, h5⟩ := set_prev_eff a i v hi
    refine ⟨a', by simp [h1], h2, h3, ?_, h5⟩
    intro j
    rw [h4 j]
    by_cases h : j = i
    · subst h
      simp
    · have h' : ¬ (i : Int) = (j : Int) := by omega
      simp [h, h']

/-- The guarded assignment `if (p != NULL) p->next = v`. -/
theorem guard_set_next_eff (a : List flight_schedule) (p v : ptr) (hp : ptr_ok a p) :
    ∃ a', (if p ≠ none then set_next a p v else pure a) = some a' ∧ a'.length = a.length ∧
      (∀ j : Nat, nxt a' j = if p = some (j : Int) then some v else nxt a j) ∧
      (∀ j, prv a' j = prv a j) ∧
      (∀ j, cnt a' j = cnt a j) := by
  rcases hp with hp | ⟨i, hi, hp⟩
  · subst hp
    exact ⟨a, by simp, rfl, fun j => by simp, fun _ => rfl, fun _ => rfl⟩
  · subst hp
    obtain ⟨a', h1, h2, h3, h4, h5⟩ := set_next_eff a i v hi
    refine ⟨a', by simp [h1], h2, ?_, h4, h5⟩
    intro j
    rw [h3 j]
    by_cases h : j = i
    · subst h
      simp
    · have h' : ¬ (i : Int) = (j : Int) := by omega
      simp [h, h']

theorem rec_of_views (a : List flight_schedule) (i : Nat) (m p : ptr)
    (hn : nxt a i = some m) (hp : prv a i = some p) :
    ∃ r, a[i]? = some r ∧ r.next = m ∧ r.prev = p := by
  unfold nxt at hn
  unfold prv at hp
  cases h : a[i]? with
  | none => simp [h] at hn
  | some r =>
    simp only [h, Option.map_some', Option.some.injEq] at hn hp
    exact ⟨r, rfl, hn, hp⟩

theorem prv_of_lt (a : List flight_schedule) (i : Nat) (hi : i < a.length) :
    ∃ p, prv a i = some p := by
  unfold prv
  rw [List.getElem?_eq_getElem hi]
  exact ⟨_, rfl⟩

theorem ptr_ok_of_length (a a' : List flight_schedule) (p : ptr) (h : a'.length = a.length)
    (hp : ptr_ok a p) : ptr_ok a' p := by
  rcases hp with hp | ⟨i, hi, hp⟩
  · exact Or.inl hp
  · exact Or.inr ⟨i, by omega, hp⟩

/-- Symbolic execution of `flight_schedule_allocate` with a non-empty free list. -/
theorem allocate_eff (s : pool) (f : Nat) (q : ptr)
    (hf : s.flight_schedules_free = some (f : Int)) (hq : nxt s.array f = some q)
    (hact : ptr_ok s.array s.flight_schedules_active) (hqok : ptr_ok s.array q) :
    ∃ a', flight_schedule_allocate s
        = some ({ array := a', flight_schedules_free := q,
                  flight_schedules_active := some (f : Int) }, some (f : Int)) ∧
      a'.length = s.array.length ∧
      (∀ j, nxt a' j = if j = f then some s.flight_schedules_active else nxt s.array j) ∧
      (∀ j : Nat, prv a' j = if q = some (j : Int) then some none
          else if s.flight_schedules_active = some (j : Int) then some (some (f : Int))
          else prv s.array j) ∧
      (∀ j, cnt a' j = cnt s.array j) := by
  have hlt := nxt_lt _ _ _ hq
  obtain ⟨p0, hp0⟩ := prv_of_lt s.array f hlt
  obtain ⟨r, hr, hrn, _⟩ := rec_of_views _ _ _ _ hq hp0
  obtain ⟨a1, e1, l1, n1, p1, c1⟩ := set_next_eff s.array f s.flight_schedules_active hlt
  obtain ⟨a2, e2, l2, n2, p2, c2⟩ := guard_set_prev_eff a1 s.flight_schedules_active
    (some (f : Int)) (ptr_ok_of_length _ _ _ l1 hact)
  obtain ⟨a3, e3, l3, n3, p3, c3⟩ := guard_set_prev_eff a2 q none
    (ptr_ok_of_length _ _ _ (l2.trans l1) hqok)
  refine ⟨a3, ?_, by omega, ?_, ?_, ?_⟩
  · unfold flight_schedule_allocate
    simp only [hf, load_nat, hr, Option.bind_eq_bind, Option.some_bind, e1, hrn, e2, e3]
    rfl
  · intro j
    rw [n3, n2, n1]
  · intro j
    rw [p3, p2, p1]
  · intro j
    rw [c3, c2, c1]

/-- `flight_schedule_allocate` with an empty free list reads `NULL->next`: a fault. -/
theorem allocate_null (s : pool) (h : s.flight_schedules_free = none) :
    flight_schedule_allocate s = none := by
  unfold flight_schedule_allocate
  simp [h, load]

/-- Symbolic execution of `flight_schedule_free` on a record whose links can
be dereferenced. -/
theorem free_eff (s : pool) (r : Nat) (np pp : ptr)
    (hn : nxt s.array r = some np) (hp : prv s.array r = some pp)
    (hnp : ptr_ok s.array np) (hpp : ptr_ok s.array pp)
    (hfree : ptr_ok s.array s.flight_schedules_free) :
    ∃ a', flight_schedule_free s (some (r : Int))
        = some { array := a', flight_schedules_free := some (r : Int),
                 flight_schedules_active :=
                   if s.flight_schedules_active = some (r : Int) then np
                   else s.flight_schedules_active } ∧
      a'.length = s.array.length ∧
      (∀ j : Nat, nxt a' j = if j = r then some s.flight_schedules_free
          else if pp = some (j : Int) then some np else nxt s.array j) ∧
      (∀ j : Nat, prv a' j = if s.flight_schedules_free = some (j : Int) then some (some (r : Int))
          else if j = r then some none
          else if np = some (j : Int) then some pp else prv s.array j) ∧
      (∀ j, cnt a' j = if j = r then some reset_cnt else cnt s.array j) := by
  have hlt := nxt_lt _ _ _ hn
  obtain ⟨r0, hr0, hr0n, hr0p⟩ := rec_of_views _ _ _ _ hn hp
  obtain ⟨a1, e1, l1, n1, p1, c1⟩ := guard_set_prev_eff s.array np pp hnp
  have hn1 : nxt a1 r = some np := by rw [n1, hn]
  have hp1 : prv a1 r = some pp := by
    rw [p1, hp]
    split <;> rfl
  obtain ⟨r1, hr1, hr1n, hr1p⟩ := rec_of_views _ _ _ _ hn1 hp1
  obtain ⟨a2, e2, l2, n2, p2, c2⟩ := guard_set_next_eff a1 pp np (ptr_ok_of_length _ _ _ l1 hpp)
  obtain ⟨a3, e3, l3, n3, p3, c3⟩ := reset_eff a2 r (by omega)
  obtain ⟨a4, e4, l4, n4, p4, c4⟩ := set_next_eff a3 r s.flight_schedules_free (by omega)
  have hn4 : nxt a4 r = some s.flight_schedules_free := by
    rw [n4]
    simp
  obtain ⟨p4r, hp4r⟩ := prv_of_lt a4 r (by omega)
  obtain ⟨r4, hr4, hr4n, _⟩ := rec_of_views _ _ _ _ hn4 hp4r
  obtain ⟨a5, e5, l5, n5, p5, c5⟩ := guard_set_prev_eff a4 s.flight_schedules_free
    (some (r : Int)) (ptr_ok_of_length _ _ _ (by omega) hfree)
  refine ⟨a5, ?_, by omega, ?_, ?_, ?_⟩
  · unfold flight_schedule_free
    simp only [load_nat, hr0, Option.bind_eq_bind, Option.some_bind, hr0n, hr0p, e1, hr1,
      hr1n, hr1p, e2, e3, e4, hr4, hr4n, e5]
    rfl
  · intro j
    rw [n5, n4, n3, n2, n1]
    by_cases h : j = r
    · simp [h]
    · simp [h]
  · intro j
    rw [p5, p4, p3, p2, p1]
  · intro j
    rw [c5, c4, c3, c2, c1]

/-- `flight_schedule_free` on a last record whose `prev` is `&array[-1]` writes
`array[-1].next`: a fault. -/
theorem free_fault (s : pool) (r : Nat)
    (hn : nxt s.array r = some none) (hp : prv s.array r = some (some (-1))) :
    flight_schedule_free s (some (r : Int)) = none := by
  obtain ⟨r0, hr0, hr0n, hr0p⟩ := rec_of_views _ _ _ _ hn hp
  unfold flight_schedule_free
  simp [load_nat, hr0, hr0n, hr0p, set_next, load_neg]

/-! ## Segments of `next` links and chains of `prev` links -/

theorem seg_frame (a a' : List flight_schedule) (l : List Nat) (p q : ptr)
    (h : ∀ i ∈ l, nxt a' i = nxt a i) (hs : is_seg a p l q) : is_seg a' p l q := by
  induction l generalizing p with
  | nil => exact hs
  | cons i l ih =>
    obtain ⟨hp, m, hm, hrest⟩ := hs
    refine ⟨hp, m, ?_, ih m (fun j hj => h j (List.mem_cons_of_mem _ hj)) hrest⟩
    rw [h i (List.mem_cons_self _ _), hm]

theorem dl_frame (a a' : List flight_schedule) (l : List Nat) (p0 : ptr)
    (h : ∀ i ∈ l, prv a' i = prv a i) (hd : dl a p0 l) : dl a' p0 l := by
  induction l generalizing p0 with
  | nil => trivial
  | cons i l ih =>
    obtain ⟨hp, hrest⟩ := hd
    refine ⟨?_, ih (some (i : Int)) (fun j hj => h j (List.mem_cons_of_mem _ hj)) hrest⟩
    rw [h i (List.mem_cons_self _ _), hp]

theorem seg_append (a : List flight_schedule) (l1 l2 : List Nat) (p q : ptr) :
    is_seg a p (l1 ++ l2) q ↔ ∃ m, is_seg a p l1 m ∧ is_seg a m l2 q := by
  induction l1 generalizing p with
  | nil =>
    constructor
    · intro h
      exact ⟨p, rfl, h⟩
    · rintro ⟨m, hm, h⟩
      have hm' : p = m := hm
      rw [hm']
      exact h
  | cons i l ih =>
    constructor
    · rintro ⟨hp, m, hm, hrest⟩
      obtain ⟨m2, h1, h2⟩ := (ih m).mp hrest
      exact ⟨m2, ⟨hp, m, hm, h1⟩, h2⟩
    · rintro ⟨m2, ⟨hp, m, hm, h1⟩, h2⟩
      exact ⟨hp, m, hm, (ih m).mpr ⟨m2, h1, h2⟩⟩

theorem dl_append (a : List flight_schedule) (l1 l2 : List Nat) (p0 : ptr) :
    dl a p0 (l1 ++ l2) ↔ dl a p0 l1 ∧ dl a (last_ptr p0 l1) l2 := by
  induction l1 generalizing p0 with
  | nil =>
    constructor
    · intro h
      exact ⟨trivial, h⟩
    · rintro ⟨_, h⟩
      exact h
  | cons i l ih =>
    constructor
    · rintro ⟨hp, hrest⟩
      obtain ⟨h1, h2⟩ := (ih (some (i : Int))).mp hrest
      exact ⟨⟨hp, h1⟩, h2⟩
    · rintro ⟨⟨hp, h1⟩, h2⟩
      exact ⟨hp, (ih (some (i : Int))).mpr ⟨h1, h2⟩⟩

theorem seg_lt (a : List flight_schedule) (l : List Nat) (p q : ptr) (hs : is_seg a p l q) :
    ∀ i ∈ l, i < a.length := by
  induction l generalizing p with
  | nil => intro i hi; cases hi
  | cons i l ih =>
    obtain ⟨_, m, hm, hrest⟩ := hs
    intro j hj
    rcases List.mem_cons.mp hj with h | h
    · rw [h]
      exact nxt_lt a i m hm
    · exact ih m hrest j h

theorem seg_ptr_ok (a : List flight_schedule) (l : List Nat) (p : ptr)
    (hs : is_seg a p l none) : ptr_ok a p := by
  cases l with
  | nil => exact Or.inl hs
  | cons i l =>
    obtain ⟨hp, m, hm, _⟩ := hs
    exact Or.inr ⟨i, nxt_lt a i m hm, hp⟩

theorem last_ptr_mem (l : List Nat) (p0 : ptr) (hl : l ≠ []) :
    ∃ z ∈ l, last_ptr p0 l = some (z : Int) := by
  induction l generalizing p0 with
  | nil => exact absurd rfl hl
  | cons i l ih =>
    cases l with
    | nil => exact ⟨i, List.mem_cons_self _ _, rfl⟩
    | cons j l' =>
      obtain ⟨z, hz, h⟩ := ih (some (i : Int)) (by simp)
      exact ⟨z, List.mem_cons_of_mem _ hz, h⟩

theorem last_ptr_cases (l : List Nat) :
    (l = [] ∧ last_ptr none l = none) ∨ ∃ z ∈ l, last_ptr none l = some (z : Int) := by
  cases l with
  | nil => exact Or.inl ⟨rfl, rfl⟩
  | cons i l => exact Or.inr (last_ptr_mem (i :: l) none (by simp))

/-- Unlinking: when the last record of `pre` gets `np` as its `next` and the
other records of `pre` keep theirs, the segment that led to `r` leads to `np`. -/
theorem seg_relink (a a' : List flight_schedule) (r : Nat) (np : ptr) (pre : List Nat)
    (p p0 : ptr) (hs : is_seg a p pre (some (r : Int))) (hnd : pre.Nodup)
    (hn : ∀ i ∈ pre, nxt a' i = if last_ptr p0 pre = some (i : Int) then some np else nxt a i) :
    is_seg a' (if pre = [] then np else p) pre np := by
  induction pre generalizing p p0 with
  | nil => simp [is_seg]
  | cons x rest ih =>
    obtain ⟨hp, m, hm, hrest⟩ := hs
    have hx := hn x (List.mem_cons_self _ _)
    rw [List.nodup_cons] at hnd
    simp only [reduceCtorEq, if_false]
    cases rest with
    | nil =>
      refine ⟨hp, np, ?_, rfl⟩
      rw [hx]
      simp [last_ptr]
    | cons y rest' =>
      have h1 := ih m (some (x : Int)) hrest hnd.2
        (fun i hi => hn i (List.mem_cons_of_mem _ hi))
      simp only [reduceCtorEq, if_false] at h1
      refine ⟨hp, m, ?_, h1⟩
      rw [hx, ← hm]
      obtain ⟨z, hz, hzl⟩ := last_ptr_mem (y :: rest') (some (x : Int)) (by simp)
      have hzx : ¬ (z : Int) = (x : Int) := by
        intro e
        have : z = x := by omega
        exact hnd.1 (this ▸ hz)
      have : last_ptr p0 (x :: y :: rest') = some (z : Int) := hzl
      rw [this]
      simp [hzx]

theorem list_from_of_list (a : List flight_schedule) (l : List Nat) (p : ptr) (fuel : Nat)
    (h : is_list a p l) (hf : l.length < fuel) :
    list_from a fuel p = some (l.map (fun i : Nat => (i : Int))) := by
  induction l generalizing p fuel with
  | nil =>
    have hp : p = none := h
    subst hp
    cases fuel with
    | zero => simp at hf
    | succ k => simp [list_from]
  | cons i l ih =>
    obtain ⟨hp, m, hm, hrest⟩ := h
    subst hp
    cases fuel with
    | zero => simp at hf
    | succ k =>
      obtain ⟨p0, hp0⟩ := prv_of_lt a i (nxt_lt a i m hm)
      obtain ⟨r, hr, hrn, _⟩ := rec_of_views _ _ _ _ hm hp0
      have hk : l.length < k := by
        simp only [List.length_cons] at hf
        omega
      simp [list_from, load_nat, hr, hrn, ih m k hrest hk]

/-! ## The invariant of the pool -/

theorem ptr_in_ne (p : ptr) (l : List Nat) (i : Nat) (h : ptr_in p l) (hi : i ∉ l) :
    ¬ p = some (i : Int) := by
  intro e
  rcases h with h | ⟨x, hx, h⟩
  · rw [h] at e
    cases e
  · rw [h] at e
    have : x = i := by
      simp only [Option.some.injEq] at e
      omega
    exact hi (this ▸ hx)

theorem seg_ptr_in (a : List flight_schedule) (l : List Nat) (p : ptr)
    (hs : is_seg a p l none) : ptr_in p l := by
  cases l with
  | nil => exact Or.inl hs
  | cons i l => exact Or.inr ⟨i, List.mem_cons_self _ _, hs.1⟩

theorem last_ptr_in (l : List Nat) : ptr_in (last_ptr none l) l := by
  rcases last_ptr_cases l with ⟨_, h⟩ | ⟨z, hz, h⟩
  · exact Or.inl h
  · exact Or.inr ⟨z, hz, h⟩

theorem ptr_in_mono (p : ptr) (l l' : List Nat) (h : ptr_in p l) (hsub : ∀ x ∈ l, x ∈ l') :
    ptr_in p l' := by
  rcases h with h | ⟨x, hx, h⟩
  · exact Or.inl h
  · exact Or.inr ⟨x, hsub x hx, h⟩

theorem ptr_in_ok (a : List flight_schedule) (p : ptr) (l : List Nat) (h : ptr_in p l)
    (hl : ∀ i ∈ l, i < a.length) : ptr_ok a p := by
  rcases h with h | ⟨x, hx, h⟩
  · exact Or.inl h
  · exact Or.inr ⟨x, hl x hx, h⟩

/-- `flight_schedule_allocate` keeps the invariant: the head of the free list
moves to the head of the active list. -/
theorem inv_allocate (n : Nat) (s s' : pool) (p : ptr) (fl al : List Nat)
    (h : pool_inv n s fl al) (ha : flight_schedule_allocate s = some (s', p)) :
    ∃ f fl', fl = f :: fl' ∧ p = some (f : Int) ∧ s.flight_schedules_free = some (f : Int) ∧
      pool_inv n s' fl' (f :: al) ∧ (∀ j, cnt s'.array j = cnt s.array j) := by
  obtain ⟨hlen, hfl, hal, hnd, hsum, hres, hlinks⟩ := h
  cases fl with
  | nil =>
    have hnone : s.flight_schedules_free = none := hfl
    rw [allocate_null s hnone] at ha
    cases ha
  | cons f fl' =>
    obtain ⟨hfp, q, hq, hrest⟩ := hfl
    obtain ⟨a', e, l', n', p', c'⟩ := allocate_eff s f q hfp hq (seg_ptr_ok _ _ _ hal)
      (seg_ptr_ok _ _ _ hrest)
    rw [e] at ha
    simp only [Option.some.injEq, Prod.mk.injEq] at ha
    obtain ⟨hs', hp⟩ := ha
    subst hs'
    refine ⟨f, fl', rfl, hp.symm, hfp, ?_, c'⟩
    have hnd2 : f ∉ fl' ∧ f ∉ al ∧ fl'.Nodup ∧ al.Nodup ∧ ∀ x ∈ fl', x ∉ al := by
      simp only [List.cons_append, List.nodup_cons, List.mem_append, List.nodup_append,
        List.Disjoint] at hnd
      refine ⟨fun hx => hnd.1 (Or.inl hx), fun hx => hnd.1 (Or.inr hx), hnd.2.1, hnd.2.2.1, ?_⟩
      intro x hx hx'
      exact hnd.2.2.2 hx hx'
    obtain ⟨hf1, hf2, hnd1, hnd3, hdisj⟩ := hnd2
    have hqin : ptr_in q fl' := seg_ptr_in _ _ _ hrest
    have hain : ptr_in s.flight_schedules_active al := seg_ptr_in _ _ _ hal
    have hnf : ∀ i, i ≠ f → nxt a' i = nxt s.array i := by
      intro i hi
      rw [n']
      simp [hi]
    refine ⟨l'.trans hlen, ?_, ?_, ?_, ?_, ?_, ?_⟩
    · exact seg_frame s.array a' fl' q none
        (fun i hi => hnf i (fun e => hf1 (e ▸ hi))) hrest
    · refine ⟨rfl, s.flight_schedules_active, ?_, ?_⟩
      · rw [n']
        simp
      · exact seg_frame s.array a' al _ none
          (fun i hi => hnf i (fun e => hf2 (e ▸ hi))) hal
    · simp only [List.nodup_append, List.nodup_cons, List.Disjoint, List.mem_cons]
      refine ⟨hnd1, ⟨hf2, hnd3⟩, ?_⟩
      intro x hx hx'
      rcases hx' with hx' | hx'
      · exact hf1 (hx' ▸ hx)
      · exact hdisj x hx hx'
    · simp only [List.length_cons] at hsum ⊢
      omega
    · intro i hi
      rw [c']
      exact hres i (List.mem_cons_of_mem _ hi)
    · rcases hlinks with ⟨hfh, hdl⟩ | ⟨hn1, hprv⟩
      · left
        constructor
        · intro g hg
          cases fl' with
          | nil => simp at hg
          | cons g' rest =>
            simp only [List.head?_cons, Option.some.injEq] at hg
            subst hg
            have hqg : q = some (g' : Int) := hrest.1
            rw [p']
            simp [hqg]
        · constructor
          · rw [p', if_neg (ptr_in_ne q fl' f hqin hf1), if_neg (ptr_in_ne _ al f hain hf2)]
            exact hfh f rfl
          · cases al with
            | nil => trivial
            | cons x rest =>
              have hax : s.flight_schedules_active = some (x : Int) := hal.1
              obtain ⟨_, hdl2⟩ := hdl
              rw [List.nodup_cons] at hnd3
              constructor
              · rw [p', if_neg (ptr_in_ne q fl' x hqin
                  (fun hx => hdisj x hx (List.mem_cons_self _ _))), if_pos hax]
              · apply dl_frame s.array a' rest _ _ hdl2
                intro i hi
                rw [p', if_neg (ptr_in_ne q fl' i hqin
                  (fun hx => hdisj i hx (List.mem_cons_of_mem _ hi)))]
                have hne : ¬ s.flight_schedules_active = some (i : Int) := by
                  rw [hax]
                  intro e
                  simp only [Option.some.injEq] at e
                  have : x = i := by omega
                  exact hnd3.1 (this ▸ hi)
                rw [if_neg hne]
      · right
        refine ⟨hn1, ?_⟩
        simp only [List.length_cons] at hsum
        have hfl' : fl' = [] := List.eq_nil_of_length_eq_zero (by omega)
        have hal' : al = [] := List.eq_nil_of_length_eq_zero (by omega)
        subst hfl' hal'
        have hq0 : q = none := hrest
        have ha0 : s.flight_schedules_active = none := hal
        rw [p', hq0, ha0]
        simpa using hprv

/-- `flight_schedule_free` on a record `r` of a doubly linked active list runs
to completion and keeps the invariant: `r` leaves the active list, whose other
records keep their order, and becomes the head of the free list. -/
theorem free_strong (n : Nat) (s : pool) (fl pre post : List Nat) (r : Nat)
    (hlen : s.array.length = n)
    (hfl : is_list s.array s.flight_schedules_free fl)
    (hal : is_list s.array s.flight_schedules_active (pre ++ r :: post))
    (hnd : (fl ++ (pre ++ r :: post)).Nodup)
    (hsum : fl.length + (pre ++ r :: post).length = n)
    (hres : ∀ i ∈ fl, cnt s.array i = some reset_cnt)
    (hdl : dl s.array none (pre ++ r :: post)) :
    ∃ s', flight_schedule_free s (some (r : Int)) = some s' ∧
      pool_inv n s' (r :: fl) (pre ++ post) ∧
      ((∀ f, (r :: fl).head? = some f → prv s'.array f = some none) ∧
        dl s'.array none (pre ++ post)) ∧
      (∀ j, j ≠ r → cnt s'.array j = cnt s.array j) := by
  obtain ⟨m, hpre, hm, np, hnp, hpost⟩ := (seg_append _ _ _ _ _).mp hal
  obtain ⟨hdlpre, hprv, hdlpost⟩ := (dl_append _ _ _ _).mp hdl
  have hnd2 : (r ∉ fl ∧ r ∉ pre ∧ r ∉ post) ∧ (fl.Nodup ∧ pre.Nodup ∧ post.Nodup) ∧
      (∀ x ∈ fl, x ∉ pre) ∧ (∀ x ∈ fl, x ∉ post) ∧ (∀ x ∈ pre, x ∉ post) := by
    simp only [List.nodup_append, List.nodup_cons, List.Disjoint, List.mem_append,
      List.mem_cons] at hnd
    obtain ⟨h1, ⟨h2, ⟨h3, h4⟩, h5⟩, h6⟩ := hnd
    refine ⟨⟨fun hx => h6 hx (Or.inr (Or.inl rfl)), fun hx => h5 hx (Or.inl rfl), h3⟩,
      ⟨h1, h2, h4⟩, fun x hx hx' => h6 hx (Or.inl hx'),
      fun x hx hx' => h6 hx (Or.inr (Or.inr hx')), fun x hx hx' => h5 hx (Or.inr hx')⟩
  obtain ⟨⟨hr1, hr2, hr3⟩, ⟨hndf, hndpre, hndpost⟩, hd1, hd2, hd3⟩ := hnd2
  have hfin : ptr_in s.flight_schedules_free fl := seg_ptr_in _ _ _ hfl
  have hnpin : ptr_in np post := seg_ptr_in _ _ _ hpost
  have hppin : ptr_in (last_ptr none pre) pre := last_ptr_in pre
  obtain ⟨a', e, l', n', p', c'⟩ := free_eff s r np (last_ptr none pre) hnp hprv
    (seg_ptr_ok _ _ _ hpost) (ptr_in_ok _ _ _ hppin (seg_lt _ _ _ _ hpre)) (seg_ptr_ok _ _ _ hfl)
  have hact : (if s.flight_schedules_active = some (r : Int) then np
      else s.flight_schedules_active) = if pre = [] then np else s.flight_schedules_active := by
    cases pre with
    | nil =>
      have h1 : s.flight_schedules_active = m := hpre
      rw [h1, hm]
      simp
    | cons x rest =>
      have h1 : s.flight_schedules_active = some (x : Int) := hpre.1
      have hxr : ¬ (x : Int) = (r : Int) := by
        intro e1
        have : x = r := by omega
        exact hr2 (this ▸ List.mem_cons_self _ _)
      rw [h1]
      simp [hxr]
  have hlinks : (∀ f, (r :: fl).head? = some f → prv a' f = some none) ∧
      dl a' none (pre ++ post) := by
    constructor
    · intro g hg
      simp only [List.head?_cons, Option.some.injEq] at hg
      rw [← hg, p', if_neg (ptr_in_ne _ fl r hfin hr1), if_pos rfl]
    · refine (dl_append _ _ _ _).mpr ⟨dl_frame _ _ _ _ ?_ hdlpre, ?_⟩
      · intro i hi
        rw [p', if_neg (ptr_in_ne _ fl i hfin (fun hx => hd1 i hx hi)),
          if_neg (fun (e1 : i = r) => hr2 (e1 ▸ hi)), if_neg (ptr_in_ne np post i hnpin (hd3 i hi))]
      · cases post with
        | nil => trivial
        | cons x rest =>
          have hnpx : np = some (x : Int) := hpost.1
          rw [List.nodup_cons] at hndpost
          constructor
          · rw [p', if_neg (ptr_in_ne _ fl x hfin (fun hx => hd2 x hx (List.mem_cons_self _ _))),
              if_neg (fun (e1 : x = r) => hr3 (e1 ▸ List.mem_cons_self _ _)), if_pos hnpx]
          · apply dl_frame s.array a' rest _ _ hdlpost.2
            intro i hi
            have hne : ¬ np = some (i : Int) := by
              rw [hnpx]
              intro e1
              simp only [Option.some.injEq] at e1
              have : x = i := by omega
              exact hndpost.1 (this ▸ hi)
            rw [p', if_neg (ptr_in_ne _ fl i hfin
                (fun hx => hd2 i hx (List.mem_cons_of_mem _ hi))),
              if_neg (fun (e1 : i = r) => hr3 (e1 ▸ List.mem_cons_of_mem _ hi)), if_neg hne]
  refine ⟨_, e, ⟨l'.trans hlen, ?_, ?_, ?_, ?_, ?_, Or.inl hlinks⟩, hlinks, ?_⟩
  · refine ⟨rfl, s.flight_schedules_free, ?_, ?_⟩
    · rw [n', if_pos rfl]
    · apply seg_frame s.array a' fl _ none _ hfl
      intro i hi
      rw [n', if_neg (fun (e1 : i = r) => hr1 (e1 ▸ hi)),
        if_neg (ptr_in_ne _ pre i hppin (hd1 i hi))]
  · show is_seg a' _ (pre ++ post) none
    rw [hact]
    refine (seg_append _ _ _ _ _).mpr ⟨np, ?_, ?_⟩
    · apply seg_relink s.array a' r np pre s.flight_schedules_active none (hm ▸ hpre) hndpre
      intro i hi
      rw [n', if_neg (fun (e1 : i = r) => hr2 (e1 ▸ hi))]
    · apply seg_frame s.array a' post _ none _ hpost
      intro i hi
      rw [n', if_neg (fun (e1 : i = r) => hr3 (e1 ▸ hi)),
        if_neg (ptr_in_ne _ pre i hppin (fun hx => hd3 i hx hi))]
  · simp only [List.nodup_append, List.nodup_cons, List.Disjoint, List.mem_append,
      List.mem_cons, List.cons_append]
    refine ⟨?_, ⟨hndf, ⟨hndpre, hndpost, fun x hx hx' => hd3 x hx hx'⟩, ?_⟩⟩
    · rintro (hx | hx | hx)
      · exact hr1 hx
      · exact hr2 hx
      · exact hr3 hx
    · intro x hx hx'
      rcases hx' with hx' | hx'
      · exact hd1 x hx hx'
      · exact hd2 x hx hx'
  · simp only [List.length_cons, List.length_append] at hsum ⊢
    omega
  · intro i hi
    rw [c']
    rcases List.mem_cons.mp hi with h1 | h1
    · rw [if_pos h1]
    · rw [if_neg (fun (e1 : i = r) => hr1 (e1 ▸ h1))]
      exact hres i h1
  · intro j hj
    show cnt a' j = cnt s.array j
    rw [c', if_neg hj]

/-- `flight_schedule_free` on a record of the active list that runs to
completion keeps the invariant. -/
theorem inv_free (n : Nat) (s s' : pool) (fl pre post : List Nat) (r : Nat)
    (h : pool_inv n s fl (pre ++ r :: post))
    (hf : flight_schedule_free s (some (r : Int)) = some s') :
    pool_inv n s' (r :: fl) (pre ++ post) := by
  obtain ⟨hlen, hfl, hal, hnd, hsum, hres, hlinks⟩ := h
  rcases hlinks with ⟨hfh, hdl⟩ | ⟨hn1, hprv⟩
  · obtain ⟨s2, e, hinv, _⟩ := free_strong n s fl pre post r hlen hfl hal hnd hsum hres hdl
    rw [e] at hf
    simp only [Option.some.injEq] at hf
    exact hf ▸ hinv
  · exfalso
    simp only [List.length_append, List.length_cons] at hsum
    have hpre : pre = [] := List.eq_nil_of_length_eq_zero (by omega)
    have hpost : post = [] := List.eq_nil_of_length_eq_zero (by omega)
    subst hpre hpost
    obtain ⟨_, m, hm, hrest⟩ := hal
    have hm0 : m = none := hrest
    have hr0 : r = 0 := by
      have := nxt_lt _ _ _ hm
      omega
    subst hr0 hm0
    rw [free_fault s 0 hm hprv] at hf
    cases hf

/-- A write to the destination and the flights of a record leaves the links
and the content of the other records as they were. -/
theorem store_content_eff (a a' : List flight_schedule) (i : Nat) (v : flight_schedule)
    (d : city_t) (f : List flight) (hv : a[i]? = some v)
    (hs : store a (some (i : Int)) { v with destination := d, flights := f } = some a') :
    a'.length = a.length ∧ (∀ j, nxt a' j = nxt a j) ∧ (∀ j, prv a' j = prv a j) ∧
      (∀ j, j ≠ i → cnt a' j = cnt a j) := by
  have hi : i < a.length := by
    by_contra hlt
    rw [List.getElem?_eq_none (by omega)] at hv
    cases hv
  rw [store_nat a i _ hi] at hs
  simp only [Option.some.injEq] at hs
  subst hs
  refine ⟨by simp, ?_, ?_, ?_⟩
  · intro j
    unfold nxt
    rw [List.getElem?_set]
    by_cases h : i = j
    · subst h
      simp [hi, hv]
    · simp [h]
  · intro j
    unfold prv
    rw [List.getElem?_set]
    by_cases h : i = j
    · subst h
      simp [hi, hv]
    · simp [h]
  · intro j hj
    unfold cnt
    rw [List.getElem?_set]
    have h : ¬ i = j := fun e => hj e.symm
    simp [h]

/-- The writes of the commands to a record of the active list keep the invariant. -/
theorem inv_populate (n : Nat) (s : pool) (fl al : List Nat) (i : Nat) (v : flight_schedule)
    (d : city_t) (f : List flight) (a : List flight_schedule)
    (h : pool_inv n s fl al) (hi : i ∈ al) (hv : load s.array (some (i : Int)) = some v)
    (hs : store s.array (some (i : Int)) { v with destination := d, flights := f } = some a) :
    pool_inv n { s with array := a } fl al := by
  obtain ⟨hlen, hfl, hal, hnd, hsum, hres, hlinks⟩ := h
  rw [load_nat] at hv
  obtain ⟨l', n', p', c'⟩ := store_content_eff s.array a i v d f hv hs
  have hifl : i ∉ fl := by
    intro hx
    exact (List.disjoint_of_nodup_append hnd) hx hi
  refine ⟨l'.trans hlen, seg_frame _ _ _ _ _ (fun j _ => n' j) hfl,
    seg_frame _ _ _ _ _ (fun j _ => n' j) hal, hnd, hsum, ?_, ?_⟩
  · intro j hj
    show cnt a j = some reset_cnt
    rw [c' j (fun e => hifl (e ▸ hj))]
    exact hres j hj
  · rcases hlinks with ⟨hfh, hdl⟩ | ⟨hn1, hprv⟩
    · left
      refine ⟨?_, dl_frame _ _ _ _ (fun j _ => p' j) hdl⟩
      intro g hg
      show prv a g = some none
      rw [p']
      exact hfh g hg
    · right
      refine ⟨hn1, ?_⟩
      show prv a 0 = _
      rw [p']
      exact hprv

/-! ## The initial state -/

theorem initialize_step_eff (a : List flight_schedule) (k : Nat) (hk : k + 1 < a.length) :
    ∃ a', initialize_step a k = some a' ∧ a'.length = a.length ∧
      (∀ j, j ≠ k + 1 → nxt a' j = if j = k then some (some ((k + 1 : Nat) : Int)) else nxt a j) ∧
      (∀ j, j ≠ k + 1 → prv a' j = if j = k then some none else prv a j) ∧
      (∀ j, j ≠ k + 1 → cnt a' j = if j = k then some reset_cnt else cnt a j) := by
  obtain ⟨a1, e1, l1, n1, p1, c1⟩ := reset_eff a k (by omega)
  obtain ⟨a2, e2, l2, n2, p2, c2⟩ := set_next_eff a1 k (some ((k + 1 : Nat) : Int)) (by omega)
  obtain ⟨a3, e3, l3, n3, p3, c3⟩ := set_prev_eff a2 (k + 1) (some (k : Int)) (by omega)
  refine ⟨a3, ?_, by omega, ?_, ?_, ?_⟩
  · unfold initialize_step
    have hc : ((k : Int) + 1) = ((k + 1 : Nat) : Int) := by push_cast; rfl
    simp only [Option.bind_eq_bind, e1, Option.some_bind, hc, e2, e3]
  · intro j _
    rw [n3, n2, n1]
    by_cases h : j = k
    · simp [h]
    · simp [h]
  · intro j hj
    rw [p3, if_neg hj, p2, p1]
  · intro j _
    rw [c3, c2, c1]

theorem initialize_loop_eff (a0 : List flight_schedule) (k : Nat) (hk : k + 1 ≤ a0.length) :
    ∃ a, (List.range k).foldlM initialize_step a0 = some a ∧ a.length = a0.length ∧
      ∀ j, j < k → nxt a j = some (some ((j + 1 : Nat) : Int)) ∧ prv a j = some none ∧
        cnt a j = some reset_cnt := by
  induction k with
  | zero =>
    refine ⟨a0, rfl, rfl, ?_⟩
    intro j hj
    omega
  | succ k ih =>
    obtain ⟨a, e, l, hv⟩ := ih (by omega)
    obtain ⟨a', e', l', n', p', c'⟩ := initialize_step_eff a k (by omega)
    refine ⟨a', ?_, by omega, ?_⟩
    · rw [List.range_succ, List.foldlM_append, e]
      simp only [Option.bind_eq_bind, Option.some_bind, List.foldlM_cons, List.foldlM_nil, e']
      rfl
    · intro j hj
      have hj1 : j ≠ k + 1 := by omega
      rw [n' j hj1, p' j hj1, c' j hj1]
      by_cases h : j = k
      · subst h
        simp
      · have hlt : j < k := by omega
        simp only [h, if_false]
        exact hv j hlt

/-- Symbolic execution of `flight_schedule_initialize` on an array of `n ≥ 1`
records, whatever the array held before. -/
theorem initialize_eff (arr : List flight_schedule) (n : Nat) (hlen : arr.length = n)
    (hn : 1 ≤ n) :
    ∃ a, flight_schedule_initialize arr (n : Int)
        = some { array := a, flight_schedules_free := some 0,
                 flight_schedules_active := none } ∧
      a.length = n ∧
      (∀ j, j < n → nxt a j = some (if j + 1 < n then some ((j + 1 : Nat) : Int) else none)) ∧
      (∀ j, j < n → prv a j = some (if j + 1 = n then some ((n : Int) - 2) else none)) ∧
      (∀ j, j < n → cnt a j = some reset_cnt) := by
  obtain ⟨a0, e0, l0, n0, p0, c0⟩ := set_prev_eff arr 0 none (by omega)
  obtain ⟨a1, e1, l1, hv⟩ := initialize_loop_eff a0 (n - 1) (by omega)
  obtain ⟨a2, e2, l2, n2, p2, c2⟩ := reset_eff a1 (n - 1) (by omega)
  obtain ⟨a3, e3, l3, n3, p3, c3⟩ := set_next_eff a2 (n - 1) none (by omega)
  obtain ⟨a4, e4, l4, n4, p4, c4⟩ := set_prev_eff a3 (n - 1) (some ((n : Int) - 2)) (by omega)
  have hc1 : ((n : Int) - 1) = ((n - 1 : Nat) : Int) := by omega
  have hc2 : ((n : Int) - 1).toNat = n - 1 := by omega
  have hn0 : ¬ (n : Int) = 0 := by omega
  refine ⟨a4, ?_, by omega, ?_, ?_, ?_⟩
  · unfold flight_schedule_initialize
    rw [if_neg hn0]
    have e0' : set_prev arr (some 0) none = some a0 := e0
    simp only [Option.bind_eq_bind, e0', Option.some_bind, hc2, e1]
    rw [hc1]
    simp only [e2, Option.some_bind, e3]
    rw [e4]
    rfl
  · intro j hj
    rw [n4, n3, n2]
    by_cases h : j = n - 1
    · have h2 : ¬ j + 1 < n := by omega
      rw [if_pos h, if_neg h2]
    · have h2 : j + 1 < n := by omega
      simp only [h, if_false, h2, if_true]
      exact (hv j (by omega)).1
  · intro j hj
    rw [p4, p3, p2]
    by_cases h : j = n - 1
    · have h2 : j + 1 = n := by omega
      rw [if_pos h, if_pos h2]
    · have h2 : ¬ j + 1 = n := by omega
      simp only [h, if_false, h2]
      exact (hv j (by omega)).2.1
  · intro j hj
    rw [c4, c3, c2]
    by_cases h : j = n - 1
    · simp [h]
    · simp only [h, if_false]
      exact (hv j (by omega)).2.2

theorem seg_range (a : List flight_schedule) (n m k : Nat) (hkm : k + m = n)
    (hn : ∀ j, j < n → nxt a j = some (if j + 1 < n then some ((j + 1 : Nat) : Int) else none)) :
    is_seg a (if k < n then some (k : Int) else none) (List.range' k m) none := by
  induction m generalizing k with
  | zero =>
    have : ¬ k < n := by omega
    simp [this, is_seg]
  | succ m ih =>
    have hk : k < n := by omega
    rw [if_pos hk, List.range'_succ]
    refine ⟨rfl, _, hn k hk, ih (k + 1) (by omega)⟩

/-- The state `flight_schedule_initialize` returns satisfies the invariant: all
records are on the free list, in array order. -/
theorem inv_init (n : Nat) (arr : List flight_schedule) (s : pool) (hlen : arr.length = n)
    (h : flight_schedule_initialize arr (n : Int) = some s) :
    pool_inv n s (List.range n) [] := by
  rcases Nat.eq_zero_or_pos n with h0 | hpos
  · subst h0
    unfold flight_schedule_initialize at h
    simp only [Nat.cast_zero, if_true, Option.some.injEq] at h
    subst h
    refine ⟨hlen, rfl, rfl, by simp, by simp, by simp, Or.inl ⟨by simp, trivial⟩⟩
  · obtain ⟨a, e, l, hn, hp, hc⟩ := initialize_eff arr n hlen hpos
    rw [e] at h
    simp only [Option.some.injEq] at h
    subst h
    refine ⟨l, ?_, rfl, ?_, by simp, ?_, ?_⟩
    · have h1 := seg_range a n n 0 (by omega) hn
      rw [if_pos hpos, ← List.range_eq_range'] at h1
      exact h1
    · simpa using List.nodup_range n
    · intro i hi
      exact hc i (List.mem_range.mp hi)
    · by_cases h1 : n = 1
      · right
        refine ⟨h1, ?_⟩
        show prv a 0 = _
        rw [hp 0 hpos, h1]
        rfl
      · left
        refine ⟨?_, trivial⟩
        intro f hf
        have hf0 : f = 0 := by
          cases n with
          | zero => omega
          | succ k =>
            rw [List.range_succ_eq_map] at hf
            simp at hf
            exact hf.symm
        subst hf0
        show prv a 0 = _
        rw [hp 0 hpos]
        have : ¬ 0 + 1 = n := by omega
        rw [if_neg this]

/-- The lists the invariant speaks of are the lists read off the state. -/
theorem inv_lists (n : Nat) (s : pool) (fl al : List Nat) (h : pool_inv n s fl al) :
    free_list s = some (fl.map (fun i : Nat => (i : Int))) ∧
    active_list s = some (al.map (fun i : Nat => (i : Int))) := by
  obtain ⟨hlen, hfl, hal, _, hsum, _, _⟩ := h
  exact ⟨list_from_of_list _ _ _ _ hfl (by omega), list_from_of_list _ _ _ _ hal (by omega)⟩

/-- Every reachable state satisfies the invariant. -/
theorem reachable_inv (n : Nat) (s : pool) (h : reachable n s) :
    ∃ fl al, pool_inv n s fl al := by
  induction h with
  | init arr s hlen hi => exact ⟨List.range n, [], inv_init n arr s hlen hi⟩
  | allocate s s' p _ ha ih =>
    obtain ⟨fl, al, hinv⟩ := ih
    obtain ⟨f, fl', _, _, _, hinv', _⟩ := inv_allocate n s s' p fl al hinv ha
    exact ⟨fl', f :: al, hinv'⟩
  | free s s' alI r _ hal hr hf ih =>
    obtain ⟨fl, al, hinv⟩ := ih
    rw [(inv_lists n s fl al hinv).2] at hal
    simp only [Option.some.injEq] at hal
    rw [← hal, List.mem_map] at hr
    obtain ⟨i, hi, hir⟩ := hr
    obtain ⟨pre, post, hsplit⟩ := List.append_of_mem hi
    rw [← hir] at hf
    rw [hsplit] at hinv
    exact ⟨i :: fl, pre ++ post, inv_free n s s' fl pre post i hinv hf⟩
  | populate s alI r v d f a _ hal hr hv hs ih =>
    obtain ⟨fl, al, hinv⟩ := ih
    rw [(inv_lists n s fl al hinv).2] at hal
    simp only [Option.some.injEq] at hal
    rw [← hal, List.mem_map] at hr
    obtain ⟨i, hi, hir⟩ := hr
    rw [← hir] at hv hs
    exact ⟨fl, al, inv_populate n s fl al i v d f a hinv hi hv hs⟩

/-! ## Allocation and release -/

theorem allocate_total (n : Nat) (s : pool) (f : Nat) (fl al : List Nat)
    (h : pool_inv n s (f :: fl) al) :
    ∃ s', flight_schedule_allocate s = some (s', some (f : Int)) := by
  obtain ⟨_, hfl, hal, _, _, _, _⟩ := h
  obtain ⟨hfp, q, hq, hrest⟩ := hfl
  obtain ⟨a', e, _⟩ := allocate_eff s f q hfp hq (seg_ptr_ok _ _ _ hal) (seg_ptr_ok _ _ _ hrest)
  exact ⟨_, e⟩

/-- C5: in a state reached from `flight_schedule_initialize` by allocations,
releases and writes to active records, with a non-empty free list,
`flight_schedule_allocate` runs to completion and returns the head `f` of the
free list; afterwards the free list is the old one without its head, the
active list is `f` followed by the old active list, and the record `f` has an
empty destination and all its flight slots EMPTY. -/
theorem allocate_spec (n : Nat) (s : pool) (hr : reachable n s)
    (hne : s.flight_schedules_free ≠ none) :
    ∃ (f : Int) (fl al : List Int) (s' : pool) (v : flight_schedule),
      s.flight_schedules_free = some f ∧
      free_list s = some (f :: fl) ∧ active_list s = some al ∧
      flight_schedule_allocate s = some (s', some f) ∧
      free_list s' = some fl ∧ active_list s' = some (f :: al) ∧
      load s'.array (some f) = some v ∧ v.destination = [] ∧
      v.flights = List.replicate MAX_FLIGHTS_PER_CITY empty_flight := by
  obtain ⟨fl, al, hinv⟩ := reachable_inv n s hr
  cases fl with
  | nil => exact absurd hinv.2.1 hne
  | cons f fl' =>
    obtain ⟨s', ha⟩ := allocate_total n s f fl' al hinv
    obtain ⟨f2, fl2, hfl2, _, hfp, hinv', hc⟩ := inv_allocate n s s' _ (f :: fl') al hinv ha
    simp only [List.cons.injEq] at hfl2
    obtain ⟨hf2, hfl2⟩ := hfl2
    subst hf2 hfl2
    have hcf : cnt s'.array f = some reset_cnt := by
      rw [hc]
      exact hinv.2.2.2.2.2.1 f (List.mem_cons_self _ _)
    unfold cnt at hcf
    cases hv : s'.array[f]? with
    | none => simp [hv] at hcf
    | some v =>
      simp only [hv, Option.map_some', Option.some.injEq, reset_cnt, Prod.mk.injEq] at hcf
      refine ⟨(f : Int), fl'.map (fun i : Nat => (i : Int)), al.map (fun i : Nat => (i : Int)),
        s', v, hfp, ?_, (inv_lists n s _ _ hinv).2, ha, (inv_lists n s' _ _ hinv').1, ?_, ?_,
        hcf.1, hcf.2⟩
      · exact (inv_lists n s _ _ hinv).1
      · exact (inv_lists n s' _ _ hinv').2
      · rw [load_nat]
        exact hv

theorem allocate_spec_witness :
    reachable 2 pool_of_two ∧ pool_of_two.flight_schedules_free ≠ none ∧
    ∃ (f : Int) (fl al : List Int) (s' : pool) (v : flight_schedule),
      pool_of_two.flight_schedules_free = some f ∧
      free_list pool_of_two = some (f :: fl) ∧ active_list pool_of_two = some al ∧
      flight_schedule_allocate pool_of_two = some (s', some f) ∧
      free_list s' = some fl ∧ active_list s' = some (f :: al) ∧
      load s'.array (some f) = some v ∧ v.destination = [] ∧
      v.flights = List.replicate MAX_FLIGHTS_PER_CITY empty_flight :=
  have h : reachable 2 pool_of_two :=
    reachable.init [raw_record, raw_record] pool_of_two rfl (by decide)
  ⟨h, by decide, allocate_spec 2 pool_of_two h (by decide)⟩

/-! ## Looking a city up -/

theorem char_toNat_inj (a b : Char) (h : a.toNat = b.toNat) : a = b := by
  rw [← Char.ofNat_toNat a, ← Char.ofNat_toNat b, h]

/-- On labels of the interface `strncmp` over `n` characters, `n` at least
their lengths, is 0 exactly for equal labels. -/
theorem strncmp_eq_zero (n : Nat) (a b : List Char) (ha : a.length ≤ n) (hb : b.length ≤ n)
    (hna : Char.ofNat 0 ∉ a) (hnb : Char.ofNat 0 ∉ b) :
    strncmp a b n = 0 ↔ a = b := by
  induction n generalizing a b with
  | zero =>
    have h1 : a = [] := List.eq_nil_of_length_eq_zero (by omega)
    have h2 : b = [] := List.eq_nil_of_length_eq_zero (by omega)
    subst h1 h2
    simp [strncmp]
  | succ n ih =>
    unfold strncmp
    cases a with
    | nil =>
      cases b with
      | nil => simp
      | cons y ys =>
        have hy : ¬ Char.ofNat 0 = y := fun e => hnb (e ▸ List.mem_cons_self _ _)
        have hy2 : ¬ (Char.ofNat 0).toNat = y.toNat := fun e => hy (char_toNat_inj _ _ e)
        simp only [List.headD_nil, List.headD_cons, ne_eq, hy, not_false_eq_true, if_true,
          reduceCtorEq, iff_false]
        omega
    | cons x xs =>
      have hx : ¬ x = Char.ofNat 0 := fun e => hna (e ▸ List.mem_cons_self _ _)
      cases b with
      | nil =>
        have hx2 : ¬ x.toNat = (Char.ofNat 0).toNat := fun e => hx (char_toNat_inj _ _ e)
        simp only [List.headD_nil, List.headD_cons, ne_eq, hx, not_false_eq_true, if_true,
          reduceCtorEq, iff_false]
        omega
      | cons y ys =>
        simp only [List.headD_cons, ne_eq, List.tail_cons, List.cons.injEq]
        by_cases hxy : x = y
        · subst hxy
          simp only [not_true_eq_false, if_false, hx, true_and]
          apply ih
          · simp only [List.length_cons] at ha
            omega
          · simp only [List.length_cons] at hb
            omega
          · exact fun h => hna (List.mem_cons_of_mem _ h)
          · exact fun h => hnb (List.mem_cons_of_mem _ h)
        · have hxy2 : ¬ x.toNat = y.toNat := fun e => hxy (char_toNat_inj _ _ e)
          simp only [hxy, not_false_eq_true, if_true, false_and, iff_false]
          omega

theorem find_loop_spec (a : List flight_schedule) (city : city_t) (fuel : Nat) (p : ptr)
    (L : List Int) (h : list_from a fuel p = some L) (hc : label_ok city)
    (hl : ∀ i ∈ L, label_ok (destination_of a i)) :
    find_loop a city fuel p
      = some (L.find? (fun i => decide (destination_of a i = city))) := by
  induction fuel generalizing p L with
  | zero => simp [list_from] at h
  | succ fuel ih =>
    cases p with
    | none =>
      simp only [list_from, Option.some.injEq] at h
      subst h
      simp [find_loop]
    | some i =>
      unfold list_from at h
      cases hr : load a (some i) with
      | none => simp [hr] at h
      | some r =>
        cases hrest : list_from a fuel r.next with
        | none => simp [hr, hrest] at h
        | some L' =>
          simp only [hr, hrest, Option.bind_eq_bind, Option.some_bind, Option.pure_def,
            Option.some.injEq] at h
          subst h
          have hd : destination_of a i = r.destination := by
            unfold destination_of
            rw [hr]
          have hli := hl i (List.mem_cons_self _ _)
          rw [hd] at hli
          have hiff := strncmp_eq_zero MAX_CITY_NAME_LEN city r.destination hc.1 hli.1 hc.2 hli.2
          unfold find_loop
          simp only [hr, Option.bind_eq_bind, Option.some_bind, List.find?_cons, hd]
          by_cases hcr : city = r.destination
          · have h0 := hiff.mpr hcr
            rw [if_pos h0]
            simp [hcr]
          · have h0 : ¬ strncmp city r.destination MAX_CITY_NAME_LEN = 0 := fun e => hcr (hiff.mp e)
            have hcr' : ¬ r.destination = city := fun e => hcr e.symm
            simp only [h0, if_false, hcr', decide_False]
            exact ih r.next L' hrest (fun j hj => hl j (List.mem_cons_of_mem _ hj))

/-- C7: when the active list is the sequence `al` of records, all with labels
of the interface, and `city` is a label of the interface,
`flight_schedule_find` returns the state as it was together with the first
record of `al` whose destination equals `city`, and NULL when there is none:
it returns a record exactly when some active record has the destination
`city`, and every record before the returned one has another destination. -/
theorem find_spec (s : pool) (city : city_t) (al : List Int)
    (hal : active_list s = some al) (hc : label_ok city)
    (hl : ∀ i ∈ al, label_ok (destination_of s.array i)) :
    flight_schedule_find s city
      = some (s, al.find? (fun i => decide (destination_of s.array i = city))) ∧
    ((∃ r, flight_schedule_find s city = some (s, some r)) ↔
      ∃ i ∈ al, destination_of s.array i = city) ∧
    (∀ r, flight_schedule_find s city = some (s, some r) →
      destination_of s.array r = city ∧
      ∃ before after, al = before ++ r :: after ∧
        ∀ j ∈ before, destination_of s.array j ≠ city) := by
  have h1 : flight_schedule_find s city
      = some (s, al.find? (fun i => decide (destination_of s.array i = city))) := by
    unfold flight_schedule_find
    rw [find_loop_spec s.array city _ _ al hal hc hl]
    rfl
  refine ⟨h1, ?_, ?_⟩
  · rw [h1]
    constructor
    · rintro ⟨r, hr⟩
      simp only [Option.some.injEq, Prod.mk.injEq, true_and] at hr
      have h2 := List.find?_some hr
      exact ⟨r, List.mem_of_find?_eq_some hr, by simpa using h2⟩
    · rintro ⟨i, hi, hd⟩
      cases hf : al.find? (fun i => decide (destination_of s.array i = city)) with
      | none =>
        rw [List.find?_eq_none] at hf
        exact absurd (by simpa using hd) (hf i hi)
      | some r => exact ⟨r, rfl⟩
  · intro r hr
    rw [h1] at hr
    simp only [Option.some.injEq, Prod.mk.injEq, true_and] at hr
    rw [List.find?_eq_some] at hr
    obtain ⟨hp, before, after, hsplit, hb⟩ := hr
    refine ⟨by simpa using hp, before, after, hsplit, ?_⟩
    intro j hj
    simpa using hb j hj

theorem find_spec_witness :
    active_list pool_of_cities = some [2, 0] ∧
    flight_schedule_find pool_of_cities ['T', 'o', 'r'] = some (pool_of_cities, some 0) :=
  ⟨by decide,
   (find_spec pool_of_cities ['T', 'o', 'r'] [2, 0] (by decide) (by decide) (by decide)).1⟩

/-! ## Where the pool operations fault -/

/-- C2 (the code departs from the claim): in a pool of one record,
`flight_schedule_initialize` leaves `&array[-1]` in the `prev` field of the
record; after one allocation the record is the active list, and its release
writes through that address: the operation faults, so there is no state
after it in which the two lists hold the record. The commands `A Tor`,
`R Tor` run this very sequence. -/
theorem pool_of_one_release_faults :
    (( flight_schedule_initialize [raw_record] 1).bind
        (fun s => pool_run s [pool_op.allocate])).bind active_list = some [0] ∧
    ( flight_schedule_initialize [raw_record] 1).bind
        (fun s => pool_run s [pool_op.allocate, pool_op.free 0]) = none ∧
    (( flight_schedule_initialize [raw_record] 1).bind fun s0 =>
      (flight_schedule_add s0 ['T', 'o', 'r']).bind fun x1 =>
      flight_schedule_remove x1.1 ['T', 'o', 'r']) = none := by
  decide

/-- C4 (the code departs from the claim): in a pool of two records two
allocations succeed and empty the free list; the third allocation reads
`flight_schedules_free->next` with `flight_schedules_free == NULL` and
faults, where the claim has it return NotAvailable and change nothing. -/
theorem third_allocate_faults :
    (( flight_schedule_initialize [raw_record, raw_record] 2).bind
        (fun s => pool_run s [pool_op.allocate, pool_op.allocate])).bind free_list = some [] ∧
    (( flight_schedule_initialize [raw_record, raw_record] 2).bind
        (fun s => pool_run s [pool_op.allocate, pool_op.allocate])).bind active_list
      = some [1, 0] ∧
    ( flight_schedule_initialize [raw_record, raw_record] 2).bind
        (fun s => pool_run s [pool_op.allocate, pool_op.allocate, pool_op.allocate]) = none := by
  decide

/-- C6 (the code departs from the claim): the state reached in a pool of one
record by one allocation has the record as the only element of the active
list, with `next == NULL` and `prev == &array[-1]`; `flight_schedule_free` on
that record executes `schedule->prev->next = schedule->next` and faults. -/
theorem release_only_record_faults :
    ( flight_schedule_initialize [raw_record] 1).bind flight_schedule_allocate
      = some ({ array := [{ destination := [], flights := empty_table,
                            next := none, prev := some (-1) }],
                flight_schedules_free := none,
                flight_schedules_active := some 0 }, some 0) ∧
    flight_schedule_free
        { array := [{ destination := [], flights := empty_table,
                      next := none, prev := some (-1) }],
          flight_schedules_free := none,
          flight_schedules_active := some 0 } (some 0) = none := by
  decide

/-! ## What holds of the pool operations that run to completion -/

/-- In every reachable state the two lists hold the `n` records between them
and share none. -/
theorem reachable_conservation (n : Nat) (s : pool) (hr : reachable n s) :
    ∃ fl al, free_list s = some fl ∧ active_list s = some al ∧
      fl.length + al.length = n ∧ ∀ x, x ∈ fl → x ∉ al := by
  obtain ⟨fl, al, hinv⟩ := reachable_inv n s hr
  obtain ⟨h1, h2⟩ := inv_lists n s fl al hinv
  obtain ⟨_, _, _, hnd, hsum, _, _⟩ := hinv
  refine ⟨_, _, h1, h2, by simpa using hsum, ?_⟩
  intro x hx hx'
  rw [List.mem_map] at hx hx'
  obtain ⟨i, hi, hix⟩ := hx
  obtain ⟨j, hj, hjx⟩ := hx'
  have hij : i = j := by omega
  exact (List.disjoint_of_nodup_append hnd) hi (hij ▸ hj)

theorem erase_map_split (pre post : List Nat) (i : Nat) (h : i ∉ pre) :
    ((pre ++ i :: post).map (fun k : Nat => (k : Int))).erase (i : Int)
      = (pre ++ post).map (fun k : Nat => (k : Int)) := by
  induction pre with
  | nil => simp
  | cons x pre ih =>
    have hx : ¬ (((x : Int) == (i : Int)) = true) := by
      intro e
      have e' : (x : Int) = (i : Int) := by simpa using e
      have : x = i := by omega
      exact h (this ▸ List.mem_cons_self _ _)
    simp only [List.cons_append, List.map_cons]
    rw [List.erase_cons_tail hx, ← ih (fun hi => h (List.mem_cons_of_mem _ hi))]

/-- In a pool of at least two records, `flight_schedule_free` on a record `r`
of the active list of a reachable state runs to completion: `r` is deleted
from the active list, whose other records keep their order, and becomes the
head of the free list, with an empty destination and all flight slots
EMPTY. -/
theorem release_of_two (n : Nat) (s : pool) (al : List Int) (r : Int) (hn : 2 ≤ n)
    (hr : reachable n s) (hal : active_list s = some al) (hmem : r ∈ al) :
    ∃ (s' : pool) (fl : List Int) (v : flight_schedule),
      flight_schedule_free s (some r) = some s' ∧ free_list s = some fl ∧
      free_list s' = some (r :: fl) ∧ active_list s' = some (al.erase r) ∧
      load s'.array (some r) = some v ∧ is_reset v := by
  obtain ⟨fl, alN, hinv⟩ := reachable_inv n s hr
  obtain ⟨h1, h2⟩ := inv_lists n s fl alN hinv
  rw [h2] at hal
  simp only [Option.some.injEq] at hal
  rw [← hal, List.mem_map] at hmem
  obtain ⟨i, hi, hir⟩ := hmem
  obtain ⟨pre, post, hsplit⟩ := List.append_of_mem hi
  subst hsplit
  obtain ⟨hlen, hfl, hact, hnd, hsum, hres, hlinks⟩ := hinv
  have hstrong : dl s.array none (pre ++ i :: post) := by
    rcases hlinks with ⟨_, hdl⟩ | ⟨h1', _⟩
    · exact hdl
    · omega
  obtain ⟨s', e, hinv', _, _⟩ := free_strong n s fl pre post i hlen hfl hact hnd hsum hres hstrong
  obtain ⟨h1', h2'⟩ := inv_lists n s' _ _ hinv'
  have hipre : i ∉ pre := by
    intro hx
    have h3 : (pre ++ i :: post).Nodup := (List.nodup_append.mp hnd).2.1
    exact (List.disjoint_of_nodup_append h3) hx (List.mem_cons_self _ _)
  have hcnt := hinv'.2.2.2.2.2.1 i (List.mem_cons_self _ _)
  unfold cnt at hcnt
  cases hv : s'.array[i]? with
  | none => simp [hv] at hcnt
  | some v =>
    simp only [hv, Option.map_some', Option.some.injEq, reset_cnt, Prod.mk.injEq] at hcnt
    subst hir hal
    refine ⟨s', _, v, e, h1, h1', ?_, ?_, hcnt⟩
    · rw [h2', erase_map_split pre post i hipre]
    · rw [load_nat]
      exact hv

theorem pool_run_snoc (s0 : pool) (ops : List pool_op) (op : pool_op) :
    pool_run s0 (ops ++ [op]) = (pool_run s0 ops).bind (fun s => pool_step s op) := by
  unfold pool_run
  rw [List.foldlM_append]
  cases (List.foldlM pool_step s0 ops) with
  | none => rfl
  | some s => simp [List.foldlM]

theorem allocate_prefix (n : Nat) (arr : List flight_schedule) (s0 : pool)
    (hlen : arr.length = n) (h0 : flight_schedule_initialize arr (n : Int) = some s0)
    (k : Nat) (hk : k ≤ n) :
    ∃ s, pool_run s0 (List.replicate k pool_op.allocate) = some s ∧
      pool_inv n s (List.range' k (n - k)) (List.range k).reverse := by
  induction k with
  | zero =>
    refine ⟨s0, rfl, ?_⟩
    have h := inv_init n arr s0 hlen h0
    rw [List.range_eq_range'] at h
    simpa using h
  | succ k ih =>
    obtain ⟨s, hs, hinv⟩ := ih (by omega)
    have hr : List.range' k (n - k) = k :: List.range' (k + 1) (n - (k + 1)) := by
      have : n - k = (n - (k + 1)) + 1 := by omega
      rw [this, List.range'_succ]
    rw [hr] at hinv
    obtain ⟨s', ha⟩ := allocate_total n s k _ _ hinv
    obtain ⟨f, fl', hfl, _, _, hinv', _⟩ := inv_allocate n s s' _ _ _ hinv ha
    simp only [List.cons.injEq] at hfl
    obtain ⟨hf, hfl'⟩ := hfl
    subst hf hfl'
    refine ⟨s', ?_, ?_⟩
    · rw [List.replicate_succ', pool_run_snoc, hs]
      simp [pool_step, ha]
    · rw [List.range_succ, List.reverse_append]
      exact hinv'

/-- Allocation until exhaustion in a pool of `n ≥ 0` records: the call number
`k + 1 ≤ n` runs to completion and returns `&array[k]`; after `n` calls the
free list is empty and the active list holds the `n` records; one more call
faults. -/
theorem allocate_exhausts (n : Nat) (arr : List flight_schedule) (s0 : pool)
    (hlen : arr.length = n) (h0 : flight_schedule_initialize arr (n : Int) = some s0) :
    (∀ k, k < n → ∃ s s', pool_run s0 (List.replicate k pool_op.allocate) = some s ∧
      flight_schedule_allocate s = some (s', some (k : Int))) ∧
    (∃ s, pool_run s0 (List.replicate n pool_op.allocate) = some s ∧
      free_list s = some [] ∧
      active_list s = some ((List.range n).reverse.map (fun i : Nat => (i : Int))) ∧
      flight_schedule_allocate s = none) ∧
    pool_run s0 (List.replicate (n + 1) pool_op.allocate) = none := by
  obtain ⟨sn, hsn, hinvn⟩ := allocate_prefix n arr s0 hlen h0 n (Nat.le_refl n)
  simp only [Nat.sub_self, List.range'_zero] at hinvn
  have hnull : flight_schedule_allocate sn = none := allocate_null sn hinvn.2.1
  refine ⟨?_, ⟨sn, hsn, (inv_lists n sn _ _ hinvn).1, (inv_lists n sn _ _ hinvn).2, hnull⟩, ?_⟩
  · intro k hk
    obtain ⟨s, hs, hinv⟩ := allocate_prefix n arr s0 hlen h0 k (by omega)
    have hr : List.range' k (n - k) = k :: List.range' (k + 1) (n - (k + 1)) := by
      have : n - k = (n - (k + 1)) + 1 := by omega
      rw [this, List.range'_succ]
    rw [hr] at hinv
    obtain ⟨s', ha⟩ := allocate_total n s k _ _ hinv
    exact ⟨s, s', hs, ha⟩
  · rw [List.replicate_succ', pool_run_snoc, hsn]
    simp [pool_step, hnull]

/-! ## Releasing and booking seats on the matched flight -/

theorem first_with_time (t : Int) (fl : List flight) (h : ∃ f ∈ fl, f.time = t) :
    ∃ pre f post, fl = pre ++ f :: post ∧ (∀ g ∈ pre, g.time ≠ t) ∧ f.time = t := by
  induction fl with
  | nil =>
    obtain ⟨f, hf, _⟩ := h
    cases hf
  | cons g rest ih =>
    by_cases hg : g.time = t
    · refine ⟨[], g, rest, rfl, ?_, hg⟩
      intro x hx
      exact absurd hx (List.not_mem_nil x)
    · obtain ⟨f, hf, hft⟩ := h
      rcases List.mem_cons.mp hf with h1 | h1
      · exact absurd (h1 ▸ hft) hg
      · obtain ⟨pre, f2, post, e, hpre, hf2⟩ := ih ⟨f, h1, hft⟩
        refine ⟨g :: pre, f2, post, by rw [e]; rfl, ?_, hf2⟩
        intro x hx
        rcases List.mem_cons.mp hx with h2 | h2
        · exact h2 ▸ hg
        · exact hpre x h2

theorem unschedule_seat_loop_hit (t : Int) (pre post : List flight) (f : flight)
    (hpre : ∀ g ∈ pre, g.time ≠ t) (hf : f.time = t) :
    unschedule_seat_loop t (pre ++ f :: post) =
      if wrap32 (f.available + 1) = wrap32 (f.capacity + 1) then
        some (pre ++ { f with available := f.capacity } :: post, [msg.flight_all_seats_empty])
      else some (pre ++ { f with available := wrap32 (f.available + 1) } :: post, []) := by
  induction pre with
  | nil =>
    simp only [List.nil_append]
    unfold unschedule_seat_loop
    simp only [hf, if_true]
  | cons g rest ih =>
    have hg : ¬ t = g.time := fun e => hpre g (List.mem_cons_self _ _) e.symm
    simp only [List.cons_append]
    unfold unschedule_seat_loop
    rw [if_neg hg, ih (fun x hx => hpre x (List.mem_cons_of_mem _ hx))]
    split <;> rfl

theorem schedule_seat_loop_hit (t : Int) (pre post : List flight) (f : flight)
    (hpre : ∀ g ∈ pre, ¬ wrap32 (t - g.time) ≤ 0) (hf : wrap32 (t - f.time) ≤ 0) :
    schedule_seat_loop t (pre ++ f :: post) =
      if wrap32 (f.available - 1) = -1 then
        some (pre ++ { f with available := 0 } :: post, [msg.flight_no_seats])
      else some (pre ++ { f with available := wrap32 (f.available - 1) } :: post, []) := by
  induction pre with
  | nil =>
    simp only [List.nil_append]
    unfold schedule_seat_loop
    simp only [hf, if_true]
  | cons g rest ih =>
    have hg := hpre g (List.mem_cons_self _ _)
    simp only [List.cons_append]
    unfold schedule_seat_loop
    rw [if_neg hg, ih (fun x hx => hpre x (List.mem_cons_of_mem _ hx))]
    split <;> rfl

theorem schedule_seat_loop_none (t : Int) (fl : List flight)
    (h : ∀ g ∈ fl, ¬ wrap32 (t - g.time) ≤ 0) : schedule_seat_loop t fl = none := by
  induction fl with
  | nil => rfl
  | cons g rest ih =>
    unfold schedule_seat_loop
    rw [if_neg (h g (List.mem_cons_self _ _)), ih (fun x hx => h x (List.mem_cons_of_mem _ hx))]
    rfl

/-- The test of line 573 on times of the data model: `time - slot <= 0` is
`time <= slot`. -/
theorem seat_test_small (t : Int) (g : flight) (ht : TIME_NULL ≤ t ∧ t ≤ TIME_MAX)
    (hg : TIME_NULL ≤ g.time ∧ g.time ≤ TIME_MAX) :
    wrap32 (t - g.time) ≤ 0 ↔ t ≤ g.time := by
  unfold TIME_NULL TIME_MAX at ht hg
  unfold wrap32
  omega

/-- C11: on a flight table whose slots are C ints with `0 ≤ available ≤
capacity`, for a time `t` in [0,1439], release-seat prints the bad-time
message exactly when no slot has time `t`, and then leaves the table as it
was. Otherwise, with `f` the first slot of time `t`: if `f.available <
f.capacity` the table is the old one with `f.available + 1` in that slot and
nothing is printed; if `f.available = f.capacity` the table is the old one and
the all-seats-empty message is printed. No other slot, time or capacity
changes. -/
theorem release_seat_spec (fl : List flight) (t : Int) (htyped : flights_typed fl)
    (hb : capacity_bound fl) (ht : TIME_MIN ≤ t ∧ t ≤ TIME_MAX) :
    ((unschedule_seat_body fl (some t)).2 = [msg.flight_bad_time] ↔ ∀ f ∈ fl, f.time ≠ t) ∧
    ((∀ f ∈ fl, f.time ≠ t) → unschedule_seat_body fl (some t) = (fl, [msg.flight_bad_time])) ∧
    (∀ pre f post, fl = pre ++ f :: post → (∀ g ∈ pre, g.time ≠ t) → f.time = t →
      (f.available < f.capacity → unschedule_seat_body fl (some t)
        = (pre ++ { f with available := f.available + 1 } :: post, [])) ∧
      (f.available = f.capacity → unschedule_seat_body fl (some t)
        = (fl, [msg.flight_all_seats_empty]))) := by
  have hbody : unschedule_seat_body fl (some t) =
      match unschedule_seat_loop t fl with
      | some (fl1, m2) => (fl1, m2)
      | none => (fl, [msg.flight_bad_time]) := by
    unfold unschedule_seat_body
    rw [time_get_valid t ht]
    simp only [List.nil_append]
  have hhit : ∀ pre f post, fl = pre ++ f :: post → (∀ g ∈ pre, g.time ≠ t) → f.time = t →
      (f.available < f.capacity → unschedule_seat_body fl (some t)
        = (pre ++ { f with available := f.available + 1 } :: post, [])) ∧
      (f.available = f.capacity → unschedule_seat_body fl (some t)
        = (fl, [msg.flight_all_seats_empty])) := by
    intro pre f post hsplit hpre hft
    have hfm : f ∈ fl := by
      rw [hsplit]
      exact List.mem_append_right _ (List.mem_cons_self _ _)
    have hfb := hb f hfm
    have hfc := (htyped f hfm).2.2
    unfold is_int at hfc
    rw [hbody, hsplit, unschedule_seat_loop_hit t pre post f hpre hft]
    constructor
    · intro hlt
      have h1 : wrap32 (f.available + 1) = f.available + 1 := by
        apply wrap32_of_is_int
        unfold is_int
        omega
      have h2 : ¬ wrap32 (f.available + 1) = wrap32 (f.capacity + 1) := by
        rw [h1]
        unfold wrap32
        omega
      rw [if_neg h2, h1]
    · intro heq
      have h2 : wrap32 (f.available + 1) = wrap32 (f.capacity + 1) := by rw [heq]
      rw [if_pos h2]
      have hff : ({ f with available := f.capacity } : flight) = f := by
        cases f
        simp only at heq
        simp [heq]
      rw [hff]
  refine ⟨?_, ?_, hhit⟩
  · constructor
    · intro hm f hf hft
      obtain ⟨pre, f2, post, hsplit, hpre, hf2⟩ := first_with_time t fl ⟨f, hf, hft⟩
      have h := hhit pre f2 post hsplit hpre hf2
      have hf2m : f2 ∈ fl := by
        rw [hsplit]
        exact List.mem_append_right _ (List.mem_cons_self _ _)
      by_cases hlt : f2.available < f2.capacity
      · rw [h.1 hlt] at hm
        simp at hm
      · have heq : f2.available = f2.capacity := by
          have := (hb f2 hf2m).2
          omega
        rw [h.2 heq] at hm
        simp at hm
    · intro hall
      rw [hbody, unschedule_seat_loop_none t fl hall]
  · intro hall
    rw [hbody, unschedule_seat_loop_none t fl hall]

theorem release_seat_spec_witness :
    unschedule_seat_body [empty_flight, { time := 360, available := 0, capacity := 2 }] (some 360)
      = ([empty_flight, { time := 360, available := 1, capacity := 2 }], []) ∧
    unschedule_seat_body [empty_flight, { time := 360, available := 1, capacity := 2 }] (some 360)
      = ([empty_flight, { time := 360, available := 2, capacity := 2 }], []) ∧
    unschedule_seat_body [empty_flight, { time := 360, available := 2, capacity := 2 }] (some 360)
      = ([empty_flight, { time := 360, available := 2, capacity := 2 }],
         [msg.flight_all_seats_empty]) :=
  ⟨((release_seat_spec [empty_flight, { time := 360, available := 0, capacity := 2 }] 360
      (by unfold flights_typed is_int; decide) (by unfold capacity_bound; decide)
      (by unfold TIME_MIN TIME_MAX; decide)).2.2
      [empty_flight] { time := 360, available := 0, capacity := 2 } [] rfl (by decide) rfl).1
      (by decide),
   ((release_seat_spec [empty_flight, { time := 360, available := 1, capacity := 2 }] 360
      (by unfold flights_typed is_int; decide) (by unfold capacity_bound; decide)
      (by unfold TIME_MIN TIME_MAX; decide)).2.2
      [empty_flight] { time := 360, available := 1, capacity := 2 } [] rfl (by decide) rfl).1
      (by decide),
   ((release_seat_spec [empty_flight, { time := 360, available := 2, capacity := 2 }] 360
      (by unfold flights_typed is_int; decide) (by unfold capacity_bound; decide)
      (by unfold TIME_MIN TIME_MAX; decide)).2.2
      [empty_flight] { time := 360, available := 2, capacity := 2 } [] rfl (by decide) rfl).2
      (by decide)⟩

/-- One booking at `t` on a table whose only slot of time at least `t` is `f`,
with `a` seats left on it. -/
theorem book_step (pre post : List flight) (f : flight) (t a : Int)
    (ht : TIME_MIN ≤ t ∧ t ≤ TIME_MAX) (hok : times_ok (pre ++ f :: post))
    (hpre : ∀ g ∈ pre, g.time < t) (hf : t ≤ f.time) (ha : 0 ≤ a ∧ a ≤ 2147483647) :
    schedule_seat_body (pre ++ { f with available := a } :: post) (some t)
      = if a = 0 then (pre ++ { f with available := 0 } :: post, [msg.flight_no_seats])
        else (pre ++ { f with available := a - 1 } :: post, []) := by
  have ht' : TIME_NULL ≤ t ∧ t ≤ TIME_MAX := by
    unfold TIME_MIN at ht
    unfold TIME_NULL
    omega
  have hfm : f ∈ pre ++ f :: post := List.mem_append_right _ (List.mem_cons_self _ _)
  have h1 : ∀ g ∈ pre, ¬ wrap32 (t - g.time) ≤ 0 := by
    intro g hg
    rw [seat_test_small t g ht' (hok g (List.mem_append_left _ hg))]
    have := hpre g hg
    omega
  have h2 : wrap32 (t - ({ f with available := a } : flight).time) ≤ 0 := by
    rw [seat_test_small t _ ht' (hok f hfm)]
    exact hf
  have hw : wrap32 (a - 1) = a - 1 := by
    apply wrap32_of_is_int
    unfold is_int
    omega
  unfold schedule_seat_body
  rw [time_get_valid t ht]
  simp only [List.nil_append]
  rw [schedule_seat_loop_hit t pre post _ h1 h2]
  simp only [hw]
  by_cases h0 : a = 0
  · subst h0
    simp
  · have h3 : ¬ a - 1 = -1 := by omega
    simp only [h3, h0, if_false]

theorem book_run (pre post : List flight) (f : flight) (t : Int) (k j : Nat)
    (ht : TIME_MIN ≤ t ∧ t ≤ TIME_MAX) (hok : times_ok (pre ++ f :: post))
    (hpre : ∀ g ∈ pre, g.time < t) (hf : t ≤ f.time) (hk : (k : Int) ≤ 2147483647)
    (hj : j ≤ k) :
    seat_run (pre ++ { f with available := (k : Int) } :: post)
        (List.replicate j (seat_op.book (some t)))
      = pre ++ { f with available := (k : Int) - (j : Int) } :: post := by
  induction j with
  | zero => simp [seat_run]
  | succ j ih =>
    have h1 := ih (by omega)
    unfold seat_run at h1 ⊢
    rw [List.replicate_succ', List.foldl_append, h1]
    simp only [List.foldl_cons, List.foldl_nil, seat_step]
    rw [book_step pre post f t ((k : Int) - (j : Int)) ht hok hpre hf (by omega)]
    have h0 : ¬ (k : Int) - (j : Int) = 0 := by omega
    rw [if_neg h0]
    have h2 : (k : Int) - (j : Int) - 1 = (k : Int) - ((j + 1 : Nat) : Int) := by
      push_cast
      omega
    rw [h2]

/-- C16: on a flight table with times of the data model whose only slot of time
at least `t` (`t` in [0,1439]) is the flight `f` with `k > 0` seats
available: while `a > 0` seats are left a book-seat at `t` prints nothing and
leaves `a - 1` seats on `f`, all other slots unchanged, so `k` such requests
end at 0 seats; the next request prints the no-seats message and leaves the
table, with 0 seats on `f`, as it was. -/
theorem book_until_full (pre post : List flight) (f : flight) (t : Int) (k : Nat)
    (ht : TIME_MIN ≤ t ∧ t ≤ TIME_MAX) (hok : times_ok (pre ++ f :: post))
    (hothers : ∀ g ∈ pre ++ post, g.time < t) (hf : t ≤ f.time)
    (hk : f.available = (k : Int)) (hkpos : 0 < k) (hint : is_int f.available) :
    (∀ j : Nat, j < k →
      schedule_seat_body (pre ++ { f with available := (k : Int) - (j : Int) } :: post) (some t)
        = (pre ++ { f with available := (k : Int) - (j : Int) - 1 } :: post, [])) ∧
    (∀ j : Nat, j ≤ k →
      seat_run (pre ++ f :: post) (List.replicate j (seat_op.book (some t)))
        = pre ++ { f with available := (k : Int) - (j : Int) } :: post) ∧
    seat_run (pre ++ f :: post) (List.replicate k (seat_op.book (some t)))
      = pre ++ { f with available := 0 } :: post ∧
    schedule_seat_body (pre ++ { f with available := 0 } :: post) (some t)
      = (pre ++ { f with available := 0 } :: post, [msg.flight_no_seats]) := by
  have hpre : ∀ g ∈ pre, g.time < t := fun g hg => hothers g (List.mem_append_left _ hg)
  have hkint : (k : Int) ≤ 2147483647 := by
    unfold is_int at hint
    omega
  have hff : ({ f with available := (k : Int) } : flight) = f := by
    cases f
    simp only at hk
    simp [hk]
  have hrun : ∀ j : Nat, j ≤ k →
      seat_run (pre ++ f :: post) (List.replicate j (seat_op.book (some t)))
        = pre ++ { f with available := (k : Int) - (j : Int) } :: post := by
    intro j hj
    have h := book_run pre post f t k j ht hok hpre hf hkint hj
    rw [hff] at h
    exact h
  refine ⟨?_, hrun, ?_, ?_⟩
  · intro j hj
    rw [book_step pre post f t ((k : Int) - (j : Int)) ht hok hpre hf (by omega)]
    have h0 : ¬ (k : Int) - (j : Int) = 0 := by omega
    rw [if_neg h0]
  · have h := hrun k (Nat.le_refl k)
    rw [h]
    simp
  · rw [book_step pre post f t 0 ht hok hpre hf (by omega)]
    simp

theorem book_until_full_witness :
    schedule_seat_body [empty_flight, { time := 360, available := 1, capacity := 1 }] (some 300)
      = ([empty_flight, { time := 360, available := 0, capacity := 1 }], []) ∧
    schedule_seat_body [empty_flight, { time := 360, available := 0, capacity := 1 }] (some 300)
      = ([empty_flight, { time := 360, available := 0, capacity := 1 }],
         [msg.flight_no_seats]) :=
  have h := book_until_full [empty_flight] [] { time := 360, available := 1, capacity := 1 }
    300 1 (by unfold TIME_MIN TIME_MAX; decide)
    (by unfold times_ok empty_flight TIME_NULL TIME_MAX; decide)
    (by unfold empty_flight TIME_NULL; decide) (by decide) rfl (by decide)
    (by unfold is_int; decide)
  ⟨h.1 0 (by decide), h.2.2.2⟩

/-! ## Failures leave the flight table as it was -/

theorem capacity_get_some (cin : Option Int) (c : Int) (m : List msg)
    (h : flight_capacity_get cin = (some c, m)) : cin = some c ∧ m = [] ∧ 0 < c := by
  unfold flight_capacity_get at h
  cases cin with
  | none => simp at h
  | some x =>
    simp only at h
    split at h
    · rename_i hx
      simp only [Prod.mk.injEq, Option.some.injEq] at h
      obtain ⟨h1, h2⟩ := h
      subst h1
      exact ⟨rfl, h2.symm, hx⟩
    · simp at h

theorem schedule_seat_loop_no_seats (t : Int) (fl fl' : List flight) (m : List msg)
    (h : schedule_seat_loop t fl = some (fl', m)) (htyped : flights_typed fl)
    (hm : msg.flight_no_seats ∈ m) : fl' = fl := by
  induction fl generalizing fl' m with
  | nil => simp [schedule_seat_loop] at h
  | cons g rest ih =>
    unfold schedule_seat_loop at h
    split at h
    · simp only at h
      split at h
      · rename_i ha
        simp only [Option.some.injEq, Prod.mk.injEq] at h
        have hg := (htyped g (List.mem_cons_self _ _)).2.1
        have h0 : g.available = 0 := by
          unfold is_int at hg
          unfold wrap32 at ha
          omega
        rw [← h.1]
        cases g
        simp only at h0
        simp [h0]
      · simp only [Option.some.injEq, Prod.mk.injEq] at h
        rw [← h.2] at hm
        cases hm
    · cases hr : schedule_seat_loop t rest with
      | none => simp [hr] at h
      | some r =>
        simp only [hr, Option.map_some', Option.some.injEq, Prod.mk.injEq] at h
        rw [← h.1, ih r.1 r.2 (by simp [hr])
          (fun f hf => htyped f (List.mem_cons_of_mem _ hf)) (h.2 ▸ hm)]

theorem unschedule_seat_loop_msgs (t : Int) (fl fl' : List flight) (m : List msg)
    (h : unschedule_seat_loop t fl = some (fl', m)) : msg.flight_bad_time ∉ m := by
  induction fl generalizing fl' m with
  | nil => simp [unschedule_seat_loop] at h
  | cons g rest ih =>
    unfold unschedule_seat_loop at h
    split at h
    · simp only at h
      split at h
      · simp only [Option.some.injEq, Prod.mk.injEq] at h
        rw [← h.2]
        simp
      · simp only [Option.some.injEq, Prod.mk.injEq] at h
        rw [← h.2]
        simp
    · cases hr : unschedule_seat_loop t rest with
      | none => simp [hr] at h
      | some r =>
        simp only [hr, Option.map_some', Option.some.injEq, Prod.mk.injEq] at h
        rw [← h.2]
        exact ih r.1 r.2 (by simp [hr])

/-- C12: on a flight table whose slots are C ints, whatever `scanf` read, a
flight-table command that prints its failure message returns the table it
was given: add-flight with the city-full message, remove-flight with the
bad-time message, book-seat with the no-seats message and release-seat with
the bad-time message. Book-seat prints the no-seats message and returns the
table it was given both when no slot has a time at or after the requested
one and when the first such slot has no seat available. -/
theorem failure_leaves_table (qsort : qsort_t) (fl : List flight) (tin cin : Option Int)
    (htyped : flights_typed fl) :
    (msg.city_max_flights_reached ∈ (add_flight_body qsort fl tin cin).2 →
      (add_flight_body qsort fl tin cin).1 = fl) ∧
    (msg.flight_bad_time ∈ (remove_flight_body qsort fl tin).2 →
      (remove_flight_body qsort fl tin).1 = fl) ∧
    (msg.flight_no_seats ∈ (schedule_seat_body fl tin).2 →
      (schedule_seat_body fl tin).1 = fl) ∧
    (msg.flight_bad_time ∈ (unschedule_seat_body fl tin).2 →
      (unschedule_seat_body fl tin).1 = fl) ∧
    (∀ t, TIME_MIN ≤ t ∧ t ≤ TIME_MAX → times_ok fl → (∀ g ∈ fl, g.time < t) →
      schedule_seat_body fl (some t) = (fl, [msg.flight_no_seats])) ∧
    (∀ t pre f post, TIME_MIN ≤ t ∧ t ≤ TIME_MAX → times_ok fl → fl = pre ++ f :: post →
      (∀ g ∈ pre, g.time < t) → t ≤ f.time → f.available = 0 →
      schedule_seat_body fl (some t) = (fl, [msg.flight_no_seats])) := by
  refine ⟨?_, ?_, ?_, ?_, ?_, ?_⟩
  · unfold add_flight_body
    rcases htg : time_get tin with ⟨_ | time, m⟩
    · intro _
      rfl
    · dsimp only
      rcases hcg : flight_capacity_get cin with ⟨_ | capacity, m2⟩
      · intro _
        rfl
      · dsimp only
        cases hl : add_flight_loop time capacity fl with
        | none =>
          intro _
          rfl
        | some fl1 =>
          dsimp only
          rw [(time_get_some tin time m htg).2.1, (capacity_get_some cin capacity m2 hcg).2.1]
          intro h
          simp at h
  · unfold remove_flight_body
    rcases htg : time_get tin with ⟨_ | time, m⟩
    · intro _
      rfl
    · dsimp only
      cases hl : remove_flight_loop time fl with
      | none =>
        intro _
        rfl
      | some fl1 =>
        dsimp only
        rw [(time_get_some tin time m htg).2.1]
        intro h
        simp at h
  · unfold schedule_seat_body
    rcases htg : time_get tin with ⟨_ | time, m⟩
    · intro _
      rfl
    · dsimp only
      cases hl : schedule_seat_loop time fl with
      | none =>
        intro _
        rfl
      | some r =>
        dsimp only
        rw [(time_get_some tin time m htg).2.1]
        intro h
        exact schedule_seat_loop_no_seats time fl r.1 r.2 hl htyped (by simpa using h)
  · unfold unschedule_seat_body
    rcases htg : time_get tin with ⟨_ | time, m⟩
    · intro _
      rfl
    · dsimp only
      cases hl : unschedule_seat_loop time fl with
      | none =>
        intro _
        rfl
      | some r =>
        dsimp only
        rw [(time_get_some tin time m htg).2.1]
        intro h
        exact absurd (by simpa using h) (unschedule_seat_loop_msgs time fl r.1 r.2 hl)
  · intro t ht hok hall
    have ht' : TIME_NULL ≤ t ∧ t ≤ TIME_MAX := by
      unfold TIME_MIN at ht
      unfold TIME_NULL
      omega
    have h1 : ∀ g ∈ fl, ¬ wrap32 (t - g.time) ≤ 0 := by
      intro g hg
      rw [seat_test_small t g ht' (hok g hg)]
      have := hall g hg
      omega
    unfold schedule_seat_body
    rw [time_get_valid t ht]
    simp only [List.nil_append]
    rw [schedule_seat_loop_none t fl h1]
  · intro t pre f post ht hok hsplit hpre hf h0
    have hff : ({ f with available := 0 } : flight) = f := by
      cases f
      simp only at h0
      simp [h0]
    have h := book_step pre post f t 0 ht (hsplit ▸ hok) hpre hf (by omega)
    rw [hff] at h
    rw [hsplit, h]
    simp

theorem failure_leaves_table_witness :
    (schedule_seat_body [empty_flight, { time := 360, available := 0, capacity := 1 },
        { time := 480, available := 3, capacity := 3 }] (some 300)).1
      = [empty_flight, { time := 360, available := 0, capacity := 1 },
        { time := 480, available := 3, capacity := 3 }] :=
  (failure_leaves_table insertion_qsort
    [empty_flight, { time := 360, available := 0, capacity := 1 },
      { time := 480, available := 3, capacity := 3 }] (some 300) none
    (by unfold flights_typed is_int; decide)).2.2.1 (by decide)

/-! ## EMPTY slots hold no seats -/

theorem schedule_seat_loop_empty_zero (t : Int) (fl fl' : List flight) (m : List msg)
    (h : schedule_seat_loop t fl = some (fl', m))
    (hz : times_ok fl ∧ empty_slots_zero fl) : times_ok fl' ∧ empty_slots_zero fl' := by
  induction fl generalizing fl' m with
  | nil => simp [schedule_seat_loop] at h
  | cons g rest ih =>
    have hrest : times_ok rest ∧ empty_slots_zero rest :=
      ⟨fun f hf => hz.1 f (List.mem_cons_of_mem _ hf),
       fun f hf => hz.2 f (List.mem_cons_of_mem _ hf)⟩
    have hg1 := hz.1 g (List.mem_cons_self _ _)
    have hg2 := hz.2 g (List.mem_cons_self _ _)
    have key : ∀ a : Int, (g.time = TIME_NULL → a = 0) →
        times_ok ({ g with available := a } :: rest) ∧
        empty_slots_zero ({ g with available := a } :: rest) := by
      intro a ha
      constructor
      · intro f hf
        rcases List.mem_cons.mp hf with h1 | h1
        · rw [h1]
          exact hg1
        · exact hrest.1 f h1
      · intro f hf hft
        rcases List.mem_cons.mp hf with h1 | h1
        · rw [h1] at hft ⊢
          exact ⟨ha hft, (hg2 hft).2⟩
        · exact hrest.2 f h1 hft
    unfold schedule_seat_loop at h
    split at h
    · simp only at h
      split at h
      · simp only [Option.some.injEq, Prod.mk.injEq] at h
        rw [← h.1]
        exact key 0 (fun _ => rfl)
      · rename_i hne
        simp only [Option.some.injEq, Prod.mk.injEq] at h
        rw [← h.1]
        apply key
        intro hgt
        exfalso
        apply hne
        rw [(hg2 hgt).1]
        decide
    · cases hr : schedule_seat_loop t rest with
      | none => simp [hr] at h
      | some r =>
        simp only [hr, Option.map_some', Option.some.injEq, Prod.mk.injEq] at h
        obtain ⟨h1, h2⟩ := ih r.1 r.2 (by simp [hr]) hrest
        rw [← h.1]
        constructor
        · intro f hf
          rcases List.mem_cons.mp hf with h3 | h3
          · exact h3 ▸ hg1
          · exact h1 f h3
        · intro f hf
          rcases List.mem_cons.mp hf with h3 | h3
          · exact h3 ▸ hg2
          · exact h2 f h3

theorem unschedule_seat_loop_empty_zero (t : Int) (fl fl' : List flight) (m : List msg)
    (h : unschedule_seat_loop t fl = some (fl', m))
    (hz : times_ok fl ∧ empty_slots_zero fl) : times_ok fl' ∧ empty_slots_zero fl' := by
  induction fl generalizing fl' m with
  | nil => simp [unschedule_seat_loop] at h
  | cons g rest ih =>
    have hrest : times_ok rest ∧ empty_slots_zero rest :=
      ⟨fun f hf => hz.1 f (List.mem_cons_of_mem _ hf),
       fun f hf => hz.2 f (List.mem_cons_of_mem _ hf)⟩
    have hg1 := hz.1 g (List.mem_cons_self _ _)
    have hg2 := hz.2 g (List.mem_cons_self _ _)
    have key : ∀ a : Int, (g.time = TIME_NULL → a = 0) →
        times_ok ({ g with available := a } :: rest) ∧
        empty_slots_zero ({ g with available := a } :: rest) := by
      intro a ha
      constructor
      · intro f hf
        rcases List.mem_cons.mp hf with h1 | h1
        · rw [h1]
          exact hg1
        · exact hrest.1 f h1
      · intro f hf hft
        rcases List.mem_cons.mp hf with h1 | h1
        · rw [h1] at hft ⊢
          exact ⟨ha hft, (hg2 hft).2⟩
        · exact hrest.2 f h1 hft
    unfold unschedule_seat_loop at h
    split at h
    · simp only at h
      split at h
      · simp only [Option.some.injEq, Prod.mk.injEq] at h
        rw [← h.1]
        exact key g.capacity (fun hgt => (hg2 hgt).2)
      · rename_i hne
        simp only [Option.some.injEq, Prod.mk.injEq] at h
        rw [← h.1]
        apply key
        intro hgt
        exfalso
        apply hne
        rw [(hg2 hgt).1, (hg2 hgt).2]
    · cases hr : unschedule_seat_loop t rest with
      | none => simp [hr] at h
      | some r =>
        simp only [hr, Option.map_some', Option.some.injEq, Prod.mk.injEq] at h
        obtain ⟨h1, h2⟩ := ih r.1 r.2 (by simp [hr]) hrest
        rw [← h.1]
        constructor
        · intro f hf
          rcases List.mem_cons.mp hf with h3 | h3
          · exact h3 ▸ hg1
          · exact h1 f h3
        · intro f hf
          rcases List.mem_cons.mp hf with h3 | h3
          · exact h3 ▸ hg2
          · exact h2 f h3

theorem cmd_step_empty_zero (qsort : qsort_t) (hq : qsort_contract qsort) (fl : List flight)
    (op : flight_cmd) (hop : ∀ cin, op ≠ flight_cmd.add (some TIME_NULL) cin)
    (hz : times_ok fl ∧ empty_slots_zero fl) :
    times_ok (cmd_step qsort fl op) ∧ empty_slots_zero (cmd_step qsort fl op) := by
  cases op with
  | add tin cin =>
    show times_ok (add_flight_body qsort fl tin cin).1 ∧
      empty_slots_zero (add_flight_body qsort fl tin cin).1
    unfold add_flight_body
    rcases htg : time_get tin with ⟨_ | time, m⟩
    · exact hz
    · dsimp only
      rcases flight_capacity_get cin with ⟨_ | capacity, m2⟩
      · exact hz
      · dsimp only
        cases hl : add_flight_loop time capacity fl with
        | none => exact hz
        | some fl1 =>
          dsimp only
          obtain ⟨e, _, _, hp⟩ := add_flight_loop_some time capacity fl fl1 hl
          have hv := time_get_some tin time m htg
          have hne : time ≠ TIME_NULL := by
            intro e1
            exact hop cin (by rw [hv.1, e1])
          have hok : times_ok fl1 :=
            times_ok_of_perm _ _ hp (times_ok_replace fl e _ hz.1 ⟨hv.2.2.1, hv.2.2.2⟩)
          obtain ⟨hsp, hok2, _⟩ := sort_flights_spec qsort hq fl1 hok
          refine ⟨hok2, ?_⟩
          intro f hf hft
          rcases List.mem_cons.mp ((hsp.trans hp).subset hf) with h1 | h1
          · rw [h1] at hft
            exact absurd hft hne
          · exact hz.2 f (List.mem_of_mem_erase h1) hft
  | remove tin =>
    show times_ok (remove_flight_body qsort fl tin).1 ∧
      empty_slots_zero (remove_flight_body qsort fl tin).1
    unfold remove_flight_body
    rcases time_get tin with ⟨_ | time, m⟩
    · exact hz
    · dsimp only
      cases hl : remove_flight_loop time fl with
      | none => exact hz
      | some fl1 =>
        dsimp only
        obtain ⟨e, _, _, hp⟩ := remove_flight_loop_some time fl fl1 hl
        have hok : times_ok fl1 :=
          times_ok_of_perm _ _ hp
            (times_ok_replace fl e empty_flight hz.1
              (by unfold empty_flight TIME_NULL TIME_MAX; decide))
        obtain ⟨hsp, hok2, _⟩ := sort_flights_spec qsort hq fl1 hok
        refine ⟨hok2, ?_⟩
        intro f hf hft
        rcases List.mem_cons.mp ((hsp.trans hp).subset hf) with h1 | h1
        · rw [h1]
          exact ⟨rfl, rfl⟩
        · exact hz.2 f (List.mem_of_mem_erase h1) hft
  | book tin =>
    show times_ok (schedule_seat_body fl tin).1 ∧ empty_slots_zero (schedule_seat_body fl tin).1
    unfold schedule_seat_body
    rcases time_get tin with ⟨_ | time, m⟩
    · exact hz
    · dsimp only
      cases hl : schedule_seat_loop time fl with
      | none => exact hz
      | some r => exact schedule_seat_loop_empty_zero time fl r.1 r.2 hl hz
  | release tin =>
    show times_ok (unschedule_seat_body fl tin).1 ∧
      empty_slots_zero (unschedule_seat_body fl tin).1
    unfold unschedule_seat_body
    rcases time_get tin with ⟨_ | time, m⟩
    · exact hz
    · dsimp only
      cases hl : unschedule_seat_loop time fl with
      | none => exact hz
      | some r => exact unschedule_seat_loop_empty_zero time fl r.1 r.2 hl hz

theorem cmd_run_empty_zero (qsort : qsort_t) (hq : qsort_contract qsort)
    (ops : List flight_cmd) (fl : List flight)
    (hops : ∀ cin, flight_cmd.add (some TIME_NULL) cin ∉ ops)
    (hz : times_ok fl ∧ empty_slots_zero fl) :
    times_ok (cmd_run qsort fl ops) ∧ empty_slots_zero (cmd_run qsort fl ops) := by
  induction ops generalizing fl with
  | nil => exact hz
  | cons op rest ih =>
    apply ih (cmd_step qsort fl op)
    · intro cin hmem
      exact hops cin (List.mem_cons_of_mem _ hmem)
    · apply cmd_step_empty_zero qsort hq fl op _ hz
      intro cin e
      exact hops cin (e ▸ List.mem_cons_self _ _)

/-- C13 as stated fails: the time -1 passes `time_get`, the capacity 5 passes
`flight_capacity_get`, and add-flight with them on the all-EMPTY table writes
the slot `(-1, 5, 5)`: a slot whose time is EMPTY with a capacity. -/
theorem empty_slot_with_capacity :
    (time_get (some (-1))).1 = some (-1) ∧ (flight_capacity_get (some 5)).1 = some 5 ∧
    cmd_run insertion_qsort empty_table [flight_cmd.add (some (-1)) (some 5)]
      = [{ time := -1, available := 5, capacity := 5 }, empty_flight, empty_flight,
         empty_flight, empty_flight] ∧
    ¬ empty_slots_zero
        (cmd_run insertion_qsort empty_table [flight_cmd.add (some (-1)) (some 5)]) := by
  refine ⟨by decide, by decide, by decide, ?_⟩
  intro h
  have h1 := h { time := -1, available := 5, capacity := 5 } (by decide) rfl
  exact absurd h1.1 (by decide)

/-- C13, amended: starting from the all-EMPTY flight table, after each command
of any sequence of add-flight, remove-flight, book-seat and release-seat
commands in which no add-flight is given the time -1 (whatever else `scanf`
read: any capacity, and any time, -1 included, for the three other commands),
every slot whose time is EMPTY has `available = 0` and `capacity = 0`. -/
theorem empty_slots_zero_preserved (qsort : qsort_t) (hq : qsort_contract qsort)
    (ops : List flight_cmd) (hops : ∀ cin, flight_cmd.add (some TIME_NULL) cin ∉ ops) :
    ∀ k, empty_slots_zero (cmd_run qsort empty_table (ops.take k)) := by
  intro k
  refine (cmd_run_empty_zero qsort hq (ops.take k) empty_table ?_ ⟨empty_table_sorted.1, ?_⟩).2
  · intro cin hmem
    exact hops cin (List.mem_of_mem_take hmem)
  · intro f hf _
    unfold empty_table at hf
    rw [(List.mem_replicate.mp hf).2]
    exact ⟨rfl, rfl⟩

theorem empty_slots_zero_preserved_witness :
    qsort_contract insertion_qsort ∧
    empty_slots_zero (cmd_run insertion_qsort empty_table
      ([flight_cmd.add (some 360) (some 2), flight_cmd.book (some (-1)),
        flight_cmd.release (some (-1)), flight_cmd.remove (some 360),
        flight_cmd.add (some 0) (some 7)].take 5)) :=
  ⟨insertion_qsort_contract,
   empty_slots_zero_preserved insertion_qsort insertion_qsort_contract
     [flight_cmd.add (some 360) (some 2), flight_cmd.book (some (-1)),
      flight_cmd.release (some (-1)), flight_cmd.remove (some 360),
      flight_cmd.add (some 0) (some 7)] (by intro cin h; simp [TIME_NULL] at h) 5⟩

/-! ## The state after initialization -/

/-- C15: for every `n ≥ 1` and every array of `n` records, whatever it held,
`flight_schedule_initialize` runs to completion; afterwards the active list is
empty, following `next` from the free head `&array[0]` visits `array[0]`,
`array[1]`, ..., `array[n-1]` in this order and ends, and every record has an
empty destination and all flight slots EMPTY with `available = capacity = 0`. -/
theorem initialize_spec (n : Nat) (arr : List flight_schedule) (hlen : arr.length = n)
    (hn : 1 ≤ n) :
    ∃ s, flight_schedule_initialize arr (n : Int) = some s ∧
      s.flight_schedules_active = none ∧ active_list s = some [] ∧
      s.flight_schedules_free = some 0 ∧
      free_list s = some ((List.range n).map (fun i : Nat => (i : Int))) ∧
      s.array.length = n ∧ ∀ v ∈ s.array, is_reset v := by
  obtain ⟨a, e, l, _, _, hc⟩ := initialize_eff arr n hlen hn
  have hinv := inv_init n arr _ hlen e
  obtain ⟨h1, h2⟩ := inv_lists n _ _ _ hinv
  refine ⟨_, e, rfl, h2, rfl, h1, l, ?_⟩
  intro v hv
  obtain ⟨j, hj⟩ := List.getElem?_of_mem hv
  have hjn : j < n := by
    by_contra hlt
    have hnone : a[j]? = none := List.getElem?_eq_none (by omega)
    have hj' : a[j]? = some v := hj
    rw [hnone] at hj'
    cases hj'
  have hcj := hc j hjn
  unfold cnt at hcj
  have hj' : a[j]? = some v := hj
  rw [hj'] at hcj
  simp only [Option.map_some', Option.some.injEq, reset_cnt, Prod.mk.injEq] at hcj
  exact hcj

theorem initialize_spec_witness :
    ∃ s, flight_schedule_initialize [raw_record, raw_record, raw_record] ((3 : Nat) : Int)
        = some s ∧
      s.flight_schedules_active = none ∧ active_list s = some [] ∧
      s.flight_schedules_free = some 0 ∧
      free_list s = some ((List.range 3).map (fun i : Nat => (i : Int))) ∧
      s.array.length = 3 ∧ ∀ v ∈ s.array, is_reset v :=
  initialize_spec 3 [raw_record, raw_record, raw_record] rfl (by decide)

/-- C18 (the code departs from the claim): the `prev` fields after
`flight_schedule_initialize`. For three records `array[1].prev` is NULL, not
`&array[0]`: the reset of `array[i]` in iteration `i` clears the `prev` that
iteration `i - 1` stored. For one record `array[0].prev` is `&array[-1]`, not
NULL. Only for two records are the links those of a doubly linked list. -/
theorem initialize_prev_links :
    ( flight_schedule_initialize [raw_record, raw_record, raw_record] 3).map
        (fun s => s.array.map (fun v => v.prev)) = some [none, none, some 1] ∧
    ( flight_schedule_initialize [raw_record] 1).map
        (fun s => s.array.map (fun v => v.prev)) = some [some (-1)] ∧
    ( flight_schedule_initialize [raw_record, raw_record] 2).map
        (fun s => s.array.map (fun v => v.prev)) = some [none, some 0] := by
  decide

/-- The `prev` fields after `flight_schedule_initialize`, for every `n ≥ 1`:
`&array[n-2]` in the last record, NULL in all others. -/
theorem initialize_prev_closed (n : Nat) (arr : List flight_schedule) (hlen : arr.length = n)
    (hn : 1 ≤ n) :
    ∃ s, flight_schedule_initialize arr (n : Int) = some s ∧
      ∀ j, j < n → prv s.array j = some (if j + 1 = n then some ((n : Int) - 2) else none) := by
  obtain ⟨a, e, _, _, hp, _⟩ := initialize_eff arr n hlen hn
  exact ⟨_, e, hp⟩

/-! ## Links that leave the pool -/

/-- C20 (the code departs from the claim): in a pool of one record the `prev`
of the free head after `flight_schedule_initialize` is `&array[-1]`, not NULL;
after one allocation the `prev` of the active head is `&array[-1]`, an address
that designates no record of the pool (it cannot be read), and the release of
the record writes through it. -/
theorem pool_of_one_links_leave_pool :
    ( flight_schedule_initialize [raw_record] 1).map
        (fun s => (s.flight_schedules_free,
          (load s.array s.flight_schedules_free).map (fun v => v.prev)))
      = some (some 0, some (some (-1))) ∧
    (( flight_schedule_initialize [raw_record] 1).bind flight_schedule_allocate).map
        (fun x => (x.1.flight_schedules_active,
          (load x.1.array x.1.flight_schedules_active).map (fun v => v.prev),
          load x.1.array (some (-1))))
      = some (some 0, some (some (-1)), none) ∧
    ((( flight_schedule_initialize [raw_record] 1).bind flight_schedule_allocate).bind
        (fun x => flight_schedule_free x.1 x.1.flight_schedules_active)) = none := by
  decide

/-- In a pool of at least two records every reachable state has well-formed
links: the `prev` of the free head is NULL, the `prev` of the active head is
NULL and the `prev` of every other active record is its predecessor. -/
theorem links_of_two (n : Nat) (s : pool) (hn : 2 ≤ n) (hr : reachable n s) :
    ∃ fl al : List Nat,
      free_list s = some (fl.map (fun i : Nat => (i : Int))) ∧
      active_list s = some (al.map (fun i : Nat => (i : Int))) ∧
      (∀ f, fl.head? = some f → prv s.array f = some none) ∧ dl s.array none al := by
  obtain ⟨fl, al, hinv⟩ := reachable_inv n s hr
  obtain ⟨h1, h2⟩ := inv_lists n s fl al hinv
  rcases hinv.2.2.2.2.2.2 with h | ⟨h, _⟩
  · exact ⟨fl, al, h1, h2, h.1, h.2⟩
  · omega

/-! ## Release of a populated record -/

/-- C14 (the code departs from the claim): in a pool of one record the commands
`A Tor`, `a Tor 360 5` leave the record active with the destination Tor and a
flight; `flight_schedule_free` on it faults at the write through
`schedule->prev` (line 415), before `flight_schedule_reset` (line 419) is
reached. -/
theorem release_of_populated_record_faults :
    ((( flight_schedule_initialize [raw_record] 1).bind fun s0 =>
      (flight_schedule_add s0 ['T', 'o', 'r']).bind fun x1 =>
      flight_schedule_add_flight insertion_qsort x1.1 ['T', 'o', 'r'] (some 360) (some 5)).map
        fun x2 => (active_list x2.1, load x2.1.array (some 0)))
      = some (some [0],
          some { destination := ['T', 'o', 'r'],
                 flights := [empty_flight, empty_flight, empty_flight, empty_flight,
                             { time := 360, available := 5, capacity := 5 }],
                 next := none, prev := some (-1) }) ∧
    ((( flight_schedule_initialize [raw_record] 1).bind fun s0 =>
      (flight_schedule_add s0 ['T', 'o', 'r']).bind fun x1 =>
      flight_schedule_add_flight insertion_qsort x1.1 ['T', 'o', 'r'] (some 360) (some 5)).bind
        fun x2 => flight_schedule_free x2.1 (some 0)) = none := by
  decide

/-- Whenever `flight_schedule_free` on a record of the active list of a
reachable state runs to completion, the record is left with an empty
destination and all flight slots EMPTY, whatever it held. -/
theorem release_resets (n : Nat) (s s' : pool) (al : List Int) (r : Int)
    (hr : reachable n s) (hal : active_list s = some al) (hmem : r ∈ al)
    (hf : flight_schedule_free s (some r) = some s') :
    ∃ v, load s'.array (some r) = some v ∧ is_reset v := by
  obtain ⟨fl, alN, hinv⟩ := reachable_inv n s hr
  rw [(inv_lists n s fl alN hinv).2] at hal
  simp only [Option.some.injEq] at hal
  rw [← hal, List.mem_map] at hmem
  obtain ⟨i, hi, hir⟩ := hmem
  obtain ⟨pre, post, hsplit⟩ := List.append_of_mem hi
  subst hsplit
  rw [← hir] at hf ⊢
  have hinv' := inv_free n s s' fl pre post i hinv hf
  have hcnt := hinv'.2.2.2.2.2.1 i (List.mem_cons_self _ _)
  unfold cnt at hcnt
  cases hv : s'.array[i]? with
  | none => simp [hv] at hcnt
  | some v =>
    simp only [hv, Option.map_some', Option.some.injEq, reset_cnt, Prod.mk.injEq] at hcnt
    refine ⟨v, ?_, hcnt⟩
    rw [load_nat]
    exact hv

/-! ## Listing the flights of a city -/

/-- C17 (the code departs from the claim): the flight at time 0 of the table
`[EMPTY, EMPTY, EMPTY, (0, 5, 5), (360, 2, 2)]` is a populated slot and is not
reported: only the flight at 360 is. The second part runs the commands
`A Tor`, `a Tor 0 5`, `l Tor` from the initial state of a pool of one record:
the listing holds the heading and no flight. -/
theorem list_omits_midnight_flight :
    populated [empty_flight, empty_flight, empty_flight,
        { time := 0, available := 5, capacity := 5 },
        { time := 360, available := 2, capacity := 2 }]
      = [{ time := 0, available := 5, capacity := 5 },
         { time := 360, available := 2, capacity := 2 }] ∧
    list_body ['T', 'o', 'r'] [empty_flight, empty_flight, empty_flight,
        { time := 0, available := 5, capacity := 5 },
        { time := 360, available := 2, capacity := 2 }]
      = [msg.city_flights ['T', 'o', 'r'], msg.flight_info 360 2 2] ∧
    ((( flight_schedule_initialize [raw_record] 1).bind fun s0 =>
      (flight_schedule_add s0 ['T', 'o', 'r']).bind fun x1 =>
      (flight_schedule_add_flight insertion_qsort x1.1 ['T', 'o', 'r'] (some 0) (some 5)).bind
        fun x2 =>
      (flight_schedule_list x2.1 ['T', 'o', 'r']).bind fun x3 =>
      (load x3.1.array (some 0)).map fun v => (populated v.flights, x3.2))
      = some ([{ time := 0, available := 5, capacity := 5 }],
          [msg.city_flights ['T', 'o', 'r'], msg.newline])) := by
  decide

/-- On a table with times of the data model and no flight at time 0 the
listing reports exactly the populated slots, in table order. -/
theorem list_reports_populated (city : city_t) (fl : List flight) (hok : times_ok fl)
    (h0 : ∀ f ∈ fl, f.time ≠ 0) :
    list_body city fl = msg.city_flights city ::
      (populated fl).map (fun f => msg.flight_info f.time f.available f.capacity) := by
  unfold list_body populated
  have hfilter : fl.filter (fun f => decide (f.time > 0))
      = fl.filter (fun f => decide (f.time ≠ TIME_NULL)) := by
    apply List.filter_congr
    intro f hf
    have h1 := hok f hf
    have h2 := h0 f hf
    unfold TIME_NULL at h1 ⊢
    simp only [gt_iff_lt, ne_eq, decide_eq_decide, decide_not]
    have : (0 < f.time) ↔ ¬ f.time = -1 := by omega
    simp [this]
  rw [hfilter]

/-! ## City labels are unique -/

theorem destination_of_cnt (a a' : List flight_schedule) (j : Nat)
    (h : cnt a' j = cnt a j) : destination_of a' (j : Int) = destination_of a (j : Int) := by
  unfold destination_of
  rw [load_nat, load_nat]
  unfold cnt at h
  cases h1 : a'[j]? with
  | none =>
    cases h2 : a[j]? with
    | none => rfl
    | some v => simp [h1, h2] at h
  | some v' =>
    cases h2 : a[j]? with
    | none => simp [h1, h2] at h
    | some v =>
      simp only [h1, h2, Option.map_some', Option.some.injEq, Prod.mk.injEq] at h
      exact h.1

theorem strcpy_label (city : city_t) (h : label_ok city) : strcpy city = city := by
  unfold strcpy
  rw [List.takeWhile_eq_self_iff]
  intro c hc
  have : c ≠ Char.ofNat 0 := fun e => h.2 (e ▸ hc)
  simpa using this

/-- What `flight_schedule_find` returns when the active list can be read and
holds labels of the interface. -/
theorem find_eq (s : pool) (city : city_t) (al : List Int)
    (hal : active_list s = some al) (hc : label_ok city)
    (hl : ∀ i ∈ al, label_ok (destination_of s.array i)) :
    flight_schedule_find s city
      = some (s, al.find? (fun i => decide (destination_of s.array i = city))) := by
  unfold flight_schedule_find
  rw [find_loop_spec s.array city _ _ al hal hc hl]
  rfl

/-- `flight_schedule_free` on a record of the active list that runs to
completion keeps the invariant and the content of the other records. -/
theorem inv_free_cnt (n : Nat) (s s' : pool) (fl pre post : List Nat) (r : Nat)
    (h : pool_inv n s fl (pre ++ r :: post))
    (hf : flight_schedule_free s (some (r : Int)) = some s') :
    pool_inv n s' (r :: fl) (pre ++ post) ∧
    ∀ j, j ≠ r → cnt s'.array j = cnt s.array j := by
  obtain ⟨hlen, hfl, hal, hnd, hsum, hres, hlinks⟩ := h
  rcases hlinks with ⟨_, hdl⟩ | ⟨hn1, hprv⟩
  · obtain ⟨s2, e, hinv, _, hc⟩ := free_strong n s fl pre post r hlen hfl hal hnd hsum hres hdl
    rw [e] at hf
    simp only [Option.some.injEq] at hf
    subst hf
    exact ⟨hinv, hc⟩
  · exfalso
    simp only [List.length_append, List.length_cons] at hsum
    have hpre : pre = [] := List.eq_nil_of_length_eq_zero (by omega)
    have hpost : post = [] := List.eq_nil_of_length_eq_zero (by omega)
    subst hpre hpost
    obtain ⟨_, m, hm, hrest⟩ := hal
    have hm0 : m = none := hrest
    have hr0 : r = 0 := by
      have := nxt_lt _ _ _ hm
      omega
    subst hr0 hm0
    rw [free_fault s 0 hm hprv] at hf
    cases hf

theorem city_inv_find (n : Nat) (s : pool) (fl al : List Nat) (city : city_t)
    (hinv : city_inv n s fl al) (hc : label_ok city) :
    flight_schedule_find s city
      = some (s, (al.map (fun i : Nat => (i : Int))).find?
          (fun i => decide (destination_of s.array i = city))) := by
  apply find_eq s city _ (inv_lists n s fl al hinv.1).2 hc
  intro i hi
  rw [List.mem_map] at hi
  obtain ⟨j, hj, hji⟩ := hi
  rw [← hji]
  exact hinv.2.1 j hj

theorem find_none_iff (a : List flight_schedule) (city : city_t) (al : List Nat) :
    (al.map (fun i : Nat => (i : Int))).find? (fun i => decide (destination_of a i = city)) = none
      ↔ ∀ i ∈ al, destination_of a (i : Int) ≠ city := by
  rw [List.find?_eq_none]
  constructor
  · intro h i hi
    have := h (i : Int) (List.mem_map.mpr ⟨i, hi, rfl⟩)
    simpa using this
  · intro h x hx
    rw [List.mem_map] at hx
    obtain ⟨i, hi, hix⟩ := hx
    rw [← hix]
    simpa using h i hi

theorem find_some_mem (a : List flight_schedule) (city : city_t) (al : List Nat) (r : Int)
    (h : (al.map (fun i : Nat => (i : Int))).find?
      (fun i => decide (destination_of a i = city)) = some r) :
    ∃ i ∈ al, (i : Int) = r ∧ destination_of a (i : Int) = city := by
  have h1 := List.mem_of_find?_eq_some h
  have h2 := List.find?_some h
  rw [List.mem_map] at h1
  obtain ⟨i, hi, hir⟩ := h1
  refine ⟨i, hi, hir, ?_⟩
  rw [hir]
  simpa using h2

/-- An add-city command that runs to completion keeps the invariant. -/
theorem city_inv_add (n : Nat) (s s' : pool) (city : city_t) (m : List msg)
    (fl al : List Nat) (hinv : city_inv n s fl al) (hc : label_ok city)
    (h : flight_schedule_add s city = some (s', m)) :
    ∃ fl' al', city_inv n s' fl' al' := by
  unfold flight_schedule_add at h
  rw [city_inv_find n s fl al city hinv hc] at h
  simp only [Option.bind_eq_bind, Option.some_bind] at h
  cases hfind : (al.map (fun i : Nat => (i : Int))).find?
      (fun i => decide (destination_of s.array i = city)) with
  | some r =>
    simp only [hfind, ne_eq, reduceCtorEq, not_false_eq_true, if_true, Option.pure_def,
      Option.some.injEq, Prod.mk.injEq] at h
    exact ⟨fl, al, h.1 ▸ hinv⟩
  | none =>
    simp only [hfind, ne_eq, not_true_eq_false, if_false] at h
    by_cases hfree : s.flight_schedules_free = none
    · simp only [hfree, if_true, Option.pure_def, Option.some.injEq, Prod.mk.injEq] at h
      exact ⟨fl, al, h.1 ▸ hinv⟩
    · simp only [hfree, if_false] at h
      cases ha : flight_schedule_allocate s with
      | none => simp [ha] at h
      | some x =>
        obtain ⟨s1, p⟩ := x
        obtain ⟨f, fl', hfl, hp, _, hinv1, hc1⟩ := inv_allocate n s s1 p fl al hinv.1 ha
        subst hp
        simp only [ha, Option.some_bind, load_nat] at h
        cases hv : s1.array[f]? with
        | none => simp [hv] at h
        | some v =>
          simp only [hv, Option.some_bind] at h
          cases hst : store s1.array (some (f : Int)) { v with destination := strcpy city } with
          | none => simp [hst] at h
          | some a =>
            simp only [hst, Option.some_bind, Option.pure_def, Option.some.injEq,
              Prod.mk.injEq] at h
            obtain ⟨hs', _⟩ := h
            subst hs'
            have hf_al : f ∉ al := by
              have hnd := hinv1.2.2.2.1
              intro hx
              have h3 : (f :: al).Nodup := (List.nodup_append.mp hnd).2.1
              exact (List.nodup_cons.mp h3).1 hx
            obtain ⟨_, _, _, ca⟩ := store_content_eff s1.array a f v (strcpy city) v.flights hv hst
            have hdest : ∀ i ∈ al, destination_of a (i : Int) = destination_of s.array (i : Int) := by
              intro i hi
              have hif : i ≠ f := fun e => hf_al (e ▸ hi)
              rw [destination_of_cnt s1.array a i (ca i hif), destination_of_cnt s.array s1.array i (hc1 i)]
            have hdf : destination_of a (f : Int) = city := by
              have hfl1 : f < s1.array.length := by
                by_contra hlt
                rw [List.getElem?_eq_none (by omega)] at hv
                cases hv
              rw [store_nat _ _ _ hfl1] at hst
              simp only [Option.some.injEq] at hst
              unfold destination_of
              rw [load_nat, ← hst]
              simp [hfl1, strcpy_label city hc]
            refine ⟨fl', f :: al, ?_, ?_, ?_⟩
            · exact inv_populate n s1 fl' (f :: al) f v (strcpy city) v.flights a hinv1
                (List.mem_cons_self _ _) (by rw [load_nat]; exact hv) hst
            · intro i hi
              rcases List.mem_cons.mp hi with h1 | h1
              · rw [h1]
                show label_ok (destination_of a (f : Int))
                rw [hdf]
                exact hc
              · show label_ok (destination_of a (i : Int))
                rw [hdest i h1]
                exact hinv.2.1 i h1
            · show ((f :: al).map (fun i : Nat => destination_of a (i : Int))).Nodup
              rw [List.map_cons, List.nodup_cons]
              constructor
              · rw [hdf, List.mem_map]
                rintro ⟨i, hi, hic⟩
                rw [hdest i hi] at hic
                exact (find_none_iff s.array city al).mp hfind i hi hic
              · have hmap : al.map (fun i : Nat => destination_of a (i : Int))
                    = al.map (fun i : Nat => destination_of s.array (i : Int)) :=
                  List.map_congr_left hdest
                rw [hmap]
                exact hinv.2.2

/-- A remove-city command that runs to completion keeps the invariant. -/
theorem city_inv_remove (n : Nat) (s s' : pool) (city : city_t) (m : List msg)
    (fl al : List Nat) (hinv : city_inv n s fl al) (hc : label_ok city)
    (h : flight_schedule_remove s city = some (s', m)) :
    ∃ fl' al', city_inv n s' fl' al' := by
  unfold flight_schedule_remove at h
  rw [city_inv_find n s fl al city hinv hc] at h
  simp only [Option.bind_eq_bind, Option.some_bind] at h
  cases hfind : (al.map (fun i : Nat => (i : Int))).find?
      (fun i => decide (destination_of s.array i = city)) with
  | none =>
    simp only [hfind, if_true, Option.pure_def, Option.some.injEq, Prod.mk.injEq] at h
    exact ⟨fl, al, h.1 ▸ hinv⟩
  | some r =>
    simp only [hfind, reduceCtorEq, if_false] at h
    obtain ⟨i, hi, hir, _⟩ := find_some_mem s.array city al r hfind
    subst hir
    cases hfr : flight_schedule_free s (some (i : Int)) with
    | none => simp [hfr] at h
    | some s2 =>
      simp only [hfr, Option.some_bind, Option.pure_def, Option.some.injEq,
        Prod.mk.injEq] at h
      obtain ⟨hs', _⟩ := h
      subst hs'
      obtain ⟨pre, post, hsplit⟩ := List.append_of_mem hi
      subst hsplit
      obtain ⟨hinv2, hc2⟩ := inv_free_cnt n s s2 fl pre post i hinv.1 hfr
      have hnd : (pre ++ i :: post).Nodup :=
        (List.nodup_append.mp hinv.1.2.2.2.1).2.1
      have hi_not : ∀ j ∈ pre ++ post, j ≠ i := by
        intro j hj e
        subst e
        have h3 := List.nodup_append.mp hnd
        rcases List.mem_append.mp hj with h4 | h4
        · exact h3.2.2 h4 (List.mem_cons_self _ _)
        · exact (List.nodup_cons.mp h3.2.1).1 h4
      have hdest : ∀ j ∈ pre ++ post,
          destination_of s2.array (j : Int) = destination_of s.array (j : Int) :=
        fun j hj => destination_of_cnt s.array s2.array j (hc2 j (hi_not j hj))
      have hsub : ∀ j ∈ pre ++ post, j ∈ pre ++ i :: post := by
        intro j hj
        rcases List.mem_append.mp hj with h4 | h4
        · exact List.mem_append_left _ h4
        · exact List.mem_append_right _ (List.mem_cons_of_mem _ h4)
      refine ⟨i :: fl, pre ++ post, hinv2, ?_, ?_⟩
      · intro j hj
        rw [hdest j hj]
        exact hinv.2.1 j (hsub j hj)
      · have hmap : (pre ++ post).map (fun j : Nat => destination_of s2.array (j : Int))
            = (pre ++ post).map (fun j : Nat => destination_of s.array (j : Int)) :=
          List.map_congr_left hdest
        rw [hmap]
        have hsl : List.Sublist (pre ++ post) (pre ++ i :: post) :=
          List.Sublist.append (List.Sublist.refl pre) (List.sublist_cons_self i post)
        exact List.Nodup.sublist (List.Sublist.map _ hsl) hinv.2.2

/-- Every state reached by city commands satisfies the invariant. -/
theorem city_reachable_inv (n : Nat) (s : pool) (h : city_reachable n s) :
    ∃ fl al, city_inv n s fl al := by
  induction h with
  | init arr s hlen hi =>
    exact ⟨List.range n, [], inv_init n arr s hlen hi, by simp, by simp⟩
  | add s s' city m _ hc ha ih =>
    obtain ⟨fl, al, hinv⟩ := ih
    exact city_inv_add n s s' city m fl al hinv hc ha
  | remove s s' city m _ hc hrm ih =>
    obtain ⟨fl, al, hinv⟩ := ih
    exact city_inv_remove n s s' city m fl al hinv hc hrm

/-- C19: in every state reached from `flight_schedule_initialize` by add-city
and remove-city commands with labels of the interface, the active list can be
read and no two of its records have the same destination; an add-city for a
label that some active record holds prints the city-exists message and
returns the state as it was, and an add-city for a label that no active
record holds, issued when the free list is empty, prints the no-free message
and returns the state as it was. -/
theorem city_labels_unique (n : Nat) (s : pool) (hr : city_reachable n s) :
    ∃ al, active_list s = some al ∧
      (al.map (destination_of s.array)).Nodup ∧
      ∀ city, label_ok city →
        ((∃ i ∈ al, destination_of s.array i = city) →
          flight_schedule_add s city = some (s, [msg.city_exists city])) ∧
        ((∀ i ∈ al, destination_of s.array i ≠ city) → s.flight_schedules_free = none →
          flight_schedule_add s city = some (s, [msg.schedule_no_free])) := by
  obtain ⟨fl, al, hinv⟩ := city_reachable_inv n s hr
  refine ⟨al.map (fun i : Nat => (i : Int)), (inv_lists n s fl al hinv.1).2, ?_, ?_⟩
  · rw [List.map_map]
    exact hinv.2.2
  · intro city hc
    have hfind := city_inv_find n s fl al city hinv hc
    constructor
    · rintro ⟨x, hx, hxc⟩
      cases hf : (al.map (fun i : Nat => (i : Int))).find?
          (fun i => decide (destination_of s.array i = city)) with
      | none =>
        rw [List.find?_eq_none] at hf
        exact absurd (by simpa using hxc) (hf x hx)
      | some r =>
        unfold flight_schedule_add
        rw [hfind, hf]
        simp
    · intro hall hfree
      have hf : (al.map (fun i : Nat => (i : Int))).find?
          (fun i => decide (destination_of s.array i = city)) = none := by
        rw [List.find?_eq_none]
        intro x hx
        simpa using hall x hx
      unfold flight_schedule_add
      rw [hfind, hf]
      simp [hfree]

theorem city_run_reachable (n : Nat) (cmds : List city_cmd) (s s' : pool)
    (hs : city_reachable n s) (hl : ∀ c ∈ cmds, label_ok c.label)
    (hrun : city_run s cmds = some s') : city_reachable n s' := by
  induction cmds generalizing s with
  | nil =>
    simp only [city_run, List.foldlM_nil, Option.pure_def, Option.some.injEq] at hrun
    exact hrun ▸ hs
  | cons c rest ih =>
    simp only [city_run, List.foldlM_cons, Option.bind_eq_bind] at hrun
    cases hstep : city_step s c with
    | none => simp [hstep] at hrun
    | some s1 =>
      simp only [hstep, Option.some_bind] at hrun
      have hc := hl c (List.mem_cons_self _ _)
      apply ih s1 _ (fun d hd => hl d (List.mem_cons_of_mem _ hd)) hrun
      cases c with
      | add city =>
        simp only [city_step] at hstep
        cases hx : flight_schedule_add s city with
        | none => simp [hx] at hstep
        | some x =>
          simp only [hx, Option.map_some', Option.some.injEq] at hstep
          exact city_reachable.add s s1 city x.2 hs hc (by rw [hx, ← hstep])
      | remove city =>
        simp only [city_step] at hstep
        cases hx : flight_schedule_remove s city with
        | none => simp [hx] at hstep
        | some x =>
          simp only [hx, Option.map_some', Option.some.injEq] at hstep
          exact city_reachable.remove s s1 city x.2 hs hc (by rw [hx, ← hstep])

theorem city_run_from_init (n : Nat) (arr : List flight_schedule) (cmds : List city_cmd)
    (s' : pool) (hlen : arr.length = n) (hl : ∀ c ∈ cmds, label_ok c.label)
    (hrun : ( flight_schedule_initialize arr (n : Int)).bind (fun s => city_run s cmds)
      = some s') : city_reachable n s' := by
  cases h0 : flight_schedule_initialize arr (n : Int) with
  | none => simp [h0] at hrun
  | some s0 =>
    simp only [h0, Option.some_bind] at hrun
    exact city_run_reachable n cmds s0 s' (city_reachable.init arr s0 hlen h0) hl hrun

theorem city_labels_unique_witness :
    ∃ al, active_list pool_of_cities = some al ∧
      (al.map (destination_of pool_of_cities.array)).Nodup ∧
      ∀ city, label_ok city →
        ((∃ i ∈ al, destination_of pool_of_cities.array i = city) →
          flight_schedule_add pool_of_cities city
            = some (pool_of_cities, [msg.city_exists city])) ∧
        ((∀ i ∈ al, destination_of pool_of_cities.array i ≠ city) →
          pool_of_cities.flight_schedules_free = none →
          flight_schedule_add pool_of_cities city
            = some (pool_of_cities, [msg.schedule_no_free])) :=
  city_labels_unique 3 pool_of_cities
    (city_run_from_init 3 [raw_record, raw_record, raw_record]
      [city_cmd.add ['T', 'o', 'r'], city_cmd.add ['R', 'o', 'm', 'e'],
       city_cmd.add ['T', 'o', 'r', 'o', 'n', 't', 'o'], city_cmd.add ['T', 'o', 'r'],
       city_cmd.remove ['R', 'o', 'm', 'e']]
      pool_of_cities rfl (by decide) (by decide))

/-! ## The frame of the four flight commands -/

/-- Following `next` reads the links only. -/
theorem list_from_links (a a' : List flight_schedule) (h : ∀ j, nxt a' j = nxt a j)
    (fuel : Nat) (p : ptr) : list_from a' fuel p = list_from a fuel p := by
  induction fuel generalizing p with
  | zero => simp [list_from]
  | succ fuel ih =>
    cases p with
    | none => simp [list_from]
    | some i =>
      simp only [list_from]
      by_cases hi : 0 ≤ i
      · have hn := h i.toNat
        unfold nxt at hn
        simp only [load, hi, if_true]
        cases h1 : a'[i.toNat]? with
        | none =>
          cases h2 : a[i.toNat]? with
          | none => rfl
          | some v => simp [h1, h2] at hn
        | some w =>
          cases h2 : a[i.toNat]? with
          | none => simp [h1, h2] at hn
          | some v =>
            simp only [h1, h2, Option.map_some', Option.some.injEq] at hn
            simp only [Option.bind_eq_bind, Option.some_bind]
            rw [hn, ih]
      · simp [load, hi]

/-- Every record met when following `next` can be read. -/
theorem list_from_load (a : List flight_schedule) (fuel : Nat) (p : ptr) (L : List Int)
    (h : list_from a fuel p = some L) (r : Int) (hr : r ∈ L) :
    ∃ v, load a (some r) = some v := by
  induction fuel generalizing p L with
  | zero => simp [list_from] at h
  | succ fuel ih =>
    cases p with
    | none =>
      simp only [list_from, Option.some.injEq] at h
      subst h
      exact absurd hr (List.not_mem_nil r)
    | some i =>
      simp only [list_from] at h
      cases h1 : load a (some i) with
      | none => simp [h1] at h
      | some v =>
        cases h2 : list_from a fuel v.next with
        | none => simp [h1, h2] at h
        | some l =>
          simp only [h1, h2, Option.bind_eq_bind, Option.some_bind, Option.pure_def,
            Option.some.injEq] at h
          subst h
          rcases List.mem_cons.mp hr with e | hm
          · exact ⟨v, e ▸ h1⟩
          · exact ih _ _ h2 hm

/-- The write `schedule->flights = fl` through a pointer that can be read: it
succeeds and changes the flights of that one record. -/
theorem store_flights_frame (a : List flight_schedule) (r : Int) (v : flight_schedule)
    (fl : List flight) (hv : load a (some r) = some v) :
    ∃ a', store a (some r) { v with flights := fl } = some a' ∧
      a'.length = a.length ∧ (∀ j, nxt a' j = nxt a j) ∧ (∀ j, prv a' j = prv a j) ∧
      (∀ i, destination_of a' i = destination_of a i) ∧
      (∀ i, i ≠ r → load a' (some i) = load a (some i)) ∧
      load a' (some r) = some { v with flights := fl } := by
  have hr0 : 0 ≤ r := by
    by_contra hneg
    simp [load, hneg] at hv
  obtain ⟨k, rfl⟩ := Int.eq_ofNat_of_zero_le hr0
  rw [load_nat] at hv
  have hk : k < a.length := by
    by_contra hlt
    rw [List.getElem?_eq_none (by omega)] at hv
    cases hv
  refine ⟨a.set k { v with flights := fl }, store_nat a k _ hk, by simp, ?_, ?_, ?_, ?_, ?_⟩
  · intro j
    unfold nxt
    rw [List.getElem?_set]
    by_cases h : k = j
    · subst h
      simp [hk, hv]
    · simp [h]
  · intro j
    unfold prv
    rw [List.getElem?_set]
    by_cases h : k = j
    · subst h
      simp [hk, hv]
    · simp [h]
  · intro i
    unfold destination_of
    by_cases hi : 0 ≤ i
    · obtain ⟨j, rfl⟩ := Int.eq_ofNat_of_zero_le hi
      rw [load_nat, load_nat, List.getElem?_set]
      by_cases h : k = j
      · subst h
        simp [hk, hv]
      · simp [h]
    · simp [load, hi]
  · intro i hne
    by_cases hi : 0 ≤ i
    · obtain ⟨j, rfl⟩ := Int.eq_ofNat_of_zero_le hi
      rw [load_nat, load_nat, List.getElem?_set]
      have h : ¬ k = j := fun e => hne (by rw [e])
      simp [h]
    · simp [load, hi]
  · rw [load_nat, List.getElem?_set]
    simp [hk]

/-- What a flight command does in a state whose active list can be read and
holds labels of the interface: with no active record labelled `city` it
returns the state as it was, and otherwise it writes the table its loop
computes into the flights of the first active record labelled `city`. -/
theorem flight_command_eff (qsort : qsort_t) (s : pool) (city : city_t) (c : flight_cmd)
    (al : List Int) (hal : active_list s = some al) (hc : label_ok city)
    (hl : ∀ i ∈ al, label_ok (destination_of s.array i)) :
    (al.find? (fun i => decide (destination_of s.array i = city)) = none ∧
      flight_command qsort s city c = some (s, [msg.city_bad city])) ∨
    ∃ r v a m, al.find? (fun i => decide (destination_of s.array i = city)) = some r ∧
      load s.array (some r) = some v ∧
      store s.array (some r) { v with flights := cmd_step qsort v.flights c } = some a ∧
      flight_command qsort s city c = some ({ s with array := a }, m) := by
  have hfe := find_eq s city al hal hc hl
  cases hfind : al.find? (fun i => decide (destination_of s.array i = city)) with
  | none =>
    left
    rw [hfind] at hfe
    refine ⟨rfl, ?_⟩
    cases c <;>
      simp [flight_command, flight_schedule_add_flight, flight_schedule_remove_flight,
        flight_schedule_schedule_seat, flight_schedule_unschedule_seat, hfe]
  | some r =>
    right
    rw [hfind] at hfe
    obtain ⟨v, hv⟩ := list_from_load s.array _ _ al hal r (List.mem_of_find?_eq_some hfind)
    obtain ⟨a, hst, _⟩ := store_flights_frame s.array r v (cmd_step qsort v.flights c) hv
    cases c with
    | add tin cin =>
      refine ⟨r, v, a, (add_flight_body qsort v.flights tin cin).2, rfl, hv, hst, ?_⟩
      simp only [cmd_step] at hst
      simp [flight_command, flight_schedule_add_flight, hfe, hv, hst]
    | remove tin =>
      refine ⟨r, v, a, (remove_flight_body qsort v.flights tin).2, rfl, hv, hst, ?_⟩
      simp only [cmd_step] at hst
      simp [flight_command, flight_schedule_remove_flight, hfe, hv, hst]
    | book tin =>
      refine ⟨r, v, a, (schedule_seat_body v.flights tin).2, rfl, hv, hst, ?_⟩
      simp only [cmd_step] at hst
      simp [flight_command, flight_schedule_schedule_seat, hfe, hv, hst]
    | release tin =>
      refine ⟨r, v, a, (unschedule_seat_body v.flights tin).2, rfl, hv, hst, ?_⟩
      simp only [cmd_step] at hst
      simp [flight_command, flight_schedule_unschedule_seat, hfe, hv, hst]

/-- C21: an add-flight, remove-flight, book-seat or release-seat command for
`city`, run in a state whose active list can be followed to NULL and holds
labels of the interface, runs to completion, and nothing but the flight table
of the record that `flight_schedule_find` returns is written: the two head
pointers, the free list and the active list (members and order), the length of
the array, every record's destination label and both links of every record are
the same before and after; when no active record is labelled `city` the state
after is the state before and the output is the no-schedule message; otherwise,
with `r` the first active record labelled `city`, every record other than `r`
is as it was, and `r` is the record it was with its flight table replaced by
the table the command computes from the old one. -/
theorem flight_command_frame (qsort : qsort_t) (s : pool) (city : city_t) (c : flight_cmd)
    (al : List Int) (hal : active_list s = some al) (hc : label_ok city)
    (hl : ∀ i ∈ al, label_ok (destination_of s.array i)) :
    ∃ s' m, flight_command qsort s city c = some (s', m) ∧
      s'.flight_schedules_free = s.flight_schedules_free ∧
      s'.flight_schedules_active = s.flight_schedules_active ∧
      free_list s' = free_list s ∧ active_list s' = active_list s ∧
      s'.array.length = s.array.length ∧
      (∀ i, destination_of s'.array i = destination_of s.array i) ∧
      (∀ j, nxt s'.array j = nxt s.array j) ∧ (∀ j, prv s'.array j = prv s.array j) ∧
      ((∀ i ∈ al, destination_of s.array i ≠ city) → s' = s ∧ m = [msg.city_bad city]) ∧
      ∀ r, al.find? (fun i => decide (destination_of s.array i = city)) = some r →
        r ∈ al ∧ destination_of s.array r = city ∧
        (∀ i, i ≠ r → load s'.array (some i) = load s.array (some i)) ∧
        ∃ v, load s.array (some r) = some v ∧
          load s'.array (some r) = some { v with flights := cmd_step qsort v.flights c } := by
  rcases flight_command_eff qsort s city c al hal hc hl with ⟨hnone, hrun⟩ | ⟨r, v, a, m, hsome, hv, hst, hrun⟩
  · refine ⟨s, [msg.city_bad city], hrun, rfl, rfl, rfl, rfl, rfl, fun _ => rfl, fun _ => rfl,
      fun _ => rfl, fun _ => ⟨rfl, rfl⟩, ?_⟩
    intro r hr
    rw [hnone] at hr
    cases hr
  · obtain ⟨a', hst', hlen, hn, hp, hd, hoth, hself⟩ :=
      store_flights_frame s.array r v (cmd_step qsort v.flights c) hv
    rw [hst] at hst'
    simp only [Option.some.injEq] at hst'
    subst hst'
    refine ⟨{ s with array := a }, m, hrun, rfl, rfl, ?_, ?_, hlen, hd, hn, hp, ?_, ?_⟩
    · unfold free_list
      simp only [hlen]
      exact list_from_links _ _ hn _ _
    · unfold active_list
      simp only [hlen]
      exact list_from_links _ _ hn _ _
    · intro hno
      have h1 := List.mem_of_find?_eq_some hsome
      have h2 := List.find?_some hsome
      exact absurd (by simpa using h2) (hno r h1)
    · intro r' hr'
      rw [hsome] at hr'
      simp only [Option.some.injEq] at hr'
      subst hr'
      have h2 := List.find?_some hsome
      exact ⟨List.mem_of_find?_eq_some hsome, by simpa using h2, hoth, v, hv, hself⟩

theorem flight_command_frame_witness :
    active_list pool_of_cities = some [2, 0] ∧
    label_ok ['T', 'o', 'r'] ∧
    (∀ i ∈ [(2 : Int), 0], label_ok (destination_of pool_of_cities.array i)) ∧
    ∃ s' m, flight_command insertion_qsort pool_of_cities ['T', 'o', 'r']
        (flight_cmd.add (some 360) (some 5)) = some (s', m) ∧
      s'.flight_schedules_free = pool_of_cities.flight_schedules_free ∧
      s'.flight_schedules_active = pool_of_cities.flight_schedules_active ∧
      free_list s' = free_list pool_of_cities ∧
      active_list s' = active_list pool_of_cities ∧
      s'.array.length = pool_of_cities.array.length ∧
      (∀ i, destination_of s'.array i = destination_of pool_of_cities.array i) ∧
      (∀ j, nxt s'.array j = nxt pool_of_cities.array j) ∧
      (∀ j, prv s'.array j = prv pool_of_cities.array j) ∧
      ((∀ i ∈ [(2 : Int), 0], destination_of pool_of_cities.array i ≠ ['T', 'o', 'r']) →
        s' = pool_of_cities ∧ m = [msg.city_bad ['T', 'o', 'r']]) ∧
      ∀ r, [(2 : Int), 0].find?
          (fun i => decide (destination_of pool_of_cities.array i = ['T', 'o', 'r'])) = some r →
        r ∈ [(2 : Int), 0] ∧ destination_of pool_of_cities.array r = ['T', 'o', 'r'] ∧
        (∀ i, i ≠ r → load s'.array (some i) = load pool_of_cities.array (some i)) ∧
        ∃ v, load pool_of_cities.array (some r) = some v ∧
          load s'.array (some r) = some
            { v with
              flights := cmd_step insertion_qsort v.flights
                (flight_cmd.add (some 360) (some 5)) } :=
  ⟨by decide, by decide, by decide,
   flight_command_frame insertion_qsort pool_of_cities ['T', 'o', 'r']
     (flight_cmd.add (some 360) (some 5)) [2, 0] (by decide) (by decide) (by decide)⟩

/-- Two runs, evaluated: `a Tor` with `360 5` writes the flight
(360, 5, 5) into record 0 and nothing else, although the active list starts
with the record of Toronto; the same command for a city without a schedule
returns the state as it was. -/
theorem flight_command_frame_run :
    flight_command insertion_qsort pool_of_cities ['T', 'o', 'r']
        (flight_cmd.add (some 360) (some 5))
      = some (
          { pool_of_cities with
            array := pool_of_cities.array.set 0
              (flight_schedule.mk ['T', 'o', 'r']
                [empty_flight, empty_flight, empty_flight, empty_flight, flight.mk 360 5 5]
                none (some 2)) }, []) ∧
    flight_command insertion_qsort pool_of_cities ['T', 'o']
        (flight_cmd.book (some 360))
      = some (pool_of_cities, [msg.city_bad ['T', 'o']]) := by
  decide

/-- A flight command keeps the invariant of the city commands, with the same
free list and the same active list; in such a state at most one active record
is labelled `city`, the one `flight_schedule_find` returns. -/
theorem flight_command_city_inv (n : Nat) (qsort : qsort_t) (s : pool) (fl al : List Nat)
    (city : city_t) (c : flight_cmd) (hinv : city_inv n s fl al) (hc : label_ok city) :
    ∃ s' m, flight_command qsort s city c = some (s', m) ∧ city_inv n s' fl al := by
  have hal := (inv_lists n s fl al hinv.1).2
  have hl : ∀ i ∈ al.map (fun i : Nat => (i : Int)), label_ok (destination_of s.array i) := by
    intro i hi
    rw [List.mem_map] at hi
    obtain ⟨j, hj, hji⟩ := hi
    rw [← hji]
    exact hinv.2.1 j hj
  rcases flight_command_eff qsort s city c _ hal hc hl with
    ⟨_, hrun⟩ | ⟨r, v, a, m, hsome, hv, hst, hrun⟩
  · exact ⟨s, _, hrun, hinv⟩
  · obtain ⟨i, hi, hir, _⟩ := find_some_mem s.array city al r hsome
    subst hir
    obtain ⟨a', hst', _, _, _, hd, _, _⟩ :=
      store_flights_frame s.array (i : Int) v (cmd_step qsort v.flights c) hv
    rw [hst] at hst'
    simp only [Option.some.injEq] at hst'
    subst hst'
    refine ⟨{ s with array := a }, m, hrun,
      inv_populate n s fl al i v v.destination (cmd_step qsort v.flights c) a hinv.1 hi hv hst,
      ?_, ?_⟩
    · intro j hj
      show label_ok (destination_of a (j : Int))
      rw [hd]
      exact hinv.2.1 j hj
    · have e : (fun i : Nat => destination_of ({ s with array := a } : pool).array (i : Int))
          = fun i : Nat => destination_of s.array (i : Int) := by
        funext j
        exact hd _
      rw [e]
      exact hinv.2.2

/-- Any sequence of flight commands with labels of the interface, started in
a state that satisfies the invariant of the city commands, runs to completion
and leaves the two lists and the invariant as they were. -/
theorem flight_command_run_inv (n : Nat) (qsort : qsort_t) (fl al : List Nat)
    (cmds : List (city_t × flight_cmd)) (hc : ∀ x ∈ cmds, label_ok x.1) (s : pool)
    (hinv : city_inv n s fl al) :
    ∃ s', flight_command_run qsort s cmds = some s' ∧ city_inv n s' fl al := by
  induction cmds generalizing s with
  | nil => exact ⟨s, rfl, hinv⟩
  | cons x rest ih =>
    obtain ⟨s1, m, h1, hinv1⟩ :=
      flight_command_city_inv n qsort s fl al x.1 x.2 hinv (hc x (List.mem_cons_self _ _))
    obtain ⟨s2, h2, hinv2⟩ := ih (fun y hy => hc y (List.mem_cons_of_mem _ hy)) s1 hinv1
    refine ⟨s2, ?_, hinv2⟩
    unfold flight_command_run at h2 ⊢
    rw [List.foldlM_cons, h1]
    exact h2

end FortunateFlight
